import Mathlib

/-!
# Papier grammar (`grammar.js`)

A shallow embedding of the tree-sitter grammar `papier`.

* Every regular expression constant of the source is a Boolean matcher on a whole
  string (a token is matched in full by its pattern).
* Every grammar rule is a Boolean recogniser over a concrete syntax tree; the tree
  records, for every terminal, the text it matched and the number of `extras`
  (carriage returns) skipped in front of it.  `src` gives back the input covered
  by a tree, and `Parses input d` says that `d` is a derivation of `input` in the
  grammar.  The grammar is ambiguous (a line `* x` is a line of two words and the
  start of a sub-document), so an input can have several derivations.
* `classify` and `scanWord` choose, among the matches of the alternatives of `word`
  that cover one and the same text, the one of highest lexical precedence.
* `lex` is the lexer of the generated parser: where the grammar allows several
  terminals it takes the one of highest lexical precedence, then the longest
  match, then a string literal before a pattern.  `parse` is the parser driven by
  that lexer; it builds at most one document for an input, which is one of its
  derivations (`parse_sound`), and the associativity marks `prec.left` and
  `prec.right` settle the two conflicts the grammar leaves.
-/

namespace Papier

/-- Input text, as a list of characters. -/
abbrev Str := List Char

/-! ## Character classes -/

/-- Class `[\s]`, as listed in the source comment: `[\t\n\v\f\r ]`. -/
def isSpace (c : Char) : Bool :=
  c == '\t' || c == '\n' || c == '\x0b' || c == '\x0c' || c == '\r' || c == ' '

/-- Class `[[:blank:]]`, as listed in the source comment: `[\t ]`. -/
def isBlank (c : Char) : Bool := c == '\t' || c == ' '

/-- Class `[^\n]`. -/
def isLineChar (c : Char) : Bool := c != '\n'

/-- Class `[^ \t\n]`. -/
def isChunkChar (c : Char) : Bool := c != ' ' && c != '\t' && c != '\n'

/-- Class `[.,;:!?]`. -/
def isPunct (c : Char) : Bool :=
  c == '.' || c == ',' || c == ';' || c == ':' || c == '!' || c == '?'

/-- Class `[0-9]`. -/
def isDigit (c : Char) : Bool := decide ('0' ≤ c) && decide (c ≤ '9')

/-- Class `[a-z]`. -/
def isLower (c : Char) : Bool := decide ('a' ≤ c) && decide (c ≤ 'z')

/-- Class `[A-Z]`. -/
def isUpper (c : Char) : Bool := decide ('A' ≤ c) && decide (c ≤ 'Z')

/-- Class `[0-9a-f]`. -/
def isHex (c : Char) : Bool := isDigit c || (decide ('a' ≤ c) && decide (c ≤ 'f'))

/-- Class `[a-zA-Z]`. -/
def isAliasHead (c : Char) : Bool := isLower c || isUpper c

/-- Class `[-_a-zA-Z0-9]`. -/
def isAliasTail (c : Char) : Bool :=
  c == '-' || c == '_' || isLower c || isUpper c || isDigit c

/-- Class `[a-z]` under the flag `(?i)` of a `RustRegex`: the flag applies Unicode
simple case folding, so the class holds every character that folds to a letter
`a`-`z`: the letters of either case, U+017F (long s, folds to `s`) and U+212A
(Kelvin sign, folds to `k`). -/
def isFoldLetter (c : Char) : Bool :=
  isLower c || isUpper c || c == '\u017f' || c == '\u212a'

/-- Class `[a-z0-9]` under the flag `(?i)`; a digit has no other case. -/
def isTagHead (c : Char) : Bool := isFoldLetter c || isDigit c

/-- Class `[-_a-z0-9]` under the flag `(?i)`; `-` and `_` have no other case. -/
def isTagTail (c : Char) : Bool :=
  c == '-' || c == '_' || isFoldLetter c || isDigit c

/-- Class `[a-z]` (first character of a format name). -/
def isFmtHead (c : Char) : Bool := isLower c

/-- Class `[-_a-z0-9]`. -/
def isFmtTail (c : Char) : Bool := c == '-' || c == '_' || isLower c || isDigit c

/-! ## Regular expressions -/

/-- Pattern `C+` for a character class `C`. -/
def plus (cls : Char → Bool) (s : Str) : Bool := !s.isEmpty && s.all cls

/-- Pattern `H T*` for character classes `H` and `T`. -/
def headStar (hd tl : Char → Bool) : Str → Bool
  | [] => false
  | c :: cs => hd c && cs.all tl

/-- Pattern `C{n}` for a character class `C`. -/
def exactly (cls : Char → Bool) (n : Nat) (s : Str) : Bool := s.length == n && s.all cls

/-- `const NL = /\n/`. -/
def NL (s : Str) : Bool := s == ['\n']

/-- `const SPACE = /[\s]+/`. -/
def SPACE (s : Str) : Bool := plus isSpace s

/-- `const TAB = /\t/`. -/
def TAB (s : Str) : Bool := s == ['\t']

/-- `const SPACE_TAB = /[[:blank:]]+/`. -/
def SPACE_TAB (s : Str) : Bool := plus isBlank s

/-- `const REGEX_LINE = /[^\n]+/`. -/
def REGEX_LINE (s : Str) : Bool := plus isLineChar s

/-- `const REGEX_CHUNK = /[^ \t\n]+/`. -/
def REGEX_CHUNK (s : Str) : Bool := plus isChunkChar s

/-- `const REGEX_WORD = REGEX_CHUNK`. -/
def REGEX_WORD (s : Str) : Bool := REGEX_CHUNK s

/-- `const REGEX_PUNCTUATION = /[.,;:!?]/`. -/
def REGEX_PUNCTUATION : Str → Bool
  | [c] => isPunct c
  | _ => false

/-- Matches `C{n}` at the front of `s`; gives the rest of `s`. -/
def eat (cls : Char → Bool) (n : Nat) (s : Str) : Option Str :=
  if exactly cls n (s.take n) then some (s.drop n) else none

/-- Matches the character `c` at the front of a string; gives the rest. -/
def eatChar (c : Char) : Str → Option Str
  | [] => none
  | d :: r => if d == c then some r else none

/-- `const REGEX_UUID = /[0-9a-f]{8}-[0-9a-f]{4}-[0-9a-f]{4}-[0-9a-f]{4}-[0-9a-f]{12}/`:
the pieces are matched one after the other and nothing may be left over. -/
def REGEX_UUID (s : Str) : Bool :=
  (eat isHex 8 s >>= eatChar '-' >>= eat isHex 4 >>= eatChar '-' >>= eat isHex 4 >>=
    eatChar '-' >>= eat isHex 4 >>= eatChar '-' >>= eat isHex 12) == some []

/-- `const REGEX_ALIAS = /[a-zA-Z][-_a-zA-Z0-9]*/`. -/
def REGEX_ALIAS (s : Str) : Bool := headStar isAliasHead isAliasTail s

/-- `const REGEX_REF = REGEX_CHUNK`. -/
def REGEX_REF (s : Str) : Bool := REGEX_CHUNK s

/-- `const REGEX_TAG = new RustRegex('(?i)[a-z0-9][-_a-z0-9]*')`. -/
def REGEX_TAG (s : Str) : Bool := headStar isTagHead isTagTail s

/-- `const REGEX_FMT = /[a-z][-_a-z0-9]*/`. -/
def REGEX_FMT (s : Str) : Bool := headStar isFmtHead isFmtTail s

/-! ## Tokens -/

/-- A lexical rule: field name, lexical precedence, literal in front, pattern of the
payload. -/
structure TokenRule where
  name : String
  precedence : Nat
  pfx : Str
  pattern : Str → Bool

/-- `function prefix_token(name, precedence, prefix, pattern)`:
`token(prec(precedence, seq(prefix, field(name, pattern))))`. -/
def prefix_token (name : String) (precedence : Nat) (pfx : Str) (pattern : Str → Bool) :
    TokenRule :=
  ⟨name, precedence, pfx, pattern⟩

/-- A bare pattern used as a terminal: no literal in front, default precedence 0. -/
def bare (pattern : Str → Bool) : TokenRule := ⟨"", 0, [], pattern⟩

/-- The payload captured when the token rule matches the whole of `s`. -/
def TokenRule.payload? (t : TokenRule) (s : Str) : Option Str :=
  if t.pfx.isPrefixOf s && t.pattern (s.drop t.pfx.length) then
    some (s.drop t.pfx.length)
  else none

/-- `uuid: $ => prefix_token('uuid', 2, '!', REGEX_UUID)`. -/
def uuid : TokenRule := prefix_token "uuid" 2 ['!'] REGEX_UUID

/-- `alias: $ => prefix_token('alias', 1, '!!', REGEX_ALIAS)`. -/
def «alias» : TokenRule := prefix_token "alias" 1 ['!', '!'] REGEX_ALIAS

/-- `ref: $ => prefix_token('ref', 1, '!?', REGEX_REF)`. -/
def ref : TokenRule := prefix_token "ref" 1 ['!', '?'] REGEX_REF

/-- `tag: $ => prefix_token('tag', 1, '#', REGEX_TAG)`. -/
def tag : TokenRule := prefix_token "tag" 1 ['#'] REGEX_TAG

/-- `fmt: $ => prefix_token('format', 1, '@', REGEX_FMT)`. -/
def fmt : TokenRule := prefix_token "format" 1 ['@'] REGEX_FMT

/-- The six alternatives of the `choice` inside `word`, in source order. -/
inductive Kind
  | Uuid | Alias | Ref | Tag | Fmt | Plain
  deriving DecidableEq

/-- The lexical rule behind each alternative; the last one is the bare `REGEX_WORD`. -/
def Kind.rule : Kind → TokenRule
  | .Uuid => uuid
  | .Alias => «alias»
  | .Ref => ref
  | .Tag => tag
  | .Fmt => fmt
  | .Plain => bare REGEX_WORD

/-- A matched token: which alternative, and the payload (the text after the literal
in front; for a plain word the whole text). -/
structure Token where
  kind : Kind
  payload : Str
  deriving DecidableEq

/-- The text covered by a token. -/
def Token.text (t : Token) : Str := t.kind.rule.pfx ++ t.payload

/-- The token is a match of its rule. -/
def Token.ok (t : Token) : Bool := t.kind.rule.pattern t.payload

/-- The lexical precedence of a token. -/
def Token.precedence (t : Token) : Nat := t.kind.rule.precedence

/-! ## Concrete syntax trees -/

/-- `extras: _ => ['\r']`: the text of `n` skipped carriage returns. -/
def extras (n : Nat) : Str := List.replicate n '\r'

/-- An occurrence of a terminal: the number of extras skipped in front of it, and
the text it matched. -/
structure Lexeme where
  pre : Nat
  text : Str
  deriving DecidableEq

/-- The input covered by a terminal occurrence. -/
def Lexeme.src (l : Lexeme) : Str := extras l.pre ++ l.text

/-- Tree of `seq(choice(...), optional(REGEX_PUNCTUATION))`: extras in front of the
token, the token, and the punctuation terminal when present. -/
structure Word where
  pre : Nat
  tok : Token
  punct : Option Lexeme
  deriving DecidableEq

/-- Tree of `many_sep(elem, sep)`: the first element, then separator and element
pairs. -/
structure ManySep (α : Type) where
  head : α
  tail : List (Lexeme × α)
  deriving DecidableEq

/-- Tree of `line`: the optional words, and the `NL` terminal. -/
structure Line where
  words : Option (ManySep Word)
  nl : Lexeme
  deriving DecidableEq

/-- Tree of `sub_document`: the literal `'* '`, the optional title, `'{'`, the
optional contents (one terminal per `REGEX_LINE` match), `'}'`, the optional `NL`. -/
structure SubDocument where
  star : Lexeme
  title : Option (ManySep Word)
  lbrace : Lexeme
  contents : Option (List Lexeme)
  rbrace : Lexeme
  nl : Option Lexeme
  deriving DecidableEq

/-- Tree of `choice($.sub_document, $.text)`; a text is its lines. -/
inductive Block
  | SubDocument (s : Papier.SubDocument)
  | Text (lines : List Line)
  deriving DecidableEq

/-- Tree of `papier`: the blocks, and the number of extras after the last token. -/
structure Document where
  blocks : List Block
  trail : Nat
  deriving DecidableEq

/-! ## Covered input -/

/-- The input covered by an optional terminal. -/
def optSrc : Option Lexeme → Str
  | none => []
  | some l => l.src

/-- The input covered by a word. -/
def Word.src (w : Word) : Str := extras w.pre ++ w.tok.text ++ optSrc w.punct

/-- The input covered by a `many_sep` tree. -/
def ManySep.src {α : Type} (f : α → Str) (m : ManySep α) : Str :=
  f m.head ++ (m.tail.map (fun p => p.1.src ++ f p.2)).flatten

/-- The input covered by an optional `many_sep` of words. -/
def wordsSrc : Option (ManySep Word) → Str
  | none => []
  | some m => m.src Word.src

/-- The input covered by a line. -/
def Line.src (l : Line) : Str := wordsSrc l.words ++ l.nl.src

/-- The input covered by optional contents. -/
def contentsSrc : Option (List Lexeme) → Str
  | none => []
  | some ls => (ls.map Lexeme.src).flatten

/-- The input covered by a sub-document. -/
def SubDocument.src (s : SubDocument) : Str :=
  s.star.src ++ wordsSrc s.title ++ s.lbrace.src ++ contentsSrc s.contents ++
    s.rbrace.src ++ optSrc s.nl

/-- The input covered by a block. -/
def Block.src : Block → Str
  | .SubDocument s => s.src
  | .Text ls => (ls.map Line.src).flatten

/-- The input covered by a document. -/
def Document.src (d : Document) : Str := (d.blocks.map Block.src).flatten ++ extras d.trail

/-! ## Grammar rules -/

/-- `function many_sep(elem, sep)`: `seq(elem, repeat(seq(sep, elem)))`. -/
def many_sep {α : Type} (elem : α → Bool) (sep : Str → Bool) (m : ManySep α) : Bool :=
  elem m.head && m.tail.all (fun p => sep p.1.text && elem p.2)

/-- `optional(r)` over an optional tree. -/
def optional {α : Type} (r : α → Bool) : Option α → Bool
  | none => true
  | some a => r a

/-- `repeat1(r)` over a list of trees. -/
def repeat1 {α : Type} (r : α → Bool) (l : List α) : Bool := !l.isEmpty && l.all r

/-- A string literal used as a terminal. -/
def lit (s : Str) (l : Lexeme) : Bool := l.text == s

/-- A pattern used as a terminal. -/
def pat (r : Str → Bool) (l : Lexeme) : Bool := r l.text

/-- `word: $ => seq(choice($.uuid, $.alias, $.ref, $.tag, $.fmt, REGEX_WORD),
optional(REGEX_PUNCTUATION))`. -/
def word (w : Word) : Bool := w.tok.ok && optional (pat REGEX_PUNCTUATION) w.punct

/-- `line: $ => seq(optional(seq(many_sep($.word, SPACE_TAB))), NL)`. -/
def line (l : Line) : Bool := optional (many_sep word SPACE_TAB) l.words && pat NL l.nl

/-- `text: $ => prec.right(repeat1($.line))`. -/
def text (ls : List Line) : Bool := repeat1 line ls

/-- `title: $ => many_sep($.word, SPACE)`. -/
def title (t : ManySep Word) : Bool := many_sep word SPACE t

/-- `contents: $ => repeat1(REGEX_LINE)`. -/
def contents (c : List Lexeme) : Bool := repeat1 (pat REGEX_LINE) c

/-- `sub_document: $ => prec.left(seq('* ', optional(field('title', $.title)), '{',
optional(field('contents', $.contents)), '}', optional(NL)))`. -/
def sub_document (s : SubDocument) : Bool :=
  lit ['*', ' '] s.star && optional title s.title && lit ['{'] s.lbrace &&
    optional contents s.contents && lit ['}'] s.rbrace && optional (pat NL) s.nl

/-- `choice($.sub_document, $.text)`. -/
def block : Block → Bool
  | .SubDocument s => sub_document s
  | .Text ls => text ls

/-- `papier: $ => repeat(choice($.sub_document, $.text))`. -/
def papier (d : Document) : Bool := d.blocks.all block

/-- The document `d` is a derivation of `input`. -/
def Parses (input : Str) (d : Document) : Prop := papier d = true ∧ d.src = input

instance (input : Str) (d : Document) : Decidable (Parses input d) := by
  unfold Parses; infer_instance

/-! ## Views of a tree -/

/-- The elements of a `many_sep` tree, in order. -/
def ManySep.elems {α : Type} (m : ManySep α) : List α := m.head :: m.tail.map Prod.snd

/-- The separators of a `many_sep` tree, in order. -/
def ManySep.seps {α : Type} (m : ManySep α) : List Lexeme := m.tail.map Prod.fst

/-- The words of a line. -/
def Line.wordList (l : Line) : List Word :=
  match l.words with
  | none => []
  | some m => m.elems

/-- The words of the title of a sub-document (none when it has no title). -/
def SubDocument.titleWords (s : SubDocument) : List Word :=
  match s.title with
  | none => []
  | some m => m.elems

/-- The separators between the words of the title. -/
def SubDocument.titleSeps (s : SubDocument) : List Lexeme :=
  match s.title with
  | none => []
  | some m => m.seps

/-- The content lines of a sub-document. -/
def SubDocument.contentLines (s : SubDocument) : List Str :=
  match s.contents with
  | none => []
  | some ls => ls.map Lexeme.text

/-- A block is a sub-document. -/
def Block.isSubDocument : Block → Bool
  | .SubDocument _ => true
  | .Text _ => false

/-! ## Lexical precedence -/

/-- The token of alternative `k` matching the whole of `s`, when there is one. -/
def Kind.token? (k : Kind) (s : Str) : Option Token :=
  (k.rule.payload? s).map (fun p => ⟨k, p⟩)

/-- Of two candidate tokens, the one of higher precedence; the earlier one on a tie. -/
def better (a : Option Token) (b : Option Token) : Option Token :=
  match a, b with
  | none, b => b
  | some x, none => some x
  | some x, some y => if x.precedence < y.precedence then some y else some x

/-- The token chosen for the text `s` among the alternatives `alts` tried in that
order: highest precedence, the earliest alternative on a tie. -/
def classifyIn (alts : List Kind) (s : Str) : Option Token :=
  alts.foldl (fun best k => better best (k.token? s)) none

/-- The alternatives of `word`, in the order of its `choice`. -/
def wordAlternatives : List Kind := [.Uuid, .Alias, .Ref, .Tag, .Fmt, .Plain]

/-- The token chosen for the text `s` by the `choice` of `word`. -/
def classify (s : Str) : Option Token := classifyIn wordAlternatives s

/-- The last character of `s` when it is a punctuation character. -/
def trailingPunct (s : Str) : Option Char :=
  match s.getLast? with
  | some c => if isPunct c then some c else none
  | none => none

/-- The word chosen for a chunk `s` (a text between separators) among the matches of
`word` that cover the whole of `s`: the token is the whole chunk, or the chunk
without a trailing punctuation character when that token has a strictly higher
precedence.  (The lexer, `lex` below, reads the chunk from its front and can
stop a prefixed token before the end of the chunk.) -/
def scanWord (s : Str) : Option Word :=
  let whole := classify s
  let cut : Option Word :=
    match trailingPunct s with
    | some c => (classify s.dropLast).map (fun t => ⟨0, t, some ⟨0, [c]⟩⟩)
    | none => none
  match whole, cut with
  | some t, some w => if t.precedence < w.tok.precedence then some w else some ⟨0, t, none⟩
  | some t, none => some ⟨0, t, none⟩
  | none, c => c

/-! ## The lexer

The generated parser reads its input through a lexer that is given, at every
point, the terminals the grammar allows there.  Among those that match a
beginning of the remaining input it takes the one of highest lexical
precedence; among equals the one with the longest match; on a further tie a
string literal before a pattern, then the first in the list. -/

/-- The terminals of the grammar: the three string literals, the patterns used
as terminals, and the six alternatives of `word` (the five prefixed tokens and
the bare `REGEX_WORD`). -/
inductive Terminal
  | star
  | lbrace
  | rbrace
  | NL
  | SPACE
  | SPACE_TAB
  | REGEX_LINE
  | REGEX_PUNCTUATION
  | word (k : Kind)
  deriving DecidableEq

/-- The terminal matches the whole of `s`. -/
def Terminal.matches : Terminal → Str → Bool
  | .star, s => s == ['*', ' ']
  | .lbrace, s => s == ['{']
  | .rbrace, s => s == ['}']
  | .NL, s => Papier.NL s
  | .SPACE, s => Papier.SPACE s
  | .SPACE_TAB, s => Papier.SPACE_TAB s
  | .REGEX_LINE, s => Papier.REGEX_LINE s
  | .REGEX_PUNCTUATION, s => Papier.REGEX_PUNCTUATION s
  | .word k, s => (k.rule.payload? s).isSome

/-- The lexical precedence of a terminal: the one given by `prec` inside `token`,
0 otherwise. -/
def Terminal.precedence : Terminal → Nat
  | .word k => k.rule.precedence
  | _ => 0

/-- The terminal is a string literal of the grammar (`'* '`, `'{'`, `'}'`). -/
def Terminal.isLiteral : Terminal → Bool
  | .star | .lbrace | .rbrace => true
  | _ => false

/-- The length of the longest beginning of `s` that `p` matches, when `p` matches
one. -/
def longest (p : Str → Bool) : Str → Option Nat
  | [] => if p [] then some 0 else none
  | c :: cs =>
    match longest (fun t => p (c :: t)) cs with
    | some n => some (n + 1)
    | none => if p [] then some 0 else none

/-- The longest match of a terminal at the front of `s`. -/
def Terminal.scan (t : Terminal) (s : Str) : Option Nat := longest t.matches s

/-- The match `b` is preferred to the match `a` found before it: higher
precedence, or the same precedence and a longer match, or the same precedence
and length and `b` a literal while `a` is a pattern. -/
def preferred (a b : Terminal × Nat) : Bool :=
  a.1.precedence < b.1.precedence ||
    (a.1.precedence == b.1.precedence &&
      (a.2 < b.2 || (a.2 == b.2 && !a.1.isLiteral && b.1.isLiteral)))

/-- Of the best match so far and a further candidate, the one to keep. -/
def pick (best : Option (Terminal × Nat)) (c : Option (Terminal × Nat)) :
    Option (Terminal × Nat) :=
  match best, c with
  | none, c => c
  | some a, none => some a
  | some a, some b => if preferred a b then some b else some a

/-- The terminal chosen at the front of `s` among the terminals `valid`, with the
length of its match; no carriage return is skipped. -/
def lexAt (valid : List Terminal) (s : Str) : Option (Terminal × Nat) :=
  valid.foldl (fun best t => pick best ((t.scan s).map (fun n => (t, n)))) none

/-- The number of carriage returns at the front of `s`. -/
def leadingExtras (s : Str) : Nat := (s.takeWhile (· == '\r')).length

/-- The next token of the input `s` where the terminals `valid` are allowed: the
terminal, its occurrence, and the rest of the input.

`extras: _ => ['\r']` makes the lexer skip carriage returns in front of a token.
A terminal whose pattern matches a carriage return (`REGEX_WORD`, `SPACE`,
`REGEX_LINE`), when allowed, takes the leading carriage returns into its own
match: it is the token when the character after them cannot continue it, or
when it is the terminal chosen after them; when another terminal is chosen
after them, the carriage returns are skipped in front of that one. -/
def lex (valid : List Terminal) (s : Str) : Option (Terminal × Lexeme × Str) :=
  let k := leadingExtras s
  let r := s.drop k
  if k = 0 then
    (lexAt valid s).map (fun m => (m.1, ⟨0, s.take m.2⟩, s.drop m.2))
  else
    match valid.find? (fun t => t.matches ['\r']) with
    | none => (lexAt valid r).map (fun m => (m.1, ⟨k, r.take m.2⟩, r.drop m.2))
    | some a =>
      if a.matches ('\r' :: r.take 1) && !r.isEmpty then
        (lexAt valid r).map (fun m =>
          if m.1 = a then (a, ⟨0, extras k ++ r.take m.2⟩, r.drop m.2)
          else (m.1, ⟨k, r.take m.2⟩, r.drop m.2))
      else some (a, ⟨0, extras k⟩, r)

/-! ## The parser

The grammar leaves the parser no choice once the tokens are fixed, but for two
conflicts settled by the associativity marks: `prec.right` on `text` makes a
text take every line that follows it, and `prec.left` on `sub_document` makes a
sub-document end at its `}`, the newline after it starting a line of text. -/

/-- The terminals allowed where a word starts inside a line or a title. -/
def wordTerminals : List Terminal :=
  [.word .Uuid, .word .Alias, .word .Ref, .word .Tag, .word .Fmt, .word .Plain]

/-- The terminals allowed where a block starts: at the start of the input, after a
line, and after a sub-document. -/
def blockTerminals : List Terminal := .star :: (wordTerminals ++ [.NL])

/-- The terminals allowed after the literal `'* '`. -/
def titleTerminals : List Terminal := wordTerminals ++ [.lbrace]

/-- The token of alternative `k` whose text is `text`. -/
def tokenOf (k : Kind) (text : Str) : Token := ⟨k, text.drop k.rule.pfx.length⟩

/-- After the token of a word inside `many_sep(word, sep)` followed by `close`:
the optional punctuation of the word, then the terminal that follows the word
(`sep` or `close`), and the rest of the input. -/
def lexPunct (sep close : Terminal) (s : Str) :
    Option (Option Lexeme × Terminal × Lexeme × Str) :=
  match lex [.REGEX_PUNCTUATION, sep, close] s with
  | none => none
  | some (.REGEX_PUNCTUATION, p, s1) =>
    (lex [sep, close] s1).map (fun x => (some p, x))
  | some x => some (none, x)

/-- After the token of a word inside `many_sep(word, sep)` followed by `close`:
the punctuation of that word, the (separator, word) pairs that follow, the
closing terminal, and the rest of the input. -/
def parseWords (sep close : Terminal) : Nat → Str →
    Option (Option Lexeme × List (Lexeme × Word) × Lexeme × Str)
  | 0, _ => none
  | fuel + 1, s =>
    match lexPunct sep close s with
    | none => none
    | some (p, t, l, s1) =>
      if t = close then some (p, [], l, s1)
      else
        match lex wordTerminals s1 with
        | some (.word k, w, s2) =>
          match parseWords sep close fuel s2 with
          | none => none
          | some (q, ws, c, s3) => some (p, (l, ⟨w.pre, tokenOf k w.text, q⟩) :: ws, c, s3)
        | _ => none

/-- After `'{'`: the content lines (`REGEX_LINE` matches) up to the `'}'`, that
terminal, and the rest of the input. -/
def parseContents : Nat → Str → Option (List Lexeme × Lexeme × Str)
  | 0, _ => none
  | fuel + 1, s =>
    match lex [.REGEX_LINE, .rbrace] s with
    | some (.rbrace, rb, s1) => some ([], rb, s1)
    | some (.REGEX_LINE, l, s1) =>
      match parseContents fuel s1 with
      | none => none
      | some (ls, rb, s2) => some (l :: ls, rb, s2)
    | _ => none

/-- The optional contents made of the content lines read. -/
def contentsOf : List Lexeme → Option (List Lexeme)
  | [] => none
  | ls => some ls

/-- After the literal `'* '`: the rest of the sub-document, up to its `'}'`. -/
def parseSubDocument (star : Lexeme) (fuel : Nat) (s : Str) : Option (SubDocument × Str) :=
  match lex titleTerminals s with
  | some (.lbrace, lb, s1) =>
    match parseContents fuel s1 with
    | none => none
    | some (ls, rb, s2) => some (⟨star, none, lb, contentsOf ls, rb, none⟩, s2)
  | some (.word k, w, s1) =>
    match parseWords .SPACE .lbrace fuel s1 with
    | none => none
    | some (p, ws, lb, s2) =>
      match parseContents fuel s2 with
      | none => none
      | some (ls, rb, s3) =>
        some (⟨star, some ⟨⟨w.pre, tokenOf k w.text, p⟩, ws⟩, lb, contentsOf ls, rb, none⟩, s3)
  | _ => none

/-- What the parser reads where a block starts: a line or a sub-document. -/
inductive Item
  | line (l : Line)
  | sub (s : SubDocument)
  deriving DecidableEq

/-- The lines and sub-documents of the input, in order, up to its end. -/
def parseItems : Nat → Str → Option (List Item)
  | 0, _ => none
  | fuel + 1, s =>
    if s.isEmpty then some []
    else
      match lex blockTerminals s with
      | some (.NL, nl, s1) => (parseItems fuel s1).map (fun r => .line ⟨none, nl⟩ :: r)
      | some (.star, st, s1) =>
        match parseSubDocument st fuel s1 with
        | none => none
        | some (sd, s2) => (parseItems fuel s2).map (fun r => .sub sd :: r)
      | some (.word k, w, s1) =>
        match parseWords .SPACE_TAB .NL fuel s1 with
        | none => none
        | some (p, ws, nl, s2) =>
          (parseItems fuel s2).map
            (fun r => .line ⟨some ⟨⟨w.pre, tokenOf k w.text, p⟩, ws⟩, nl⟩ :: r)
      | _ => none

/-- The blocks made of the items: consecutive lines form one text. -/
def blocksOf : List Item → List Block
  | [] => []
  | .sub s :: r => .SubDocument s :: blocksOf r
  | .line l :: r =>
    match blocksOf r with
    | .Text ls :: bs => .Text (l :: ls) :: bs
    | bs => .Text [l] :: bs

/-- The document the parser builds for `input`; `none` when the parse meets an
error.  Every token takes at least one character, so a fuel above the length
of the input is never used up. -/
def parse (input : Str) : Option Document :=
  (parseItems (input.length + 1) input).map (fun r => ⟨blocksOf r, 0⟩)

/-! ## Definitions used to state the properties -/

/-- Five groups of 8, 4, 4, 4 and 12 characters of `[0-9a-f]`, separated by `-`. -/
def UuidShape (u : Str) : Prop :=
  ∃ g1 g2 g3 g4 g5 : Str,
    u = g1 ++ '-' :: (g2 ++ '-' :: (g3 ++ '-' :: (g4 ++ '-' :: g5))) ∧
    (g1.length = 8 ∧ ∀ c ∈ g1, isHex c = true) ∧ (g2.length = 4 ∧ ∀ c ∈ g2, isHex c = true) ∧
    (g3.length = 4 ∧ ∀ c ∈ g3, isHex c = true) ∧ (g4.length = 4 ∧ ∀ c ∈ g4, isHex c = true) ∧
    (g5.length = 12 ∧ ∀ c ∈ g5, isHex c = true)

/-- The document made of one text block holding one line. -/
def lineDoc (words : Option (ManySep Word)) : Document :=
  ⟨[.Text [⟨words, ⟨0, ['\n']⟩⟩]], 0⟩

/-- The document made of one text block holding one line of one word. -/
def oneWordDoc (w : Word) : Document := lineDoc (some ⟨w, []⟩)

/-- The text made of a first chunk followed by (separator, chunk) pairs. -/
def joinChunks (w : Str) (rest : List (Str × Str)) : Str :=
  w ++ (rest.map (fun p => p.1 ++ p.2)).flatten

/-- The word chosen for a chunk (the plain word when the scanner chooses none). -/
def chosenWord (s : Str) : Word := (scanWord s).getD ⟨0, ⟨.Plain, s⟩, none⟩

/-- The chosen words of a first chunk and (separator, chunk) pairs, with the
separators as terminals. -/
def chosenWords (w : Str) (rest : List (Str × Str)) : ManySep Word :=
  ⟨chosenWord w, rest.map (fun p => (⟨0, p.1⟩, chosenWord p.2))⟩

/-- A `}` occurs in the text before any newline. -/
def closesOnLine : Str → Bool
  | [] => false
  | c :: cs => c == '}' || (c != '\n' && closesOnLine cs)

/-- Some `{` of the text is followed by a `}` with no newline in between. -/
def hasBraceSpan : Str → Bool
  | [] => false
  | c :: cs => (c == '{' && closesOnLine cs) || hasBraceSpan cs

/-- The parts of the text that follow a newline. -/
def afterNewlines : Str → List Str
  | [] => []
  | c :: cs => if c == '\n' then cs :: afterNewlines cs else afterNewlines cs

/-- The parts of the text that start a line: the text itself, and what follows
each newline. -/
def lineStarts (s : Str) : List Str := s :: afterNewlines s

/-- The text begins with the two characters `* `. -/
def startsWithOpener (t : Str) : Bool := ['*', ' '].isPrefixOf t

/-- The text begins with `* ` once its leading carriage returns are dropped. -/
def opensAfterExtras (t : Str) : Bool := startsWithOpener (t.dropWhile (· == '\r'))

/-- No block of the document is a sub-document. -/
def Document.allText (d : Document) : Bool := d.blocks.all (fun b => !b.isSubDocument)

/-- A line made of the chosen words of a first chunk and (separator, chunk) pairs. -/
def chunkLine (w : Str) (rest : List (Str × Str)) : Line :=
  ⟨some (chosenWords w rest), ⟨0, ['\n']⟩⟩

/-- The sub-document `* !!a{}`, with `pre` carriage returns skipped in front of its
opener: the title is the alias `a`, there are no contents and no final newline. -/
def aliasSub (pre : Nat) : SubDocument :=
  ⟨⟨pre, ['*', ' ']⟩, some ⟨⟨0, ⟨.Alias, ['a']⟩, none⟩, []⟩, ⟨0, ['{']⟩, none, ⟨0, ['}']⟩, none⟩

/-- The input `\r* !!a{}`: the sub-document `* !!a{}` with one carriage return skipped
in front of its opener. -/
def crOpener : Document := ⟨[.SubDocument (aliasSub 1)], 0⟩

/-- The input `#a\r\n`: one line holding the tag `a`, with one carriage return
skipped in front of the newline. -/
def crLine : Document := ⟨[.Text [⟨some ⟨⟨0, ⟨.Tag, ['a']⟩, none⟩, []⟩, ⟨1, ['\n']⟩⟩]], 0⟩

/-- The sub-document `* !!a\n!!b{}`: a title of two aliases separated by a newline. -/
def twoLineTitle : SubDocument :=
  ⟨⟨0, ['*', ' ']⟩, some ⟨⟨0, ⟨.Alias, ['a']⟩, none⟩, [(⟨0, ['\n']⟩, ⟨0, ⟨.Alias, ['b']⟩, none⟩)]⟩,
    ⟨0, ['{']⟩, none, ⟨0, ['}']⟩, none⟩

/-- The sub-document `* !!a\r!!b{}`: a title of two aliases separated by one
carriage return. -/
def crTitle : SubDocument :=
  ⟨⟨0, ['*', ' ']⟩, some ⟨⟨0, ⟨.Alias, ['a']⟩, none⟩, [(⟨0, ['\r']⟩, ⟨0, ⟨.Alias, ['b']⟩, none⟩)]⟩,
    ⟨0, ['{']⟩, none, ⟨0, ['}']⟩, none⟩

/-- The separators between the words of a line. -/
def Line.seps (l : Line) : List Lexeme :=
  match l.words with
  | none => []
  | some m => m.seps

/-- The words of a block: those of its lines, or those of its title. -/
def Block.words : Block → List Word
  | .SubDocument s => s.titleWords
  | .Text ls => (ls.map Line.wordList).flatten

/-- The separators between words of the lines of a block. -/
def Block.lineSeps : Block → List Lexeme
  | .SubDocument _ => []
  | .Text ls => (ls.map Line.seps).flatten

/-- All the words of a document. -/
def Document.words (d : Document) : List Word := (d.blocks.map Block.words).flatten

/-- All the separators between words of lines of a document. -/
def Document.lineSeps (d : Document) : List Lexeme := (d.blocks.map Block.lineSeps).flatten

/-- The payload of the token belongs to a pattern made of a restricted character
class: uuid, alias, tag or fmt. -/
def Kind.restricted : Kind → Bool
  | .Uuid | .Alias | .Tag | .Fmt => true
  | .Ref | .Plain => false

/-- The blank line: no words, one newline. -/
def blankLine : Line := ⟨none, ⟨0, ['\n']⟩⟩

/-- The sub-document `* !!a\n!!b{x y}\n`: a title on two lines, one content line and
the final newline. -/
def bodyExample : SubDocument :=
  ⟨⟨0, ['*', ' ']⟩, some ⟨⟨0, ⟨.Alias, ['a']⟩, none⟩, [(⟨0, ['\n']⟩, ⟨0, ⟨.Alias, ['b']⟩, none⟩)]⟩,
    ⟨0, ['{']⟩, some [⟨0, ['x', ' ', 'y']⟩], ⟨0, ['}']⟩, some ⟨0, ['\n']⟩⟩

/-- The text is empty or ends in a newline, so that what follows it starts a line. -/
def atLineStart (x : Str) : Bool := x.isEmpty || x.getLast? == some '\n'

/-- The input `hello\n* !!a{}` as a text block followed by a sub-document. -/
def textThenSub : Document :=
  ⟨[.Text [chunkLine "hello".toList []], .SubDocument (aliasSub 0)], 0⟩

/-- The sub-documents of a document: its sub-document blocks, in order. -/
def Document.subDocuments (d : Document) : List SubDocument :=
  d.blocks.filterMap (fun b => match b with
    | .SubDocument s => some s
    | .Text _ => none)

/-- The span of a terminal occurrence: the text it matched.  The carriage returns
skipped in front of it belong to no leaf of the tree. -/
def Lexeme.spans (l : Lexeme) : List Str := [l.text]

/-- The spans of an optional terminal. -/
def optSpans : Option Lexeme → List Str
  | none => []
  | some l => l.spans

/-- The spans of the leaves of a word: the token, the punctuation. -/
def Word.spans (w : Word) : List Str := w.tok.text :: optSpans w.punct

/-- The spans of the leaves of an optional `many_sep` of words, separators included. -/
def wordsSpans : Option (ManySep Word) → List Str
  | none => []
  | some m => m.head.spans ++ (m.tail.map (fun p => p.1.spans ++ p.2.spans)).flatten

/-- The spans of the leaves of a line. -/
def Line.spans (l : Line) : List Str := wordsSpans l.words ++ l.nl.spans

/-- The spans of the leaves of optional contents. -/
def contentsSpans : Option (List Lexeme) → List Str
  | none => []
  | some ls => (ls.map Lexeme.spans).flatten

/-- The spans of the leaves of a sub-document. -/
def SubDocument.spans (s : SubDocument) : List Str :=
  s.star.spans ++ wordsSpans s.title ++ s.lbrace.spans ++ contentsSpans s.contents ++
    s.rbrace.spans ++ optSpans s.nl

/-- The spans of the leaves of a block. -/
def Block.spans : Block → List Str
  | .SubDocument s => s.spans
  | .Text ls => (ls.map Line.spans).flatten

/-- The spans of the leaves of a document, in source order. -/
def Document.spans (d : Document) : List Str := (d.blocks.map Block.spans).flatten

/-- The text `x` is the text `y` with some of its carriage returns left out. -/
def DropsExtras (x y : Str) : Prop :=
  List.Sublist x y ∧ x.filter (· != '\r') = y.filter (· != '\r')

/-- No word of the document is a plain word (no prefixed token fell back to plain). -/
def Document.noFallback (d : Document) : Bool :=
  d.words.all (fun w => decide (w.tok.kind ≠ Kind.Plain))

/-- The words after the first of a `many_sep` tree, each with the text that
follows it up to the end of `after`. -/
def followedTail : List (Lexeme × Word) → Str → List (Word × Str)
  | [], _ => []
  | p :: ps, after =>
    (p.2, (ps.map (fun q => q.1.src ++ q.2.src)).flatten ++ after) :: followedTail ps after

/-- The words of an optional `many_sep` tree, each with the text that follows it
up to the end of `after`. -/
def followedWords (o : Option (ManySep Word)) (after : Str) : List (Word × Str) :=
  match o with
  | none => []
  | some m =>
    (m.head, (m.tail.map (fun q => q.1.src ++ q.2.src)).flatten ++ after) ::
      followedTail m.tail after

/-- The words of a line, each with the rest of the line after it. -/
def Line.wordsWithRest (l : Line) : List (Word × Str) := followedWords l.words l.nl.src

/-- The words of the title of a sub-document, each with the rest of the
sub-document after it. -/
def SubDocument.titleWithRest (s : SubDocument) : List (Word × Str) :=
  followedWords s.title
    (s.lbrace.src ++ (contentsSrc s.contents ++ (s.rbrace.src ++ optSrc s.nl)))

/-- The sub-document `* !!a.{}`: the title is the alias `a` with the punctuation `.`. -/
def punctTitle : SubDocument :=
  ⟨⟨0, ['*', ' ']⟩, some ⟨⟨0, ⟨.Alias, ['a']⟩, some ⟨0, ['.']⟩⟩, []⟩, ⟨0, ['{']⟩, none,
    ⟨0, ['}']⟩, none⟩

/-- Class `[a-z0-9]` as written, without the flag `(?i)`. -/
def isLowerAlnum (c : Char) : Bool := isLower c || isDigit c

/-- Class `[-_a-z0-9]` as written, without the flag `(?i)`. -/
def isLowerTail (c : Char) : Bool := c == '-' || c == '_' || isLower c || isDigit c

/-- The pattern `[a-z0-9][-_a-z0-9]*` matched case-sensitively. -/
def tagPatternExact (p : Str) : Bool := headStar isLowerAlnum isLowerTail p

/-- Simple case folding of a character onto the lower-case ASCII letters: an
upper-case letter gives its lower-case letter, U+017F gives `s`, U+212A gives
`k`, any other character is kept. -/
def foldCase (c : Char) : Char :=
  if c == '\u017f' then 's' else if c == '\u212a' then 'k' else c.toLower

/-- Class `[a-zA-Z0-9]`. -/
def isAlnum (c : Char) : Bool :=
  (decide ('a' ≤ c) && decide (c ≤ 'z')) || (decide ('A' ≤ c) && decide (c ≤ 'Z')) ||
    (decide ('0' ≤ c) && decide (c ≤ '9'))

/-- The strings of `[a-zA-Z0-9][-_a-zA-Z0-9]*`. -/
def TagShape (p : Str) : Prop :=
  ∃ c cs, p = c :: cs ∧ isAlnum c = true ∧
    ∀ d ∈ cs, d = '-' ∨ d = '_' ∨ isAlnum d = true

/-- The strings of `[a-zA-Z0-9\u017f\u212a][-_a-zA-Z0-9\u017f\u212a]*`: the class of
`TagShape` with the two characters U+017F and U+212A added. -/
def FoldedTagShape (p : Str) : Prop :=
  ∃ c cs, p = c :: cs ∧ (isAlnum c = true ∨ c = '\u017f' ∨ c = '\u212a') ∧
    ∀ d ∈ cs, d = '-' ∨ d = '_' ∨ isAlnum d = true ∨ d = '\u017f' ∨ d = '\u212a'

/-- The five prefixed alternatives of `word`. -/
def prefixedKinds : List Kind := [.Uuid, .Alias, .Ref, .Tag, .Fmt]

/-- How a token of each kind begins: `!` and a hex digit, `!!`, `!?`, `#`, `@`;
a plain word begins with anything. -/
def lead : Kind → Str → Bool
  | .Uuid, c :: d :: _ => c == '!' && isHex d
  | .Alias, c :: d :: _ => c == '!' && d == '!'
  | .Ref, c :: d :: _ => c == '!' && d == '?'
  | .Tag, c :: _ => c == '#'
  | .Fmt, c :: _ => c == '@'
  | .Plain, _ => true
  | _, _ => false

/-- The alternative `k` matches the whole of `s`. -/
def Kind.accepts (k : Kind) (s : Str) : Bool := (k.token? s).isSome


/-- The input covered by an item. -/
def Item.src : Item → Str
  | .line l => l.src
  | .sub s => s.src

/-- What holds of the items the parser reads from the input `s`: each item is a
match of its rule and covers the front of what is left of the input; a line is
read only where the input does not begin with `* `; a sub-document has no
contents and no final newline, and after its `}` the input ends or goes on with
a newline; nothing is left after the last item. -/
def ItemsOf : Str → List Item → Prop
  | s, [] => s = []
  | s, .line l :: r =>
    line l = true ∧ startsWithOpener s = false ∧ ∃ s', s = l.src ++ s' ∧ ItemsOf s' r
  | s, .sub d :: r =>
    sub_document d = true ∧ d.contents = none ∧ d.nl = none ∧
      ∃ s', s = d.src ++ s' ∧ (s' = [] ∨ ∃ t, s' = '\n' :: t) ∧ ItemsOf s' r

/-- On the line that starts the text, some `{` has no `}` anywhere after it. -/
def unclosedOn : Str → Bool
  | [] => false
  | c :: cs => c != '\n' && ((c == '{' && !cs.contains '}') || unclosedOn cs)

/-- Some line of the input begins with `* ` and holds a later `{` after which no
`}` occurs in the input. -/
def hasUnclosedOpener (input : Str) : Bool :=
  (lineStarts input).any (fun t => startsWithOpener t && unclosedOn t)
/-- The word the lexer reads from the chunk `s` when that word covers the whole of
`s`: the token taken where a word starts, followed by the end of the chunk or by
one last punctuation character. -/
def lexWord (s : Str) : Option Word :=
  match lex wordTerminals s with
  | some (.word k, w, []) => some ⟨w.pre, tokenOf k w.text, none⟩
  | some (.word k, w, [c]) =>
    if isPunct c then some ⟨w.pre, tokenOf k w.text, some ⟨0, [c]⟩⟩ else none
  | _ => none

/-- The words the lexer reads from the chunks of (separator, chunk) pairs, with the
separators as terminals, when every word covers its chunk. -/
def lexTail : List (Str × Str) → Option (List (Lexeme × Word))
  | [] => some []
  | p :: ps =>
    match lexWord p.2, lexTail ps with
    | some w, some t => some ((⟨0, p.1⟩, w) :: t)
    | _, _ => none

/-- The words the lexer reads from a first chunk and (separator, chunk) pairs, when
every word covers its chunk. -/
def lexChunks (w : Str) (rest : List (Str × Str)) : Option (ManySep Word) :=
  match lexWord w, lexTail rest with
  | some h, some t => some ⟨h, t⟩
  | _, _ => none

/-! ## Characters and regular expressions -/

theorem isPunct_iff (c : Char) :
    isPunct c = true ↔ c = '.' ∨ c = ',' ∨ c = ';' ∨ c = ':' ∨ c = '!' ∨ c = '?' := by
  simp [isPunct, or_assoc]

theorem exactly_iff (cls : Char → Bool) (n : Nat) (s : Str) :
    exactly cls n s = true ↔ s.length = n ∧ ∀ c ∈ s, cls c = true := by
  simp [exactly]

theorem plus_iff (cls : Char → Bool) (s : Str) :
    plus cls s = true ↔ s ≠ [] ∧ ∀ c ∈ s, cls c = true := by
  cases s <;> simp [plus]

theorem eat_eq_some_iff (cls : Char → Bool) (n : Nat) (s r : Str) :
    eat cls n s = some r ↔ ∃ g, s = g ++ r ∧ g.length = n ∧ ∀ c ∈ g, cls c = true := by
  unfold eat
  constructor
  · intro h
    split at h
    · rename_i hx
      rw [exactly_iff] at hx
      simp only [Option.some.injEq] at h
      exact ⟨s.take n, by rw [← h, List.take_append_drop], hx.1, hx.2⟩
    · simp at h
  · rintro ⟨g, rfl, hl, hc⟩
    have h1 : (g ++ r).take n = g := by subst hl; simp
    have h2 : (g ++ r).drop n = r := by subst hl; simp
    rw [h1, h2, (exactly_iff cls n g).2 ⟨hl, hc⟩]
    simp

theorem eatChar_eq_some_iff (c : Char) (s r : Str) : eatChar c s = some r ↔ s = c :: r := by
  cases s with
  | nil => simp [eatChar]
  | cons d t =>
    simp only [eatChar, List.cons.injEq]
    by_cases h : d = c <;> simp [h]

theorem REGEX_UUID_iff (u : Str) : REGEX_UUID u = true ↔ UuidShape u := by
  unfold REGEX_UUID UuidShape
  simp only [beq_iff_eq, Option.bind_eq_bind, Option.bind_eq_some, eat_eq_some_iff,
    eatChar_eq_some_iff]
  constructor
  · rintro ⟨r8, ⟨r7, ⟨r6, ⟨r5, ⟨r4, ⟨r3, ⟨r2, ⟨r1, ⟨g1, rfl, h1⟩, rfl⟩, ⟨g2, rfl, h2⟩⟩, rfl⟩,
      ⟨g3, rfl, h3⟩⟩, rfl⟩, ⟨g4, rfl, h4⟩⟩, rfl⟩, ⟨g5, h, h5⟩⟩
    simp only [List.append_nil] at h
    subst h
    exact ⟨g1, g2, g3, g4, r8, rfl, h1, h2, h3, h4, h5⟩
  · rintro ⟨g1, g2, g3, g4, g5, rfl, h1, h2, h3, h4, h5⟩
    exact ⟨g5, ⟨_, ⟨_, ⟨_, ⟨_, ⟨_, ⟨_, ⟨_, ⟨g1, rfl, h1⟩, rfl⟩, ⟨g2, rfl, h2⟩⟩, rfl⟩,
      ⟨g3, rfl, h3⟩⟩, rfl⟩, ⟨g4, rfl, h4⟩⟩, rfl⟩, ⟨g5, by simp, h5⟩⟩

theorem char_le_iff (a b : Char) : a ≤ b ↔ a.toNat ≤ b.toNat := Iff.rfl

theorem isUpper_not_isHex (c : Char) (h : isUpper c = true) : isHex c = false := by
  simp only [isUpper, isHex, isDigit, Bool.and_eq_true, decide_eq_true_eq, Bool.or_eq_false_iff,
    Bool.and_eq_false_iff, decide_eq_false_iff_not, char_le_iff] at *
  have e1 : ('A' : Char).toNat = 65 := rfl
  have e2 : ('Z' : Char).toNat = 90 := rfl
  have e3 : ('0' : Char).toNat = 48 := rfl
  have e4 : ('9' : Char).toNat = 57 := rfl
  have e5 : ('a' : Char).toNat = 97 := rfl
  have e6 : ('f' : Char).toNat = 102 := rfl
  rw [e1, e2] at h
  rw [e3, e4, e5, e6]
  omega

theorem isHex_not_isPunct (c : Char) (h : isHex c = true) : isPunct c = false := by
  cases hp : isPunct c with
  | false => rfl
  | true =>
    rw [isPunct_iff] at hp
    rcases hp with rfl | rfl | rfl | rfl | rfl | rfl <;> exact absurd h (by decide)
/-! ## Tokens and lexical precedence -/

theorem payload?_eq_some_iff (t : TokenRule) (s p : Str) :
    t.payload? s = some p ↔ s = t.pfx ++ p ∧ t.pattern p = true := by
  unfold TokenRule.payload?
  constructor
  · intro h
    split at h
    · rename_i hx
      simp only [Bool.and_eq_true, List.isPrefixOf_iff_prefix] at hx
      simp only [Option.some.injEq] at h
      subst h
      exact ⟨(List.prefix_iff_eq_append.1 hx.1).symm, hx.2⟩
    · simp at h
  · rintro ⟨rfl, hp⟩
    simp [hp]

theorem token?_eq_some_iff (k : Kind) (s : Str) (t : Token) :
    k.token? s = some t ↔ t.kind = k ∧ t.text = s ∧ t.ok = true := by
  unfold Kind.token?
  simp only [Option.map_eq_some', payload?_eq_some_iff]
  constructor
  · rintro ⟨p, ⟨rfl, hp⟩, rfl⟩
    exact ⟨rfl, rfl, hp⟩
  · rintro ⟨rfl, rfl, hp⟩
    exact ⟨t.payload, ⟨rfl, hp⟩, rfl⟩

theorem token?_eq_none_iff (k : Kind) (s : Str) :
    k.token? s = none ↔ k.rule.payload? s = none := by
  unfold Kind.token?
  simp

theorem classify_unfold (s : Str) :
    classify s = better (better (better (better (better (Kind.token? .Uuid s)
      (Kind.token? .Alias s)) (Kind.token? .Ref s)) (Kind.token? .Tag s))
      (Kind.token? .Fmt s)) (Kind.token? .Plain s) := by
  simp [classify, classifyIn, wordAlternatives, better]

theorem plain_token? (s : Str) (h : REGEX_CHUNK s = true) :
    Kind.token? .Plain s = some ⟨.Plain, s⟩ := by
  rw [token?_eq_some_iff]
  exact ⟨rfl, rfl, h⟩

theorem classify_uuid (s u : Str) (h : uuid.payload? s = some u) :
    classify s = some ⟨.Uuid, u⟩ := by
  have h1 : Kind.token? .Uuid s = some ⟨.Uuid, u⟩ := by
    simp [Kind.token?, Kind.rule, h]
  have hp : ∀ (k : Kind) (t : Token), k.token? s = some t → t.precedence ≤ 2 := by
    intro k t ht
    obtain ⟨rfl, -, -⟩ := (token?_eq_some_iff _ _ _).1 ht
    cases t with
    | mk kind payload =>
      cases kind <;> simp [Token.precedence, Kind.rule, uuid, «alias», ref, tag, fmt, bare, prefix_token]
  have step : ∀ (k : Kind), better (some ⟨.Uuid, u⟩) (k.token? s) = some ⟨.Uuid, u⟩ := by
    intro k
    cases hk : k.token? s with
    | none => rfl
    | some t =>
      have := hp k t hk
      unfold better
      simp only
      have e : (⟨.Uuid, u⟩ : Token).precedence = 2 := rfl
      rw [e, if_neg (by omega)]
  rw [classify_unfold, h1, step, step, step, step, step]

theorem classify_only_plain (s : Str) (h : REGEX_CHUNK s = true)
    (hn : ∀ k : Kind, k ≠ .Plain → k.token? s = none) : classify s = some ⟨.Plain, s⟩ := by
  rw [classify_unfold, hn .Uuid (by decide), hn .Alias (by decide), hn .Ref (by decide),
    hn .Tag (by decide), hn .Fmt (by decide), plain_token? s h]
  rfl

theorem trailingPunct_append_singleton (s : Str) (c : Char) :
    trailingPunct (s ++ [c]) = if isPunct c then some c else none := by
  simp [trailingPunct]

theorem scanWord_of_no_punct (s : Str) (t : Token) (hp : trailingPunct s = none)
    (ht : classify s = some t) : scanWord s = some ⟨0, t, none⟩ := by
  simp [scanWord, hp, ht]

theorem isHex_isChunkChar (c : Char) (h : isHex c = true) : isChunkChar c = true := by
  have h1 : c ≠ ' ' := by rintro rfl; exact absurd h (by decide)
  have h2 : c ≠ '\t' := by rintro rfl; exact absurd h (by decide)
  have h3 : c ≠ '\n' := by rintro rfl; exact absurd h (by decide)
  simp [isChunkChar, h1, h2, h3]

theorem UuidShape_length (u : Str) (h : UuidShape u) : u.length = 36 := by
  obtain ⟨g1, g2, g3, g4, g5, rfl, h1, h2, h3, h4, h5⟩ := h
  simp [h1.1, h2.1, h3.1, h4.1, h5.1]

theorem UuidShape_chars (u : Str) (h : UuidShape u) :
    ∀ c ∈ u, isHex c = true ∨ c = '-' := by
  obtain ⟨g1, g2, g3, g4, g5, rfl, h1, h2, h3, h4, h5⟩ := h
  intro c hc
  simp only [List.mem_append, List.mem_cons] at hc
  rcases hc with hc | hc | hc | hc | hc | hc | hc | hc | hc
  · exact Or.inl (h1.2 c hc)
  · exact Or.inr hc
  · exact Or.inl (h2.2 c hc)
  · exact Or.inr hc
  · exact Or.inl (h3.2 c hc)
  · exact Or.inr hc
  · exact Or.inl (h4.2 c hc)
  · exact Or.inr hc
  · exact Or.inl (h5.2 c hc)

theorem UuidShape_last (u : Str) (h : UuidShape u) :
    ∃ t c, u = t ++ [c] ∧ isHex c = true := by
  obtain ⟨g1, g2, g3, g4, g5, rfl, h1, h2, h3, h4, h5⟩ := h
  have hne : g5 ≠ [] := by
    intro e; rw [e] at h5; simp at h5
  refine ⟨g1 ++ '-' :: (g2 ++ '-' :: (g3 ++ '-' :: (g4 ++ '-' :: g5.dropLast))),
    g5.getLast hne, ?_, h5.2 _ (List.getLast_mem hne)⟩
  conv_lhs => rw [← List.dropLast_append_getLast hne]
  simp

theorem uuid_payload?_iff (s u : Str) :
    uuid.payload? s = some u ↔ s = '!' :: u ∧ UuidShape u := by
  rw [payload?_eq_some_iff, ← REGEX_UUID_iff]
  rfl

/-! ## Words -/

theorem extras_succ (n : Nat) : extras (n + 1) = '\r' :: extras n := rfl

theorem mem_extras (n : Nat) (c : Char) (h : c ∈ extras n) : c = '\r' := by
  unfold extras at h
  exact (List.mem_replicate.1 h).2

theorem extras_eq_nil_of_not_mem (n : Nat) (r : Str) (h : '\r' ∉ extras n ++ r) : n = 0 := by
  cases n with
  | zero => rfl
  | succ m => exact absurd (by simp [extras_succ]) h

theorem punct_inv (l : Lexeme) (h : pat REGEX_PUNCTUATION l = true) :
    ∃ c, l.text = [c] ∧ isPunct c = true := by
  unfold pat REGEX_PUNCTUATION at h
  split at h
  · rename_i c hc
    exact ⟨c, hc, h⟩
  · cases h

theorem word_inv (w : Word) (h : word w = true) :
    w.tok.ok = true ∧ (w.punct = none ∨ ∃ n c, w.punct = some ⟨n, [c]⟩ ∧ isPunct c = true) := by
  unfold word at h
  rw [Bool.and_eq_true] at h
  refine ⟨h.1, ?_⟩
  cases hp : w.punct with
  | none => exact Or.inl rfl
  | some l =>
    rw [hp] at h
    obtain ⟨c, hc, hpc⟩ := punct_inv l h.2
    cases l with
    | mk n t =>
      simp only at hc
      subst hc
      exact Or.inr ⟨n, c, rfl, hpc⟩

/-- A word covering a text without carriage return skips no extras. -/
theorem word_src_inv (w : Word) (s : Str) (hw : word w = true) (hs : w.src = s)
    (hcr : '\r' ∉ s) :
    (w = ⟨0, w.tok, none⟩ ∧ w.tok.text = s) ∨
    (∃ c, w = ⟨0, w.tok, some ⟨0, [c]⟩⟩ ∧ isPunct c = true ∧ w.tok.text ++ [c] = s) := by
  obtain ⟨-, hp⟩ := word_inv w hw
  cases w with
  | mk pre tok punct =>
    simp only [Word.src] at hs
    simp only at hp
    have hpre : pre = 0 := by
      apply extras_eq_nil_of_not_mem pre (tok.text ++ optSrc punct)
      rw [← List.append_assoc, hs]
      exact hcr
    subst hpre
    rcases hp with rfl | ⟨n, c, rfl, hc⟩
    · left
      simpa [extras, optSrc] using hs
    · right
      have hn : n = 0 := by
        apply extras_eq_nil_of_not_mem n [c]
        intro hm
        apply hcr
        rw [← hs]
        simp only [optSrc, Lexeme.src]
        exact List.mem_append_right _ hm
      subst hn
      exact ⟨c, rfl, hc, by simpa [extras, optSrc, Lexeme.src] using hs⟩

theorem isAliasHead_isAliasTail (c : Char) (h : isAliasHead c = true) : isAliasTail c = true := by
  simp only [isAliasHead, Bool.or_eq_true] at h
  simp only [isAliasTail, Bool.or_eq_true]
  tauto

theorem REGEX_ALIAS_inv (a : Str) (h : REGEX_ALIAS a = true) :
    a ≠ [] ∧ ∀ c ∈ a, isAliasTail c = true := by
  cases a with
  | nil => cases h
  | cons c cs =>
    simp only [REGEX_ALIAS, headStar, Bool.and_eq_true, List.all_eq_true] at h
    refine ⟨by simp, ?_⟩
    intro d hd
    rcases List.mem_cons.1 hd with rfl | hd
    · exact isAliasHead_isAliasTail _ h.1
    · exact h.2 d hd

theorem isAliasTail_ne (c d : Char) (h : isAliasTail c = true) (hd : isAliasTail d = false) :
    c ≠ d := by
  rintro rfl
  rw [h] at hd
  cases hd

theorem isAliasTail_isChunkChar (c : Char) (h : isAliasTail c = true) : isChunkChar c = true := by
  have h1 := isAliasTail_ne c ' ' h (by decide)
  have h2 := isAliasTail_ne c '\t' h (by decide)
  have h3 := isAliasTail_ne c '\n' h (by decide)
  simp [isChunkChar, h1, h2, h3]

theorem isAliasTail_not_isPunct (c : Char) (h : isAliasTail c = true) : isPunct c = false := by
  cases hp : isPunct c with
  | false => rfl
  | true =>
    rw [isPunct_iff] at hp
    rcases hp with rfl | rfl | rfl | rfl | rfl | rfl <;> exact absurd h (by decide)

theorem isPunct_isChunkChar (c : Char) (h : isPunct c = true) : isChunkChar c = true := by
  rw [isPunct_iff] at h
  rcases h with rfl | rfl | rfl | rfl | rfl | rfl <;> decide

theorem isPunct_ne_cr (c : Char) (h : isPunct c = true) : c ≠ '\r' := by
  rintro rfl
  exact absurd h (by decide)

/-- The text `!!A` for an alias payload `A`: a chunk without carriage return. -/
theorem alias_text_chars (a : Str) (h : REGEX_ALIAS a = true) :
    REGEX_CHUNK ('!' :: '!' :: a) = true ∧ '\r' ∉ ('!' :: '!' :: a) ∧
      trailingPunct ('!' :: '!' :: a) = none := by
  obtain ⟨hne, hc⟩ := REGEX_ALIAS_inv a h
  refine ⟨?_, ?_, ?_⟩
  · rw [REGEX_CHUNK, plus_iff]
    refine ⟨by simp, ?_⟩
    intro c hm
    simp only [List.mem_cons] at hm
    rcases hm with rfl | rfl | hm
    · decide
    · decide
    · exact isAliasTail_isChunkChar c (hc c hm)
  · intro hm
    simp only [List.mem_cons] at hm
    rcases hm with hm | hm | hm
    · exact absurd hm (by decide)
    · exact absurd hm (by decide)
    · exact isAliasTail_ne _ '\r' (hc _ hm) (by decide) rfl
  · have hl : a = a.dropLast ++ [a.getLast hne] := (List.dropLast_append_getLast hne).symm
    rw [hl, ← List.cons_append, ← List.cons_append, trailingPunct_append_singleton,
      isAliasTail_not_isPunct _ (hc _ (List.getLast_mem hne))]
    rfl

/-- No uuid, ref, tag or fmt token matches a text that starts with `!!`. -/
theorem bang_bang_tokens (r : Str) :
    Kind.token? .Uuid ('!' :: '!' :: r) = none ∧
    Kind.token? .Ref ('!' :: '!' :: r) = none ∧
    Kind.token? .Tag ('!' :: '!' :: r) = none ∧
    Kind.token? .Fmt ('!' :: '!' :: r) = none := by
  refine ⟨?_, ?_, ?_, ?_⟩
  · rw [token?_eq_none_iff]
    cases hu : Kind.rule .Uuid |>.payload? ('!' :: '!' :: r) with
    | none => rfl
    | some u =>
      exfalso
      obtain ⟨he, hs⟩ := (uuid_payload?_iff _ u).1 hu
      simp only [List.cons.injEq, true_and] at he
      subst he
      rcases UuidShape_chars _ hs '!' (by simp) with hx | hx
      · exact absurd hx (by decide)
      · exact absurd hx (by decide)
  · simp [Kind.token?, Kind.rule, ref, prefix_token, TokenRule.payload?]
  · simp [Kind.token?, Kind.rule, tag, prefix_token, TokenRule.payload?]
  · simp [Kind.token?, Kind.rule, fmt, prefix_token, TokenRule.payload?]

/-- Which alternatives of `word` match the text `!!A` in full. -/
theorem alias_text_tokens (a : Str) (h : REGEX_ALIAS a = true) :
    Kind.token? .Uuid ('!' :: '!' :: a) = none ∧
    Kind.token? .Alias ('!' :: '!' :: a) = some ⟨.Alias, a⟩ ∧
    Kind.token? .Ref ('!' :: '!' :: a) = none ∧
    Kind.token? .Tag ('!' :: '!' :: a) = none ∧
    Kind.token? .Fmt ('!' :: '!' :: a) = none ∧
    Kind.token? .Plain ('!' :: '!' :: a) = some ⟨.Plain, '!' :: '!' :: a⟩ := by
  obtain ⟨h1, h3, h4, h5⟩ := bang_bang_tokens a
  refine ⟨h1, ?_, h3, h4, h5, plain_token? _ (alias_text_chars a h).1⟩
  rw [token?_eq_some_iff]
  exact ⟨rfl, rfl, h⟩

theorem classify_alias (a : Str) (h : REGEX_ALIAS a = true) :
    classify ('!' :: '!' :: a) = some ⟨.Alias, a⟩ := by
  obtain ⟨h1, h2, h3, h4, h5, h6⟩ := alias_text_tokens a h
  rw [classify_unfold, h1, h2, h3, h4, h5, h6]
  rfl

theorem token_of_alias_text (a : Str) (h : REGEX_ALIAS a = true) (t : Token)
    (ht : t.text = '!' :: '!' :: a) (hok : t.ok = true) :
    t = ⟨.Alias, a⟩ ∨ t = ⟨.Plain, '!' :: '!' :: a⟩ := by
  obtain ⟨h1, h2, h3, h4, h5, h6⟩ := alias_text_tokens a h
  have hk : t.kind.token? ('!' :: '!' :: a) = some t := (token?_eq_some_iff _ _ _).2 ⟨rfl, ht, hok⟩
  cases t with
  | mk k p =>
    cases k
    · rw [h1] at hk; cases hk
    · rw [h2] at hk; exact Or.inl (Option.some.inj hk).symm
    · rw [h3] at hk; cases hk
    · rw [h4] at hk; cases hk
    · rw [h5] at hk; cases hk
    · rw [h6] at hk; exact Or.inr (Option.some.inj hk).symm

theorem chunk_of_class (cls : Char → Bool) (h1 : cls ' ' = false) (h2 : cls '\t' = false)
    (h3 : cls '\n' = false) (c : Char) (h : cls c = true) : isChunkChar c = true := by
  have e1 : c ≠ ' ' := by rintro rfl; rw [h1] at h; cases h
  have e2 : c ≠ '\t' := by rintro rfl; rw [h2] at h; cases h
  have e3 : c ≠ '\n' := by rintro rfl; rw [h3] at h; cases h
  simp [isChunkChar, e1, e2, e3]

theorem headStar_inv (hd tl : Char → Bool) (hsub : ∀ c, hd c = true → tl c = true) (s : Str)
    (h : headStar hd tl s = true) : s ≠ [] ∧ ∀ c ∈ s, tl c = true := by
  cases s with
  | nil => cases h
  | cons c cs =>
    simp only [headStar, Bool.and_eq_true, List.all_eq_true] at h
    refine ⟨by simp, ?_⟩
    intro d hd'
    rcases List.mem_cons.1 hd' with rfl | hd'
    · exact hsub _ h.1
    · exact h.2 d hd'

theorem isTagHead_isTagTail (c : Char) (h : isTagHead c = true) : isTagTail c = true := by
  simp only [isTagHead, Bool.or_eq_true] at h
  simp only [isTagTail, Bool.or_eq_true]
  tauto

theorem isFmtHead_isFmtTail (c : Char) (h : isFmtHead c = true) : isFmtTail c = true := by
  simp only [isFmtHead] at h
  simp only [isFmtTail, Bool.or_eq_true]
  tauto

/-- The payload of a matched token is not empty and holds no space, tab or newline. -/
theorem payload_chars (t : Token) (h : t.ok = true) :
    t.payload ≠ [] ∧ ∀ c ∈ t.payload, isChunkChar c = true := by
  cases t with
  | mk k p =>
    cases k
    · have hs : UuidShape p := (REGEX_UUID_iff p).1 h
      refine ⟨?_, ?_⟩
      · intro e
        have := UuidShape_length p hs
        simp only at e
        rw [e] at this
        cases this
      · intro c hc
        rcases UuidShape_chars p hs c hc with hx | rfl
        · exact isHex_isChunkChar c hx
        · decide
    · obtain ⟨h1, h2⟩ := REGEX_ALIAS_inv p h
      exact ⟨h1, fun c hc => isAliasTail_isChunkChar c (h2 c hc)⟩
    · exact (plus_iff _ _).1 h
    · obtain ⟨h1, h2⟩ := headStar_inv _ _ isTagHead_isTagTail p h
      exact ⟨h1, fun c hc => chunk_of_class isTagTail (by decide) (by decide) (by decide) c (h2 c hc)⟩
    · obtain ⟨h1, h2⟩ := headStar_inv _ _ isFmtHead_isFmtTail p h
      exact ⟨h1, fun c hc => chunk_of_class isFmtTail (by decide) (by decide) (by decide) c (h2 c hc)⟩
    · exact (plus_iff _ _).1 h

theorem token_text_chars (t : Token) (h : t.ok = true) :
    t.text ≠ [] ∧ ∀ c ∈ t.text, isChunkChar c = true := by
  obtain ⟨h1, h2⟩ := payload_chars t h
  refine ⟨?_, ?_⟩
  · unfold Token.text
    simp [h1]
  · intro c hc
    unfold Token.text at hc
    rcases List.mem_append.1 hc with hc | hc
    · cases t with
      | mk k p =>
        cases k <;>
          simp only [Kind.rule, uuid, «alias», ref, tag, fmt, bare, prefix_token, List.mem_cons,
            List.mem_singleton, List.not_mem_nil, or_false] at hc
        · subst hc; decide
        · rcases hc with rfl | rfl <;> decide
        · rcases hc with rfl | rfl <;> decide
        · subst hc; decide
        · subst hc; decide
    · exact h2 c hc

theorem extras_chars (n : Nat) : ∀ c ∈ extras n, isChunkChar c = true := by
  intro c hc
  rw [mem_extras n c hc]
  decide

/-- The input covered by a word is not empty and holds no space, tab or newline. -/
theorem word_src_chars (w : Word) (h : word w = true) :
    w.src ≠ [] ∧ ∀ c ∈ w.src, isChunkChar c = true := by
  obtain ⟨hok, hp⟩ := word_inv w h
  obtain ⟨h1, h2⟩ := token_text_chars w.tok hok
  refine ⟨?_, ?_⟩
  · unfold Word.src
    simp [h1]
  · intro c hc
    unfold Word.src at hc
    rcases List.mem_append.1 hc with hc | hc
    · rcases List.mem_append.1 hc with hc | hc
      · exact extras_chars _ c hc
      · exact h2 c hc
    · rcases hp with hn | ⟨n, p, hn, hpp⟩
      · rw [hn] at hc
        cases hc
      · rw [hn] at hc
        simp only [optSrc, Lexeme.src, List.mem_append, List.mem_singleton] at hc
        rcases hc with hc | rfl
        · exact extras_chars _ c hc
        · exact isPunct_isChunkChar _ hpp

theorem many_sep_inv {α : Type} (elem : α → Bool) (sep : Str → Bool) (m : ManySep α)
    (h : many_sep elem sep m = true) :
    elem m.head = true ∧ ∀ p ∈ m.tail, sep p.1.text = true ∧ elem p.2 = true := by
  simpa [many_sep] using h

/-- Every character covered by a `many_sep` of words is a carriage return, a
character of a word, or a character of a separator. -/
theorem many_sep_src_chars (sep : Str → Bool) (P : Char → Prop) (m : ManySep Word)
    (h : many_sep word sep m = true) (hsep : ∀ s, sep s = true → ∀ c ∈ s, P c)
    (hchunk : ∀ c, isChunkChar c = true → P c) : ∀ c ∈ m.src Word.src, P c := by
  obtain ⟨hh, ht⟩ := many_sep_inv _ _ m h
  intro c hc
  unfold ManySep.src at hc
  rcases List.mem_append.1 hc with hc | hc
  · exact hchunk c ((word_src_chars _ hh).2 c hc)
  · simp only [List.mem_flatten, List.mem_map] at hc
    obtain ⟨l, ⟨p, hp, rfl⟩, hc⟩ := hc
    obtain ⟨hs, hw⟩ := ht p hp
    rcases List.mem_append.1 hc with hc | hc
    · unfold Lexeme.src at hc
      rcases List.mem_append.1 hc with hc | hc
      · exact hchunk c (extras_chars _ c hc)
      · exact hsep _ hs c hc
    · exact hchunk c ((word_src_chars _ hw).2 c hc)

theorem many_sep_src_ne_nil (sep : Str → Bool) (m : ManySep Word)
    (h : many_sep word sep m = true) : m.src Word.src ≠ [] := by
  obtain ⟨hh, -⟩ := many_sep_inv _ _ m h
  unfold ManySep.src
  simp [(word_src_chars _ hh).1]

theorem SPACE_TAB_chars (s : Str) (h : SPACE_TAB s = true) :
    s ≠ [] ∧ ∀ c ∈ s, isBlank c = true := (plus_iff _ _).1 h

theorem isBlank_iff (c : Char) : isBlank c = true ↔ c = '\t' ∨ c = ' ' := by
  simp [isBlank]

theorem isChunkChar_iff (c : Char) : isChunkChar c = true ↔ c ≠ ' ' ∧ c ≠ '\t' ∧ c ≠ '\n' := by
  simp [isChunkChar, and_assoc]

theorem nl_inv (l : Lexeme) (h : pat NL l = true) : l.text = ['\n'] := by
  simpa [pat, NL] using h

theorem line_inv (l : Line) (h : line l = true) :
    optional (many_sep word SPACE_TAB) l.words = true ∧ l.nl.text = ['\n'] := by
  unfold line at h
  rw [Bool.and_eq_true] at h
  exact ⟨h.1, nl_inv _ h.2⟩

/-- The words of a line cover no newline. -/
theorem line_words_no_nl (ws : Option (ManySep Word))
    (h : optional (many_sep word SPACE_TAB) ws = true) : '\n' ∉ wordsSrc ws := by
  cases ws with
  | none => simp [wordsSrc]
  | some m =>
    intro hm
    refine many_sep_src_chars SPACE_TAB (fun c => c ≠ '\n') m h ?_ ?_ '\n' hm rfl
    · intro s hs c hc
      have := (isBlank_iff c).1 ((SPACE_TAB_chars s hs).2 c hc)
      rcases this with rfl | rfl <;> decide
    · intro c hc
      exact ((isChunkChar_iff c).1 hc).2.2

/-- A line covers a text without newline followed by one newline. -/
theorem line_src (l : Line) (h : line l = true) :
    ∃ body, l.src = body ++ ['\n'] ∧ '\n' ∉ body := by
  obtain ⟨hw, hn⟩ := line_inv l h
  refine ⟨wordsSrc l.words ++ extras l.nl.pre, ?_, ?_⟩
  · simp [Line.src, Lexeme.src, hn]
  · intro hm
    rcases List.mem_append.1 hm with hm | hm
    · exact line_words_no_nl _ hw hm
    · exact absurd (mem_extras _ _ hm) (by decide)

/-! ## Sub-documents, blocks and documents -/

theorem sub_document_inv (s : SubDocument) (h : sub_document s = true) :
    s.star.text = ['*', ' '] ∧ optional title s.title = true ∧ s.lbrace.text = ['{'] ∧
      optional contents s.contents = true ∧ s.rbrace.text = ['}'] ∧
      optional (pat NL) s.nl = true := by
  simpa [sub_document, lit, and_assoc] using h

/-- The contents of a sub-document cover no newline. -/
theorem contents_no_nl (c : Option (List Lexeme)) (h : optional contents c = true) :
    '\n' ∉ contentsSrc c := by
  cases c with
  | none => simp [contentsSrc]
  | some ls =>
    intro hm
    simp only [optional, contents, repeat1, Bool.and_eq_true, List.all_eq_true] at h
    simp only [contentsSrc, List.mem_flatten, List.mem_map] at hm
    obtain ⟨x, ⟨l, hl, rfl⟩, hx⟩ := hm
    rcases List.mem_append.1 hx with hx | hx
    · exact absurd (mem_extras _ _ hx) (by decide)
    · have := ((plus_iff _ _).1 (h.2 l hl)).2 _ hx
      exact absurd this (by decide)

/-- The shape of the input covered by a sub-document: extras, the opener, the title
part, `{`, a body without newline, `}`, and the optional newline part. -/
theorem sub_document_src (s : SubDocument) (h : sub_document s = true) :
    s.src = extras s.star.pre ++ '*' :: ' ' :: ((wordsSrc s.title ++ extras s.lbrace.pre) ++
      '{' :: ((contentsSrc s.contents ++ extras s.rbrace.pre) ++ '}' :: optSrc s.nl)) ∧
    '\n' ∉ contentsSrc s.contents ++ extras s.rbrace.pre := by
  obtain ⟨h1, -, h3, h4, h5, -⟩ := sub_document_inv s h
  refine ⟨by simp [SubDocument.src, Lexeme.src, h1, h3, h5], ?_⟩
  intro hm
  rcases List.mem_append.1 hm with hm | hm
  · exact contents_no_nl _ h4 hm
  · exact absurd (mem_extras _ _ hm) (by decide)

theorem text_inv (ls : List Line) (h : text ls = true) :
    ls ≠ [] ∧ ∀ l ∈ ls, line l = true := by
  cases ls with
  | nil => cases h
  | cons l t =>
    simp only [text, repeat1, Bool.and_eq_true, List.all_eq_true] at h
    exact ⟨by simp, h.2⟩

/-- The lines of a text cover nothing or a text ending in a newline. -/
theorem lines_src (ls : List Line) (h : ∀ l ∈ ls, line l = true) :
    (ls.map Line.src).flatten = [] ∨ ∃ x, (ls.map Line.src).flatten = x ++ ['\n'] := by
  induction ls with
  | nil => exact Or.inl rfl
  | cons l t ih =>
    right
    obtain ⟨body, hb, -⟩ := line_src l (h l (List.mem_cons_self _ _))
    rcases ih (fun l' hl' => h l' (List.mem_cons_of_mem _ hl')) with e | ⟨x, e⟩
    · exact ⟨body, by simp [e, hb]⟩
    · exact ⟨body ++ ['\n'] ++ x, by simp [e, hb]⟩

theorem block_src_ne_nil (b : Block) (h : block b = true) : b.src ≠ [] := by
  cases b with
  | SubDocument s =>
    intro e
    have := (sub_document_src s h).1
    simp only [Block.src] at e
    rw [e] at this
    have : ([] : Str).length = _ := congrArg List.length this
    simp at this
    omega
  | Text ls =>
    obtain ⟨hne, hl⟩ := text_inv ls h
    cases ls with
    | nil => exact absurd rfl hne
    | cons l t =>
      obtain ⟨body, hb, -⟩ := line_src l (hl l (List.mem_cons_self _ _))
      simp [Block.src, hb]

theorem line_src_ne_nil (l : Line) (h : line l = true) : l.src ≠ [] := by
  obtain ⟨body, hb, -⟩ := line_src l h
  simp [hb]

theorem papier_inv (d : Document) (h : papier d = true) : ∀ b ∈ d.blocks, block b = true := by
  simpa [papier] using h

theorem extras_succ_right (n : Nat) : extras (n + 1) = extras n ++ ['\r'] := by
  unfold extras
  exact List.replicate_succ' n '\r'

/-- A text not ending in a carriage return is followed by no extras. -/
theorem trail_eq_zero (x s : Str) (n : Nat) (c : Char) (hc : c ≠ '\r')
    (h : x ++ extras n = s ++ [c]) : n = 0 ∧ x = s ++ [c] := by
  cases n with
  | zero => exact ⟨rfl, by simpa [extras] using h⟩
  | succ m =>
    exfalso
    rw [extras_succ_right, ← List.append_assoc] at h
    have := (List.append_inj' h rfl).2
    simp only [List.cons.injEq, and_true] at this
    exact hc this.symm

/-- Splitting at the first newline is unique. -/
theorem split_at_nl (a r s : Str) (ha : '\n' ∉ a) (hs : '\n' ∉ s)
    (h : a ++ '\n' :: r = s ++ ['\n']) : a = s ∧ r = [] := by
  induction a generalizing s with
  | nil =>
    cases s with
    | nil => simpa using h
    | cons c t =>
      simp only [List.nil_append, List.cons_append, List.cons.injEq] at h
      exact absurd (by simp [← h.1]) hs
  | cons c t ih =>
    cases s with
    | nil =>
      simp only [List.cons_append, List.nil_append, List.cons.injEq] at h
      exact absurd (by simp [h.1]) ha
    | cons e u =>
      simp only [List.cons_append, List.cons.injEq] at h
      obtain ⟨h1, h2⟩ := ih u (fun hm => ha (List.mem_cons_of_mem _ hm))
        (fun hm => hs (List.mem_cons_of_mem _ hm)) h.2
      exact ⟨by rw [h.1, h1], h2⟩

theorem flatten_eq_nil_of_ne_nil {α β : Type} (f : α → List β) (l : List α)
    (hne : ∀ a ∈ l, f a ≠ []) (h : (l.map f).flatten = []) : l = [] := by
  cases l with
  | nil => rfl
  | cons a t =>
    exfalso
    simp only [List.map_cons, List.flatten_cons, List.append_eq_nil] at h
    exact hne a (List.mem_cons_self _ _) h.1

theorem not_mem_extras_eq_zero (n : Nat) (h : '\r' ∉ extras n) : n = 0 := by
  cases n with
  | zero => rfl
  | succ m => exact absurd (by simp [extras_succ]) h

/-- A block covering a text without space is a text block. -/
theorem sub_document_has_space (s : SubDocument) (h : sub_document s = true) : ' ' ∈ s.src := by
  rw [(sub_document_src s h).1]
  simp

/-- Every derivation of a chunk without carriage return followed by a newline is
one text block holding one line of one word covering the chunk. -/
theorem single_chunk_parse (s : Str) (hs : REGEX_CHUNK s = true) (hcr : '\r' ∉ s)
    (d : Document) (hd : Parses (s ++ ['\n']) d) :
    ∃ w, d = oneWordDoc w ∧ word w = true ∧ w.src = s := by
  obtain ⟨hne, hch⟩ := (plus_iff _ _).1 hs
  have hnl : '\n' ∉ s := fun hm => ((isChunkChar_iff _).1 (hch _ hm)).2.2 rfl
  have hsp : ' ' ∉ s ++ ['\n'] := by
    intro hm
    rcases List.mem_append.1 hm with hm | hm
    · exact ((isChunkChar_iff _).1 (hch _ hm)).1 rfl
    · exact absurd hm (by decide)
  obtain ⟨hp, hsrc⟩ := hd
  have hb := papier_inv d hp
  cases d with
  | mk blocks trail =>
    simp only [Document.src] at hsrc
    simp only at hb
    obtain ⟨htr, hfl⟩ := trail_eq_zero _ _ _ '\n' (by decide) hsrc
    subst htr
    clear hsrc
    cases blocks with
    | nil => simp at hfl
    | cons b bs =>
      cases b with
      | SubDocument sd =>
        exfalso
        apply hsp
        rw [← hfl]
        simp only [List.map_cons, List.flatten_cons, Block.src]
        exact List.mem_append_left _ (sub_document_has_space sd (hb _ (List.mem_cons_self _ _)))
      | Text ls =>
        obtain ⟨hlne, hl⟩ := text_inv ls (hb _ (List.mem_cons_self _ _))
        cases ls with
        | nil => exact absurd rfl hlne
        | cons l t =>
          have hline := hl l (List.mem_cons_self _ _)
          obtain ⟨body, hbody, hbn⟩ := line_src l hline
          simp only [List.map_cons, List.flatten_cons, Block.src, hbody, List.append_assoc,
            List.singleton_append] at hfl
          obtain ⟨rfl, hrest⟩ := split_at_nl body _ s hbn hnl hfl
          replace hrest : (t.map Line.src).flatten ++ (bs.map Block.src).flatten = [] := hrest
          rw [List.append_eq_nil] at hrest
          have ht : t = [] := flatten_eq_nil_of_ne_nil Line.src t
            (fun l' hl' => line_src_ne_nil l' (hl l' (List.mem_cons_of_mem _ hl'))) hrest.1
          have hbs : bs = [] := flatten_eq_nil_of_ne_nil Block.src bs
            (fun b' hb' => block_src_ne_nil b' (hb b' (List.mem_cons_of_mem _ hb'))) hrest.2
          subst ht hbs
          obtain ⟨hw, hn⟩ := line_inv l hline
          cases l with
          | mk words nl =>
            cases nl with
            | mk pre txt =>
              simp only at hn hw
              subst hn
              simp only [Line.src, Lexeme.src, ← List.append_assoc] at hbody
              have hbody := List.append_cancel_right hbody
              have hpre : pre = 0 := by
                apply not_mem_extras_eq_zero
                intro hm
                apply hcr
                rw [← hbody]
                exact List.mem_append_right _ hm
              subst hpre
              simp only [extras, List.replicate_zero, List.append_nil] at hbody
              cases words with
              | none => exact absurd hbody.symm hne
              | some m =>
                obtain ⟨hh, htl⟩ := many_sep_inv _ _ m hw
                cases m with
                | mk w tl =>
                  cases tl with
                  | nil =>
                    refine ⟨w, rfl, hh, ?_⟩
                    simpa [wordsSrc, ManySep.src] using hbody
                  | cons p ps =>
                    exfalso
                    obtain ⟨hsep, -⟩ := htl p (List.mem_cons_self _ _)
                    obtain ⟨hsne, hsb⟩ := SPACE_TAB_chars _ hsep
                    obtain ⟨c, hc⟩ := List.exists_mem_of_ne_nil _ hsne
                    have hcs : c ∈ body := by
                      rw [← hbody]
                      simp only [wordsSrc, ManySep.src, List.map_cons, List.flatten_cons,
                        Lexeme.src]
                      simp [hc]
                    have h1 := (isChunkChar_iff _).1 (hch c hcs)
                    rcases (isBlank_iff c).1 (hsb c hc) with e | e
                    · exact h1.2.1 e
                    · exact h1.1 e

theorem oneWordDoc_parses (w : Word) (h : word w = true) :
    Parses (w.src ++ ['\n']) (oneWordDoc w) := by
  constructor
  · simp [oneWordDoc, lineDoc, papier, block, text, repeat1, line, optional, many_sep, pat, NL, h]
  · simp [oneWordDoc, lineDoc, Document.src, Block.src, Line.src, wordsSrc, ManySep.src,
      Lexeme.src, extras]

theorem dropLast_append_singleton (s : Str) (c : Char) : (s ++ [c]).dropLast = s := by
  simp

/-- The text `!!A` followed by a punctuation character: a chunk without carriage
return that is matched in full by the plain alternative only. -/
theorem alias_punct_text (a : Str) (p : Char) (ha : REGEX_ALIAS a = true)
    (hp : isPunct p = true) :
    REGEX_CHUNK ('!' :: '!' :: (a ++ [p])) = true ∧ '\r' ∉ '!' :: '!' :: (a ++ [p]) ∧
    ∀ k : Kind, k ≠ .Plain → k.token? ('!' :: '!' :: (a ++ [p])) = none := by
  obtain ⟨hc, hcr, -⟩ := alias_text_chars a ha
  obtain ⟨hne, hch⟩ := (plus_iff _ _).1 hc
  refine ⟨?_, ?_, ?_⟩
  · rw [REGEX_CHUNK, plus_iff]
    refine ⟨by simp, ?_⟩
    intro c hm
    rw [← List.cons_append, ← List.cons_append] at hm
    rcases List.mem_append.1 hm with hm | hm
    · exact hch c hm
    · rw [List.mem_singleton] at hm
      subst hm
      exact isPunct_isChunkChar _ hp
  · intro hm
    rw [← List.cons_append, ← List.cons_append] at hm
    rcases List.mem_append.1 hm with hm | hm
    · exact hcr hm
    · rw [List.mem_singleton] at hm
      exact isPunct_ne_cr p hp hm.symm
  · obtain ⟨h1, h3, h4, h5⟩ := bang_bang_tokens (a ++ [p])
    intro k hk
    cases k
    · exact h1
    · cases ht : Kind.token? .Alias ('!' :: '!' :: (a ++ [p])) with
      | none => rfl
      | some t =>
        exfalso
        obtain ⟨hkind, htext, hok⟩ := (token?_eq_some_iff _ _ _).1 ht
        cases t with
        | mk k q =>
          simp only at hkind
          subst hkind
          simp only [Token.text, Kind.rule, «alias», prefix_token, List.cons_append,
            List.nil_append, List.cons.injEq, true_and] at htext
          subst htext
          have := (REGEX_ALIAS_inv _ hok).2 p (by simp)
          rw [isAliasTail_not_isPunct p this] at hp
          cases hp
    · exact h3
    · exact h4
    · exact h5
    · exact absurd rfl hk

/-! ## Where sub-documents can occur -/

theorem closesOnLine_of (b c : Str) (h : '\n' ∉ b) : closesOnLine (b ++ '}' :: c) = true := by
  induction b with
  | nil => simp [closesOnLine]
  | cons x t ih =>
    have hx : x ≠ '\n' := fun e => h (by simp [e])
    have := ih (fun hm => h (List.mem_cons_of_mem _ hm))
    simp [closesOnLine, this, hx]

theorem hasBraceSpan_of (a r : Str) (h : closesOnLine r = true) :
    hasBraceSpan (a ++ '{' :: r) = true := by
  induction a with
  | nil => simp [hasBraceSpan, h]
  | cons x t ih => simp [hasBraceSpan, ih]

theorem src_of_mem_block (d : Document) (b : Block) (h : b ∈ d.blocks) :
    ∃ pre post, d.src = pre ++ b.src ++ post := by
  obtain ⟨s, t, hst⟩ := List.append_of_mem h
  refine ⟨(s.map Block.src).flatten, (t.map Block.src).flatten ++ extras d.trail, ?_⟩
  simp [Document.src, hst]

theorem exists_sub_document (d : Document) (h : d.allText = false) :
    ∃ s, Block.SubDocument s ∈ d.blocks := by
  unfold Document.allText at h
  have : ¬ ∀ b ∈ d.blocks, (!b.isSubDocument) = true := by
    rw [← List.all_eq_true, h]
    simp
  push_neg at this
  obtain ⟨b, hb, hs⟩ := this
  cases b with
  | SubDocument s => exact ⟨s, hb⟩
  | Text ls => simp [Block.isSubDocument] at hs

/-- A derivation with a sub-document covers an input in which some `{` is closed
by a `}` on the same line. -/
theorem brace_span_of_sub_document (input : Str) (d : Document) (hd : Parses input d)
    (s : SubDocument) (hs : Block.SubDocument s ∈ d.blocks) : hasBraceSpan input = true := by
  obtain ⟨hp, hsrc⟩ := hd
  have hsd : sub_document s = true := papier_inv d hp _ hs
  obtain ⟨pre, post, hpp⟩ := src_of_mem_block d _ hs
  obtain ⟨he, hn⟩ := sub_document_src s hsd
  rw [← hsrc, hpp]
  simp only [Block.src, he]
  have := hasBraceSpan_of (pre ++ extras s.star.pre ++ '*' :: ' ' ::
      (wordsSrc s.title ++ extras s.lbrace.pre))
    ((contentsSrc s.contents ++ extras s.rbrace.pre) ++ '}' :: (optSrc s.nl ++ post))
    (closesOnLine_of _ _ hn)
  simpa using this

theorem allText_of_no_brace_span (input : Str) (d : Document) (hd : Parses input d)
    (h : hasBraceSpan input = false) : d.allText = true := by
  cases ha : d.allText with
  | true => rfl
  | false =>
    obtain ⟨s, hs⟩ := exists_sub_document d ha
    rw [brace_span_of_sub_document input d hd s hs] at h
    cases h

theorem mem_afterNewlines (y t : Str) : t ∈ afterNewlines (y ++ '\n' :: t) := by
  induction y with
  | nil => simp [afterNewlines]
  | cons c u ih =>
    simp only [List.cons_append, afterNewlines]
    split
    · exact List.mem_cons_of_mem _ ih
    · exact ih

theorem mem_lineStarts (x t : Str) (hx : x = [] ∨ ∃ y, x = y ++ ['\n']) :
    t ∈ lineStarts (x ++ t) := by
  rcases hx with rfl | ⟨y, rfl⟩
  · simp [lineStarts]
  · unfold lineStarts
    apply List.mem_cons_of_mem
    simpa using mem_afterNewlines y t

theorem opensAfterExtras_of (k : Nat) (r : Str) :
    opensAfterExtras (extras k ++ '*' :: ' ' :: r) = true := by
  induction k with
  | zero => simp [opensAfterExtras, startsWithOpener, extras]
  | succ n ih =>
    simp [opensAfterExtras, extras_succ, List.dropWhile, startsWithOpener]

/-- The blocks in front of the first sub-document cover whole lines. -/
theorem first_sub_document (bs : List Block) (hb : ∀ b ∈ bs, block b = true)
    (h : ∃ s, Block.SubDocument s ∈ bs) :
    ∃ x k r, (bs.map Block.src).flatten = x ++ (extras k ++ '*' :: ' ' :: r) ∧
      (x = [] ∨ ∃ y, x = y ++ ['\n']) := by
  induction bs with
  | nil =>
    obtain ⟨s, hs⟩ := h
    cases hs
  | cons b t ih =>
    cases b with
    | SubDocument s =>
      obtain ⟨he, -⟩ := sub_document_src s (hb _ (List.mem_cons_self _ _))
      refine ⟨[], s.star.pre, (wordsSrc s.title ++ extras s.lbrace.pre ++
        '{' :: (contentsSrc s.contents ++ extras s.rbrace.pre ++ '}' :: optSrc s.nl)) ++
        (t.map Block.src).flatten, ?_, Or.inl rfl⟩
      simp only [List.map_cons, List.flatten_cons, Block.src, he, List.nil_append,
        List.append_assoc, List.cons_append]
    | Text ls =>
      have ht : ∃ s, Block.SubDocument s ∈ t := by
        obtain ⟨s, hs⟩ := h
        rcases List.mem_cons.1 hs with e | hs
        · cases e
        · exact ⟨s, hs⟩
      obtain ⟨x, k, r, he, hx⟩ := ih (fun b' hb' => hb b' (List.mem_cons_of_mem _ hb')) ht
      obtain ⟨-, hl⟩ := text_inv ls (hb _ (List.mem_cons_self _ _))
      refine ⟨(ls.map Line.src).flatten ++ x, k, r, ?_, ?_⟩
      · simp only [List.map_cons, List.flatten_cons, Block.src, he, List.append_assoc]
      · rcases hx with rfl | ⟨y, rfl⟩
        · rcases lines_src ls hl with e | ⟨z, e⟩
          · left; simp [e]
          · right; exact ⟨z, by simp [e]⟩
        · right
          exact ⟨(ls.map Line.src).flatten ++ y, by simp⟩

theorem allText_of_no_opener (input : Str) (d : Document) (hd : Parses input d)
    (h : (lineStarts input).all (fun t => !opensAfterExtras t) = true) : d.allText = true := by
  cases ha : d.allText with
  | true => rfl
  | false =>
    exfalso
    obtain ⟨hp, hsrc⟩ := hd
    obtain ⟨x, k, r, he, hx⟩ :=
      first_sub_document d.blocks (papier_inv d hp) (exists_sub_document d ha)
    have hm : extras k ++ '*' :: ' ' :: (r ++ extras d.trail) ∈ lineStarts input := by
      have := mem_lineStarts x (extras k ++ '*' :: ' ' :: (r ++ extras d.trail)) hx
      rw [← hsrc, Document.src, he]
      simpa using this
    rw [List.all_eq_true] at h
    have := h _ hm
    rw [opensAfterExtras_of] at this
    cases this

/-! ## Titles, separators and carriage returns -/

theorem many_sep_elems {α : Type} (elem : α → Bool) (sep : Str → Bool) (m : ManySep α)
    (h : many_sep elem sep m = true) : ∀ a ∈ m.elems, elem a = true := by
  obtain ⟨hh, ht⟩ := many_sep_inv elem sep m h
  intro a ha
  simp only [ManySep.elems, List.mem_cons, List.mem_map] at ha
  rcases ha with rfl | ⟨p, hp, rfl⟩
  · exact hh
  · exact (ht p hp).2

theorem many_sep_seps {α : Type} (elem : α → Bool) (sep : Str → Bool) (m : ManySep α)
    (h : many_sep elem sep m = true) : ∀ l ∈ m.seps, sep l.text = true := by
  obtain ⟨-, ht⟩ := many_sep_inv elem sep m h
  intro l hl
  simp only [ManySep.seps, List.mem_map] at hl
  obtain ⟨p, hp, rfl⟩ := hl
  exact (ht p hp).1

theorem title_words_valid (s : SubDocument) (h : sub_document s = true) :
    ∀ w ∈ s.titleWords, word w = true := by
  obtain ⟨-, ht, -⟩ := sub_document_inv s h
  intro w hw
  unfold SubDocument.titleWords at hw
  cases hti : s.title with
  | none => rw [hti] at hw; cases hw
  | some m =>
    rw [hti] at hw ht
    exact many_sep_elems word SPACE m ht w hw

theorem title_seps_valid (s : SubDocument) (h : sub_document s = true) :
    ∀ l ∈ s.titleSeps, SPACE l.text = true := by
  obtain ⟨-, ht, -⟩ := sub_document_inv s h
  intro l hl
  unfold SubDocument.titleSeps at hl
  cases hti : s.title with
  | none => rw [hti] at hl; cases hl
  | some m =>
    rw [hti] at hl ht
    exact many_sep_seps word SPACE m ht l hl

theorem line_words_valid (l : Line) (h : line l = true) : ∀ w ∈ l.wordList, word w = true := by
  obtain ⟨hw, -⟩ := line_inv l h
  intro w hm
  unfold Line.wordList at hm
  cases hl : l.words with
  | none => rw [hl] at hm; cases hm
  | some m =>
    rw [hl] at hm hw
    exact many_sep_elems word SPACE_TAB m hw w hm

theorem line_seps_valid (l : Line) (h : line l = true) :
    ∀ x ∈ l.seps, SPACE_TAB x.text = true := by
  obtain ⟨hw, -⟩ := line_inv l h
  intro x hm
  unfold Line.seps at hm
  cases hl : l.words with
  | none => rw [hl] at hm; cases hm
  | some m =>
    rw [hl] at hm hw
    exact many_sep_seps word SPACE_TAB m hw x hm

theorem document_words_valid (d : Document) (h : papier d = true) :
    ∀ w ∈ d.words, word w = true := by
  intro w hw
  simp only [Document.words, List.mem_flatten, List.mem_map] at hw
  obtain ⟨ws, ⟨b, hb, rfl⟩, hw⟩ := hw
  have hbv := papier_inv d h b hb
  cases b with
  | SubDocument s => exact title_words_valid s hbv w hw
  | Text ls =>
    simp only [Block.words, List.mem_flatten, List.mem_map] at hw
    obtain ⟨x, ⟨l, hl, rfl⟩, hw⟩ := hw
    exact line_words_valid l ((text_inv ls hbv).2 l hl) w hw

theorem document_lineSeps_valid (d : Document) (h : papier d = true) :
    ∀ x ∈ d.lineSeps, SPACE_TAB x.text = true := by
  intro x hx
  simp only [Document.lineSeps, List.mem_flatten, List.mem_map] at hx
  obtain ⟨ws, ⟨b, hb, rfl⟩, hx⟩ := hx
  have hbv := papier_inv d h b hb
  cases b with
  | SubDocument s => cases hx
  | Text ls =>
    simp only [Block.lineSeps, List.mem_flatten, List.mem_map] at hx
    obtain ⟨y, ⟨l, hl, rfl⟩, hx⟩ := hx
    exact line_seps_valid l ((text_inv ls hbv).2 l hl) x hx

/-- The payload of a uuid, alias, tag or fmt token holds no carriage return. -/
theorem restricted_payload_no_cr (t : Token) (h : t.ok = true) (hk : t.kind.restricted = true) :
    '\r' ∉ t.payload := by
  intro hm
  cases t with
  | mk k p =>
    cases k
    · rcases UuidShape_chars p ((REGEX_UUID_iff p).1 h) _ hm with hx | hx
      · exact absurd hx (by decide)
      · exact absurd hx (by decide)
    · exact absurd ((REGEX_ALIAS_inv p h).2 _ hm) (by decide)
    · cases hk
    · exact absurd ((headStar_inv _ _ isTagHead_isTagTail p h).2 _ hm) (by decide)
    · exact absurd ((headStar_inv _ _ isFmtHead_isFmtTail p h).2 _ hm) (by decide)
    · cases hk

/-! ## Splitting a line into chunks -/

theorem isBlank_not_isChunkChar (c : Char) (h : isBlank c = true) : ¬ isChunkChar c = true := by
  intro hc
  have := (isChunkChar_iff c).1 hc
  rcases (isBlank_iff c).1 h with e | e
  · exact this.2.1 e
  · exact this.1 e

theorem startsWithOpener_iff (s : Str) :
    startsWithOpener s = true ↔ ∃ r, s = '*' :: ' ' :: r := by
  unfold startsWithOpener
  rw [List.isPrefixOf_iff_prefix]
  constructor
  · rintro ⟨r, hr⟩
    exact ⟨r, hr.symm⟩
  · rintro ⟨r, rfl⟩
    exact ⟨r, rfl⟩

/-! ## Ends of lines, blocks and documents -/

theorem last_of_append (a b x : Str) (c : Char) (hb : b ≠ []) (h : a ++ b = x ++ [c]) :
    ∃ y, b = y ++ [c] := by
  have hl : b = b.dropLast ++ [b.getLast hb] := (List.dropLast_append_getLast hb).symm
  rw [hl, ← List.append_assoc] at h
  have := (List.append_inj' h rfl).2
  simp only [List.cons.injEq, and_true] at this
  exact ⟨b.dropLast, by rw [← this]; exact hl⟩

/-- The last character covered by a `many_sep` of words is a character of a word. -/
theorem many_sep_last_char (sep : Str → Bool) (tl : List (Lexeme × Word)) :
    ∀ (hd : Word), many_sep word sep ⟨hd, tl⟩ = true →
      ∀ x c, (⟨hd, tl⟩ : ManySep Word).src Word.src = x ++ [c] → isChunkChar c = true := by
  induction tl with
  | nil =>
    intro hd hm x c hx
    obtain ⟨hh, -⟩ := many_sep_inv _ _ _ hm
    simp only [ManySep.src, List.map_nil, List.flatten_nil, List.append_nil] at hx
    exact (word_src_chars hd hh).2 c (by rw [hx]; simp)
  | cons p ps ih =>
    intro hd hm x c hx
    obtain ⟨hh, ht⟩ := many_sep_inv _ _ _ hm
    simp only at hh ht
    have hm' : many_sep word sep ⟨p.2, ps⟩ = true := by
      simp only [many_sep, Bool.and_eq_true, List.all_eq_true]
      exact ⟨(ht p (List.mem_cons_self _ _)).2, fun q hq => by
        simpa using ht q (List.mem_cons_of_mem _ hq)⟩
    have hx' : (hd.src ++ p.1.src) ++ (⟨p.2, ps⟩ : ManySep Word).src Word.src = x ++ [c] := by
      rw [← hx]
      simp [ManySep.src]
    obtain ⟨y, hy⟩ := last_of_append _ _ x c (many_sep_src_ne_nil sep _ hm') hx'
    exact ih p.2 hm' y c hy

/-- The first character covered by a `many_sep` of words is a carriage return or a
character of a word. -/
theorem many_sep_first_char (sep : Str → Bool) (m : ManySep Word)
    (h : many_sep word sep m = true) :
    ∀ c t, m.src Word.src = c :: t → isChunkChar c = true := by
  intro c t hc
  obtain ⟨hh, -⟩ := many_sep_inv _ _ m h
  obtain ⟨hne, hch⟩ := word_src_chars _ hh
  unfold ManySep.src at hc
  cases hs : m.head.src with
  | nil => exact absurd hs hne
  | cons e u =>
    rw [hs] at hc
    simp only [List.cons_append, List.cons.injEq] at hc
    rw [← hc.1]
    exact hch e (by simp [hs])

theorem isChunkChar_not_isBlank (c : Char) (h : isChunkChar c = true) : isBlank c = false := by
  cases hb : isBlank c with
  | false => rfl
  | true => exact absurd h (isBlank_not_isChunkChar c hb)

/-- A line does not begin with a space or tab. -/
theorem line_first_char (l : Line) (h : line l = true) :
    ∀ c t, l.src = c :: t → isBlank c = false := by
  intro c t hc
  obtain ⟨hw, hn⟩ := line_inv l h
  unfold Line.src at hc
  cases hws : l.words with
  | none =>
    rw [hws] at hc
    simp only [wordsSrc, List.nil_append, Lexeme.src, hn] at hc
    cases hk : l.nl.pre with
    | zero =>
      rw [hk] at hc
      simp only [extras, List.replicate_zero, List.nil_append, List.cons.injEq] at hc
      rw [← hc.1]
      decide
    | succ n =>
      rw [hk, extras_succ] at hc
      simp only [List.cons_append, List.cons.injEq] at hc
      rw [← hc.1]
      decide
  | some m =>
    rw [hws] at hc hw
    simp only [wordsSrc] at hc
    have hne := many_sep_src_ne_nil _ m hw
    cases hs : m.src Word.src with
    | nil => exact absurd hs hne
    | cons e u =>
      rw [hs] at hc
      simp only [List.cons_append, List.cons.injEq] at hc
      rw [← hc.1]
      exact isChunkChar_not_isBlank e (many_sep_first_char _ m hw e u hs)

/-- The character in front of the newline of a line is not a space or tab. -/
theorem line_char_before_nl (l : Line) (h : line l = true) :
    ∀ b c, l.src = b ++ [c, '\n'] → isBlank c = false := by
  intro b c hc
  obtain ⟨hw, hn⟩ := line_inv l h
  have hsrc : l.src = (wordsSrc l.words ++ extras l.nl.pre) ++ ['\n'] := by
    simp [Line.src, Lexeme.src, hn]
  rw [hsrc] at hc
  have hc' : wordsSrc l.words ++ extras l.nl.pre = b ++ [c] := by
    have : b ++ [c, '\n'] = (b ++ [c]) ++ ['\n'] := by simp
    rw [this] at hc
    exact List.append_cancel_right hc
  cases hk : l.nl.pre with
  | succ n =>
    rw [hk, extras_succ_right, ← List.append_assoc] at hc'
    have := (List.append_inj' hc' rfl).2
    simp only [List.cons.injEq, and_true] at this
    rw [← this]
    decide
  | zero =>
    rw [hk] at hc'
    simp only [extras, List.replicate_zero, List.append_nil] at hc'
    cases hws : l.words with
    | none =>
      rw [hws] at hc'
      simp [wordsSrc] at hc'
    | some m =>
      rw [hws] at hc' hw
      cases m with
      | mk hd tl =>
        exact isChunkChar_not_isBlank c (many_sep_last_char SPACE_TAB tl hd hw b c hc')

/-- A valid block covers a text that ends in a newline, or in the `}` of a
sub-document without final newline. -/
theorem block_src_last (b : Block) (h : block b = true) :
    (∃ x, b.src = x ++ ['\n']) ∨
    (∃ x s, b = Block.SubDocument s ∧ s.nl = none ∧ b.src = x ++ ['}']) := by
  cases b with
  | Text ls =>
    left
    obtain ⟨hne, hl⟩ := text_inv ls h
    rcases lines_src ls hl with e | ⟨x, e⟩
    · exact absurd e (block_src_ne_nil (Block.Text ls) h)
    · exact ⟨x, e⟩
  | SubDocument s =>
    obtain ⟨he, -⟩ := sub_document_src s h
    obtain ⟨-, -, -, -, -, hnl⟩ := sub_document_inv s h
    cases hn : s.nl with
    | none =>
      right
      refine ⟨extras s.star.pre ++ '*' :: ' ' :: ((wordsSrc s.title ++ extras s.lbrace.pre) ++
        '{' :: (contentsSrc s.contents ++ extras s.rbrace.pre)), s, rfl, hn, ?_⟩
      simp [Block.src, he, hn, optSrc]
    | some l =>
      left
      rw [hn] at hnl
      have ht := nl_inv l hnl
      refine ⟨extras s.star.pre ++ '*' :: ' ' :: ((wordsSrc s.title ++ extras s.lbrace.pre) ++
        '{' :: ((contentsSrc s.contents ++ extras s.rbrace.pre) ++ '}' :: extras l.pre)), ?_⟩
      simp [Block.src, he, hn, optSrc, Lexeme.src, ht]

/-- The blocks of a document cover nothing, or a text that ends in a newline or in
the `}` of a last sub-document without final newline. -/
theorem blocks_src_last (bs : List Block) (hb : ∀ b ∈ bs, block b = true) :
    (bs.map Block.src).flatten = [] ∨ (∃ x, (bs.map Block.src).flatten = x ++ ['\n']) ∨
    (∃ x bs' s, (bs.map Block.src).flatten = x ++ ['}'] ∧ bs = bs' ++ [Block.SubDocument s] ∧
      s.nl = none) := by
  rcases List.eq_nil_or_concat bs with rfl | ⟨L, b, rfl⟩
  · exact Or.inl rfl
  · right
    have hbv := hb b (by simp)
    rcases block_src_last b hbv with ⟨x, hx⟩ | ⟨x, s, hs, hn, hx⟩
    · left
      exact ⟨(L.map Block.src).flatten ++ x, by simp [hx]⟩
    · right
      exact ⟨(L.map Block.src).flatten ++ x, L, s, by simp [hx], by rw [hs, List.concat_eq_append], hn⟩

/-- A derived input is empty or ends in a newline, a `}` or a carriage return. -/
theorem parsed_input_last (input : Str) (d : Document) (hd : Parses input d) :
    input = [] ∨ ∃ x c, input = x ++ [c] ∧ (c = '\n' ∨ c = '}' ∨ c = '\r') := by
  obtain ⟨hp, hsrc⟩ := hd
  rw [← hsrc, Document.src]
  cases hk : d.trail with
  | succ n =>
    right
    exact ⟨(d.blocks.map Block.src).flatten ++ extras n, '\r',
      by rw [extras_succ_right, List.append_assoc], Or.inr (Or.inr rfl)⟩
  | zero =>
    simp only [extras, List.replicate_zero, List.append_nil]
    rcases blocks_src_last d.blocks (papier_inv d hp) with e | ⟨x, e⟩ | ⟨x, _, _, e, -, -⟩
    · exact Or.inl e
    · exact Or.inr ⟨x, '\n', e, Or.inl rfl⟩
    · exact Or.inr ⟨x, '}', e, Or.inr (Or.inl rfl)⟩

theorem count_nl_extras (n : Nat) : (extras n).count '\n' = 0 :=
  List.count_eq_zero_of_not_mem (fun hm => absurd (mem_extras _ _ hm) (by decide))

theorem count_nl_word (w : Word) (h : word w = true) : w.src.count '\n' = 0 :=
  List.count_eq_zero_of_not_mem
    (fun hm => ((isChunkChar_iff _).1 ((word_src_chars w h).2 _ hm)).2.2 rfl)

/-- The newlines covered by a `many_sep` of words are those of its separators. -/
theorem many_sep_count_nl (sep : Str → Bool) (tl : List (Lexeme × Word)) :
    ∀ (hd : Word), many_sep word sep ⟨hd, tl⟩ = true →
      ((⟨hd, tl⟩ : ManySep Word).src Word.src).count '\n' =
        ((⟨hd, tl⟩ : ManySep Word).seps.map (fun l => l.text.count '\n')).sum := by
  induction tl with
  | nil =>
    intro hd hm
    obtain ⟨hh, -⟩ := many_sep_inv _ _ _ hm
    simp [ManySep.src, ManySep.seps, count_nl_word hd hh]
  | cons p ps ih =>
    intro hd hm
    obtain ⟨hh, ht⟩ := many_sep_inv _ _ _ hm
    simp only at hh ht
    have hm' : many_sep word sep ⟨p.2, ps⟩ = true := by
      simp only [many_sep, Bool.and_eq_true, List.all_eq_true]
      exact ⟨(ht p (List.mem_cons_self _ _)).2, fun q hq => by
        simpa using ht q (List.mem_cons_of_mem _ hq)⟩
    have e : (⟨hd, p :: ps⟩ : ManySep Word).src Word.src =
        hd.src ++ (p.1.src ++ (⟨p.2, ps⟩ : ManySep Word).src Word.src) := by
      simp [ManySep.src]
    rw [e, List.count_append, List.count_append, ih p.2 hm', count_nl_word hd hh]
    simp [ManySep.seps, Lexeme.src, List.count_append, count_nl_extras]

/-! ## Position and number of sub-documents -/

theorem atLineStart_iff (x : Str) : atLineStart x = true ↔ x = [] ∨ ∃ y, x = y ++ ['\n'] := by
  unfold atLineStart
  constructor
  · intro h
    simp only [Bool.or_eq_true, List.isEmpty_iff, beq_iff_eq] at h
    rcases h with h | h
    · exact Or.inl h
    · obtain ⟨y, hy⟩ := List.getLast?_eq_some_iff.1 h
      exact Or.inr ⟨y, hy⟩
  · rintro (rfl | ⟨y, rfl⟩)
    · rfl
    · simp

theorem mem_subDocuments (d : Document) (s : SubDocument) (h : s ∈ d.subDocuments) :
    Block.SubDocument s ∈ d.blocks := by
  simp only [Document.subDocuments, List.mem_filterMap] at h
  obtain ⟨b, hb, hs⟩ := h
  cases b with
  | SubDocument s' =>
    simp only [Option.some.injEq] at hs
    subst hs
    exact hb
  | Text ls => cases hs

/-! ## Spans of the leaves -/

theorem DropsExtras.refl (x : Str) : DropsExtras x x := ⟨List.Sublist.refl x, rfl⟩

theorem DropsExtras.append {a b c d : Str} (h1 : DropsExtras a b) (h2 : DropsExtras c d) :
    DropsExtras (a ++ c) (b ++ d) :=
  ⟨h1.1.append h2.1, by rw [List.filter_append, List.filter_append, h1.2, h2.2]⟩

theorem DropsExtras.extras (n : Nat) : DropsExtras [] (extras n) := by
  refine ⟨List.nil_sublist _, ?_⟩
  unfold Papier.extras
  induction n with
  | zero => rfl
  | succ n ih =>
    rw [List.replicate_succ, List.filter_cons_of_neg (by decide)]
    exact ih

/-- With no carriage return in the longer text, the two texts are the same. -/
theorem DropsExtras.eq {x y : Str} (h : DropsExtras x y) (hy : '\r' ∉ y) : x = y := by
  have h1 : y.filter (· != '\r') = y := by
    rw [List.filter_eq_self]
    intro c hc
    simp only [bne_iff_ne, ne_eq]
    rintro rfl
    exact hy hc
  have h2 : y.length ≤ x.length := by
    have := congrArg List.length h.2
    rw [h1] at this
    rw [← this]
    exact List.length_filter_le _ _
  exact h.1.eq_of_length_le h2

theorem lexeme_spans (l : Lexeme) : DropsExtras l.spans.flatten l.src := by
  have := (DropsExtras.extras l.pre).append (DropsExtras.refl l.text)
  simpa [Lexeme.spans, Lexeme.src] using this

theorem optSpans_flatten (o : Option Lexeme) : DropsExtras (optSpans o).flatten (optSrc o) := by
  cases o with
  | none => exact DropsExtras.refl []
  | some l => exact lexeme_spans l

theorem word_spans (w : Word) : DropsExtras w.spans.flatten w.src := by
  have := ((DropsExtras.extras w.pre).append (DropsExtras.refl w.tok.text)).append
    (optSpans_flatten w.punct)
  simpa [Word.spans, Word.src] using this

theorem tail_spans (tl : List (Lexeme × Word)) :
    DropsExtras (tl.map (fun p => p.1.spans ++ p.2.spans)).flatten.flatten
      (tl.map (fun p => p.1.src ++ p.2.src)).flatten := by
  induction tl with
  | nil => exact DropsExtras.refl []
  | cons p ps ih =>
    have := ((lexeme_spans p.1).append (word_spans p.2)).append ih
    simpa [List.flatten_append] using this

theorem wordsSpans_flatten (o : Option (ManySep Word)) :
    DropsExtras (wordsSpans o).flatten (wordsSrc o) := by
  cases o with
  | none => exact DropsExtras.refl []
  | some m =>
    have := (word_spans m.head).append (tail_spans m.tail)
    simpa [wordsSpans, wordsSrc, ManySep.src, List.flatten_append] using this

theorem line_spans (l : Line) : DropsExtras l.spans.flatten l.src := by
  have := (wordsSpans_flatten l.words).append (lexeme_spans l.nl)
  simpa [Line.spans, Line.src, List.flatten_append] using this

theorem contentsSpans_flatten (o : Option (List Lexeme)) :
    DropsExtras (contentsSpans o).flatten (contentsSrc o) := by
  cases o with
  | none => exact DropsExtras.refl []
  | some ls =>
    simp only [contentsSpans, contentsSrc]
    induction ls with
    | nil => exact DropsExtras.refl []
    | cons l t ih =>
      have := (lexeme_spans l).append ih
      simpa [List.flatten_append] using this

theorem sub_document_spans (s : SubDocument) : DropsExtras s.spans.flatten s.src := by
  have := (((((lexeme_spans s.star).append (wordsSpans_flatten s.title)).append
    (lexeme_spans s.lbrace)).append (contentsSpans_flatten s.contents)).append
    (lexeme_spans s.rbrace)).append (optSpans_flatten s.nl)
  simpa [SubDocument.spans, SubDocument.src, List.flatten_append] using this

theorem block_spans (b : Block) : DropsExtras b.spans.flatten b.src := by
  cases b with
  | SubDocument s => exact sub_document_spans s
  | Text ls =>
    simp only [Block.spans, Block.src]
    induction ls with
    | nil => exact DropsExtras.refl []
    | cons l t ih =>
      have := (line_spans l).append ih
      simpa [List.flatten_append] using this

/-- The spans of the leaves, put together, are the covered input with the skipped
carriage returns left out. -/
theorem document_spans (d : Document) : DropsExtras d.spans.flatten d.src := by
  have hb : DropsExtras (d.blocks.map Block.spans).flatten.flatten
      (d.blocks.map Block.src).flatten := by
    induction d.blocks with
    | nil => exact DropsExtras.refl []
    | cons b t ih =>
      have := (block_spans b).append ih
      simpa [List.flatten_append] using this
  have := hb.append (DropsExtras.extras d.trail)
  simpa [Document.spans, Document.src] using this

/-! ## What follows a word -/

/-- The first character of a terminal occurrence is a carriage return or the
first character of its text. -/
theorem lexeme_src_head (P : Char → Prop) (hcr : P '\r') (l : Lexeme) (r : Str)
    (hne : l.text ≠ []) (ht : ∀ c ∈ l.text, P c) : ∃ c t, l.src ++ r = c :: t ∧ P c := by
  unfold Lexeme.src
  cases hk : l.pre with
  | succ n => exact ⟨'\r', _, by rw [extras_succ]; rfl, hcr⟩
  | zero =>
    cases hs : l.text with
    | nil => exact absurd hs hne
    | cons c u => exact ⟨c, u ++ r, by simp [extras], ht c (by simp [hs])⟩

theorem tail_src_head (sep : Str → Bool) (P : Char → Prop) (hcr : P '\r')
    (hsep : ∀ s, sep s = true → s ≠ [] ∧ ∀ c ∈ s, P c) (after : Str)
    (hafter : ∃ c t, after = c :: t ∧ P c) (tl : List (Lexeme × Word))
    (ht : ∀ p ∈ tl, sep p.1.text = true ∧ word p.2 = true) :
    ∃ c t, (tl.map (fun q => q.1.src ++ q.2.src)).flatten ++ after = c :: t ∧ P c := by
  cases tl with
  | nil => simpa using hafter
  | cons p ps =>
    obtain ⟨hs, -⟩ := ht p (List.mem_cons_self _ _)
    obtain ⟨hne, hc⟩ := hsep _ hs
    obtain ⟨c, t, he, hp⟩ := lexeme_src_head P hcr p.1
      (p.2.src ++ ((ps.map (fun q => q.1.src ++ q.2.src)).flatten ++ after)) hne hc
    exact ⟨c, t, by simpa using he, hp⟩

theorem followedTail_head (sep : Str → Bool) (P : Char → Prop) (hcr : P '\r')
    (hsep : ∀ s, sep s = true → s ≠ [] ∧ ∀ c ∈ s, P c) (after : Str)
    (hafter : ∃ c t, after = c :: t ∧ P c) (tl : List (Lexeme × Word))
    (ht : ∀ p ∈ tl, sep p.1.text = true ∧ word p.2 = true) :
    ∀ q ∈ followedTail tl after, ∃ c t, q.2 = c :: t ∧ P c := by
  induction tl with
  | nil => intro q hq; cases hq
  | cons p ps ih =>
    have hps : ∀ r ∈ ps, sep r.1.text = true ∧ word r.2 = true :=
      fun r hr => ht r (List.mem_cons_of_mem _ hr)
    intro q hq
    simp only [followedTail, List.mem_cons] at hq
    rcases hq with rfl | hq
    · exact tail_src_head sep P hcr hsep after hafter ps hps
    · exact ih hps q hq

/-- Every word of a `many_sep` is followed by a carriage return, by a character
of a separator, or by what follows the whole `many_sep`. -/
theorem followedWords_head (sep : Str → Bool) (P : Char → Prop) (hcr : P '\r')
    (hsep : ∀ s, sep s = true → s ≠ [] ∧ ∀ c ∈ s, P c) (after : Str)
    (hafter : ∃ c t, after = c :: t ∧ P c) (o : Option (ManySep Word))
    (ho : optional (many_sep word sep) o = true) :
    ∀ q ∈ followedWords o after, ∃ c t, q.2 = c :: t ∧ P c := by
  cases o with
  | none => intro q hq; cases hq
  | some m =>
    obtain ⟨-, ht⟩ := many_sep_inv _ _ m ho
    intro q hq
    simp only [followedWords, List.mem_cons] at hq
    rcases hq with rfl | hq
    · exact tail_src_head sep P hcr hsep after hafter m.tail ht
    · exact followedTail_head sep P hcr hsep after hafter m.tail ht q hq

theorem followedTail_split (tl : List (Lexeme × Word)) (after : Str) :
    ∀ q ∈ followedTail tl after,
      ∃ a, (tl.map (fun q => q.1.src ++ q.2.src)).flatten ++ after = a ++ q.1.src ++ q.2 := by
  induction tl with
  | nil => intro q hq; cases hq
  | cons p ps ih =>
    intro q hq
    simp only [followedTail, List.mem_cons] at hq
    rcases hq with rfl | hq
    · exact ⟨p.1.src, by simp⟩
    · obtain ⟨a, ha⟩ := ih q hq
      exact ⟨p.1.src ++ p.2.src ++ a, by simp [ha]⟩

/-- A word paired by `followedWords` with a rest sits in the input right in front
of that rest. -/
theorem followedWords_split (o : Option (ManySep Word)) (after : Str) :
    ∀ q ∈ followedWords o after, ∃ a, wordsSrc o ++ after = a ++ q.1.src ++ q.2 := by
  cases o with
  | none => intro q hq; cases hq
  | some m =>
    intro q hq
    simp only [followedWords, List.mem_cons] at hq
    rcases hq with rfl | hq
    · exact ⟨[], by simp [wordsSrc, ManySep.src]⟩
    · obtain ⟨a, ha⟩ := followedTail_split m.tail after q hq
      exact ⟨m.head.src ++ a, by simp [wordsSrc, ManySep.src, ha]⟩

/-! ## Case of letters -/

theorem toLower_of_not_isUpper (c : Char) (h : isUpper c = false) : c.toLower = c := by
  simp only [isUpper, Bool.and_eq_false_iff, decide_eq_false_iff_not, char_le_iff] at h
  have e1 : ('A' : Char).toNat = 65 := rfl
  have e2 : ('Z' : Char).toNat = 90 := rfl
  rw [e1, e2] at h
  unfold Char.toLower
  simp only
  rw [if_neg]
  omega

theorem isUpper_cases (c : Char) (h : isUpper c = true) :
    ∃ n, 65 ≤ n ∧ n ≤ 90 ∧ c = Char.ofNat n := by
  simp only [isUpper, Bool.and_eq_true, decide_eq_true_eq, char_le_iff] at h
  have e1 : ('A' : Char).toNat = 65 := rfl
  have e2 : ('Z' : Char).toNat = 90 := rfl
  rw [e1, e2] at h
  exact ⟨c.toNat, h.1, h.2, (Char.ofNat_toNat c).symm⟩

/-- Lower-casing a character keeps digits, `-` and `_`, and makes a letter of
either case a lower-case letter. -/
theorem toLower_classes (c : Char) :
    isLower c.toLower = (isLower c || isUpper c) ∧ isDigit c.toLower = isDigit c ∧
    (c.toLower == '-') = (c == '-') ∧ (c.toLower == '_') = (c == '_') := by
  cases hu : isUpper c with
  | false =>
    rw [toLower_of_not_isUpper c hu]
    simp
  | true =>
    obtain ⟨n, h1, h2, rfl⟩ := isUpper_cases c hu
    interval_cases n <;> decide

theorem foldCase_classes (c : Char) :
    isLower (foldCase c) = isFoldLetter c ∧ isDigit (foldCase c) = isDigit c ∧
    (foldCase c == '-') = (c == '-') ∧ (foldCase c == '_') = (c == '_') := by
  by_cases h1 : c = '\u017f'
  · subst h1
    decide
  · by_cases h2 : c = '\u212a'
    · subst h2
      decide
    · have e : foldCase c = c.toLower := by
        simp [foldCase, h1, h2]
      obtain ⟨a1, a2, a3, a4⟩ := toLower_classes c
      have b1 : (c == '\u017f') = false := beq_eq_false_iff_ne.2 h1
      have b2 : (c == '\u212a') = false := beq_eq_false_iff_ne.2 h2
      rw [e, a1, a2, a3, a4]
      simp [isFoldLetter, b1, b2]

theorem isTagHead_foldCase (c : Char) : isLowerAlnum (foldCase c) = isTagHead c := by
  obtain ⟨h1, h2, -, -⟩ := foldCase_classes c
  simp only [isLowerAlnum, isTagHead, h1, h2]

theorem isTagTail_foldCase (c : Char) : isLowerTail (foldCase c) = isTagTail c := by
  obtain ⟨h1, h2, h3, h4⟩ := foldCase_classes c
  simp only [isLowerTail, isTagTail, h1, h2, h3, h4, Bool.or_assoc]

/-- The flag `(?i)`: the tag pattern matches a payload exactly when the pattern as
written matches the case-folded payload. -/
theorem REGEX_TAG_iff_fold (p : Str) :
    REGEX_TAG p = tagPatternExact (p.map foldCase) := by
  cases p with
  | nil => rfl
  | cons c cs =>
    have hf : (isLowerTail ∘ foldCase) = isTagTail := funext isTagTail_foldCase
    simp only [REGEX_TAG, tagPatternExact, headStar, List.map_cons, isTagHead_foldCase,
      List.all_map, hf]

theorem isTagHead_iff (c : Char) :
    isTagHead c = true ↔ (isAlnum c = true ∨ c = '\u017f' ∨ c = '\u212a') := by
  simp only [isTagHead, isFoldLetter, isAlnum, isLower, isUpper, isDigit, Bool.or_eq_true,
    beq_iff_eq]
  tauto

theorem isTagTail_iff (c : Char) :
    isTagTail c = true ↔
      (c = '-' ∨ c = '_' ∨ isAlnum c = true ∨ c = '\u017f' ∨ c = '\u212a') := by
  simp only [isTagTail, isFoldLetter, isAlnum, isLower, isUpper, isDigit, Bool.or_eq_true,
    beq_iff_eq]
  tauto

theorem REGEX_TAG_iff_shape (p : Str) : REGEX_TAG p = true ↔ FoldedTagShape p := by
  cases p with
  | nil =>
    constructor
    · intro h; cases h
    · rintro ⟨c, cs, h, -⟩; cases h
  | cons c cs =>
    simp only [REGEX_TAG, headStar, Bool.and_eq_true, List.all_eq_true, FoldedTagShape]
    constructor
    · rintro ⟨h1, h2⟩
      exact ⟨c, cs, rfl, (isTagHead_iff c).1 h1, fun d hd => (isTagTail_iff d).1 (h2 d hd)⟩
    · rintro ⟨c', cs', he, h1, h2⟩
      simp only [List.cons.injEq] at he
      obtain ⟨rfl, rfl⟩ := he
      exact ⟨(isTagHead_iff _).2 h1, fun d hd => (isTagTail_iff d).2 (h2 d hd)⟩

/-- Texts that agree after lower-casing agree after case folding. -/
theorem foldCase_of_toLower (p q : Str) (h : q.map Char.toLower = p.map Char.toLower) :
    q.map foldCase = p.map foldCase := by
  induction q generalizing p with
  | nil =>
    cases p with
    | nil => rfl
    | cons a p => cases h
  | cons b q ih =>
    cases p with
    | nil => cases h
    | cons a p =>
      simp only [List.map_cons, List.cons.injEq] at h ⊢
      refine ⟨?_, ih p h.2⟩
      have hb := h.1
      by_cases ua : isUpper a = true
      · by_cases ub : isUpper b = true
        · have e1 : foldCase a = a.toLower := by
            have n1 : a ≠ '\u017f' := by rintro rfl; exact absurd ua (by decide)
            have n2 : a ≠ '\u212a' := by rintro rfl; exact absurd ua (by decide)
            simp [foldCase, n1, n2]
          have e2 : foldCase b = b.toLower := by
            have n1 : b ≠ '\u017f' := by rintro rfl; exact absurd ub (by decide)
            have n2 : b ≠ '\u212a' := by rintro rfl; exact absurd ub (by decide)
            simp [foldCase, n1, n2]
          rw [e1, e2, hb]
        · have ub' : isUpper b = false := by simpa using ub
          rw [toLower_of_not_isUpper b ub'] at hb
          subst hb
          have n1 : a ≠ '\u017f' := by rintro rfl; exact absurd ua (by decide)
          have n2 : a ≠ '\u212a' := by rintro rfl; exact absurd ua (by decide)
          have l : isLower a.toLower = true := by
            rw [(toLower_classes a).1, ua]; simp
          have n3 : a.toLower ≠ '\u017f' := by
            intro e; rw [e] at l; exact absurd l (by decide)
          have n4 : a.toLower ≠ '\u212a' := by
            intro e; rw [e] at l; exact absurd l (by decide)
          simp [foldCase, n1, n2, n3, n4, toLower_of_not_isUpper _ ub']
      · have ua' : isUpper a = false := by simpa using ua
        rw [toLower_of_not_isUpper a ua'] at hb
        subst hb
        by_cases ub : isUpper b = true
        · have n1 : b ≠ '\u017f' := by rintro rfl; exact absurd ub (by decide)
          have n2 : b ≠ '\u212a' := by rintro rfl; exact absurd ub (by decide)
          have l : isLower b.toLower = true := by
            rw [(toLower_classes b).1, ub]; simp
          have n3 : b.toLower ≠ '\u017f' := by
            intro e; rw [e] at l; exact absurd l (by decide)
          have n4 : b.toLower ≠ '\u212a' := by
            intro e; rw [e] at l; exact absurd l (by decide)
          simp [foldCase, n1, n2, n3, n4, toLower_of_not_isUpper _ ua']
        · have ub' : isUpper b = false := by simpa using ub
          rw [toLower_of_not_isUpper b ub']

theorem tag_payload?_iff (s p : Str) :
    tag.payload? s = some p ↔ s = '#' :: p ∧ REGEX_TAG p = true := by
  rw [payload?_eq_some_iff]
  rfl

/-! ## Disjoint tokens and the order of the alternatives -/

/-- A matched token begins as its kind prescribes. -/
theorem lead_of_token (k : Kind) (s : Str) (t : Token) (h : k.token? s = some t) :
    lead k s = true := by
  obtain ⟨hk, ht, hok⟩ := (token?_eq_some_iff k s t).1 h
  obtain ⟨hne, -⟩ := payload_chars t hok
  cases t with
  | mk kind p =>
    simp only at hk
    subst hk
    simp only at hne
    cases kind
    · obtain ⟨x, c, hx, hc⟩ := UuidShape_last p ((REGEX_UUID_iff p).1 hok)
      obtain ⟨g1, g2, g3, g4, g5, hp, h1, -⟩ := (REGEX_UUID_iff p).1 hok
      cases g1 with
      | nil => simp at h1
      | cons e u =>
        subst ht
        rw [hp]
        simp [Token.text, Kind.rule, uuid, prefix_token, lead, h1.2 e (by simp)]
    · cases p with
      | nil => exact absurd rfl hne
      | cons e u =>
        subst ht
        simp [Token.text, Kind.rule, «alias», prefix_token, lead]
    · cases p with
      | nil => exact absurd rfl hne
      | cons e u =>
        subst ht
        simp [Token.text, Kind.rule, ref, prefix_token, lead]
    · subst ht
      simp [Token.text, Kind.rule, tag, prefix_token, lead]
    · subst ht
      simp [Token.text, Kind.rule, fmt, prefix_token, lead]
    · rfl

/-- Two different prefixed kinds never begin the same text. -/
theorem lead_disjoint (k1 k2 : Kind) (s : Str) (h1 : k1 ≠ .Plain) (h2 : k2 ≠ .Plain)
    (hne : k1 ≠ k2) (hl1 : lead k1 s = true) (hl2 : lead k2 s = true) : False := by
  have hx : isHex '!' = false := by decide
  have hy : isHex '?' = false := by decide
  cases s with
  | nil => cases k1 <;> first | exact absurd rfl h1 | simp [lead] at hl1
  | cons c t =>
    cases t with
    | nil =>
      cases k1 <;> cases k2 <;> simp [lead] at hl1 hl2 <;>
        first
        | exact absurd rfl hne
        | exact absurd rfl h1
        | exact absurd rfl h2
        | (rw [hl1] at hl2; exact absurd hl2 (by decide))
    | cons d u =>
      cases k1 <;> cases k2 <;> simp [lead] at hl1 hl2 <;>
        first
        | exact absurd rfl hne
        | exact absurd rfl h1
        | exact absurd rfl h2
        | (rw [hl1.2] at hl2; exact absurd hl2.2 (by decide))
        | (rw [hl2.2] at hl1; exact absurd hl1.2 (by decide))
        | (rw [hl1.1] at hl2; exact absurd hl2 (by decide))
        | (rw [hl1] at hl2; exact absurd hl2.1 (by decide))
        | (rw [hl1] at hl2; exact absurd hl2 (by decide))

/-- A text that extends the text of a prefixed token begins like that token. -/
theorem lead_of_extension (k : Kind) (s1 s2 : Str) (hk : k ≠ .Plain) (hl : lead k s1 = true)
    (hp : s1.isPrefixOf s2 = true) : lead k s2 = true := by
  cases s1 with
  | nil => cases k <;> first | exact absurd rfl hk | simp [lead] at hl
  | cons c t =>
    cases s2 with
    | nil => simp at hp
    | cons c2 t2 =>
      simp only [List.isPrefixOf, Bool.and_eq_true, beq_iff_eq] at hp
      obtain ⟨rfl, hp⟩ := hp
      cases t with
      | nil =>
        cases k <;>
          first
          | exact absurd rfl hk
          | (simp [lead] at hl; done)
          | simpa [lead] using hl
      | cons d u =>
        cases t2 with
        | nil => simp at hp
        | cons d2 u2 =>
          simp only [List.isPrefixOf, Bool.and_eq_true, beq_iff_eq] at hp
          obtain ⟨rfl, -⟩ := hp
          cases k <;> first | exact absurd rfl hk | simpa [lead] using hl

theorem accepts_iff (k : Kind) (s : Str) : k.accepts s = true ↔ ∃ t, k.token? s = some t := by
  unfold Kind.accepts
  exact Option.isSome_iff_exists

theorem token_precedence (k : Kind) (s : Str) (t : Token) (h : k.token? s = some t) :
    (k = .Plain → t.precedence = 0) ∧ (k ≠ .Plain → 1 ≤ t.precedence) := by
  obtain ⟨hk, -, -⟩ := (token?_eq_some_iff k s t).1 h
  cases t with
  | mk kind p =>
    simp only at hk
    subst hk
    cases kind <;>
      simp [Token.precedence, Kind.rule, uuid, «alias», ref, tag, fmt, bare, prefix_token]

/-- Two tokens matching the same text with the same precedence are the same token. -/
theorem token_unique_of_precedence (k1 k2 : Kind) (s : Str) (t1 t2 : Token)
    (h1 : k1.token? s = some t1) (h2 : k2.token? s = some t2)
    (hp : t1.precedence = t2.precedence) : t1 = t2 := by
  by_cases he : k1 = k2
  · subst he
    rw [h1] at h2
    exact Option.some.inj h2
  · exfalso
    by_cases hp1 : k1 = .Plain
    · have a := (token_precedence k1 s t1 h1).1 hp1
      have b := (token_precedence k2 s t2 h2).2 (fun e => he (hp1.trans e.symm))
      omega
    · by_cases hp2 : k2 = .Plain
      · have a := (token_precedence k2 s t2 h2).1 hp2
        have b := (token_precedence k1 s t1 h1).2 hp1
        omega
      · exact lead_disjoint k1 k2 s hp1 hp2 he (lead_of_token k1 s t1 h1)
          (lead_of_token k2 s t2 h2)

theorem better_some (a b : Option Token) (t : Token) (h : better a b = some t) :
    (a = some t ∨ b = some t) ∧ (∀ t0, a = some t0 → t0.precedence ≤ t.precedence) ∧
      (∀ t0, b = some t0 → t0.precedence ≤ t.precedence) := by
  cases a with
  | none =>
    simp only [better] at h
    subst h
    exact ⟨Or.inr rfl, fun t0 h0 => Option.noConfusion h0,
      fun t0 h0 => Nat.le_of_eq (congrArg Token.precedence (Option.some.inj h0).symm)⟩
  | some x =>
    cases b with
    | none =>
      simp only [better, Option.some.injEq] at h
      subst h
      exact ⟨Or.inl rfl,
        fun t0 h0 => Nat.le_of_eq (congrArg Token.precedence (Option.some.inj h0).symm),
        fun t0 h0 => Option.noConfusion h0⟩
    | some y =>
      simp only [better] at h
      split at h
      · rename_i hlt
        simp only [Option.some.injEq] at h
        subst h
        exact ⟨Or.inr rfl,
          fun t0 h0 => (by rw [← Option.some.inj h0]; omega),
          fun t0 h0 => Nat.le_of_eq (congrArg Token.precedence (Option.some.inj h0).symm)⟩
      · rename_i hlt
        simp only [Option.some.injEq] at h
        subst h
        exact ⟨Or.inl rfl,
          fun t0 h0 => Nat.le_of_eq (congrArg Token.precedence (Option.some.inj h0).symm),
          fun t0 h0 => (by rw [← Option.some.inj h0]; omega)⟩

theorem better_none (a b : Option Token) (h : better a b = none) : a = none ∧ b = none := by
  cases a with
  | none => exact ⟨rfl, by simpa [better] using h⟩
  | some x =>
    cases b with
    | none => simp [better] at h
    | some y =>
      simp only [better] at h
      split at h <;> cases h

/-- The result of trying the alternatives in order is a match of one of them (or
the initial candidate) and no candidate has a higher precedence. -/
theorem fold_better_some (s : Str) (alts : List Kind) :
    ∀ (init : Option Token) (t : Token),
      alts.foldl (fun best k => better best (k.token? s)) init = some t →
      (init = some t ∨ ∃ k ∈ alts, k.token? s = some t) ∧
      (∀ t0, init = some t0 → t0.precedence ≤ t.precedence) ∧
      (∀ k ∈ alts, ∀ t0, k.token? s = some t0 → t0.precedence ≤ t.precedence) := by
  induction alts with
  | nil =>
    intro init t h
    simp only [List.foldl_nil] at h
    exact ⟨Or.inl h,
      fun t0 h0 => (by rw [h] at h0; rw [Option.some.inj h0]),
      fun k hk => (by cases hk)⟩
  | cons k ks ih =>
    intro init t h
    simp only [List.foldl_cons] at h
    obtain ⟨h1, h2, h3⟩ := ih _ t h
    refine ⟨?_, ?_, ?_⟩
    · rcases h1 with h1 | ⟨k', hk', ht'⟩
      · rcases (better_some _ _ t h1).1 with e | e
        · exact Or.inl e
        · exact Or.inr ⟨k, List.mem_cons_self _ _, e⟩
      · exact Or.inr ⟨k', List.mem_cons_of_mem _ hk', ht'⟩
    · intro t0 h0
      cases hb : better init (k.token? s) with
      | none => rw [(better_none _ _ hb).1] at h0; cases h0
      | some u => exact Nat.le_trans ((better_some _ _ u hb).2.1 t0 h0) (h2 u hb)
    · intro k' hk' t0 h0
      rcases List.mem_cons.1 hk' with rfl | hk'
      · cases hb : better init (k'.token? s) with
        | none => rw [(better_none _ _ hb).2] at h0; cases h0
        | some u => exact Nat.le_trans ((better_some _ _ u hb).2.2 t0 h0) (h2 u hb)
      · exact h3 k' hk' t0 h0

theorem fold_better_none (s : Str) (alts : List Kind) :
    ∀ (init : Option Token),
      alts.foldl (fun best k => better best (k.token? s)) init = none →
      init = none ∧ ∀ k ∈ alts, k.token? s = none := by
  induction alts with
  | nil =>
    intro init h
    exact ⟨h, fun k hk => (by cases hk)⟩
  | cons k ks ih =>
    intro init h
    simp only [List.foldl_cons] at h
    obtain ⟨h1, h2⟩ := ih _ h
    obtain ⟨h3, h4⟩ := better_none _ _ h1
    refine ⟨h3, ?_⟩
    intro k' hk'
    rcases List.mem_cons.1 hk' with rfl | hk'
    · exact h4
    · exact h2 k' hk'

/-- The token chosen depends on which alternatives are tried, not on their order. -/
theorem classifyIn_order (alts1 alts2 : List Kind) (s : Str)
    (h : ∀ k, k ∈ alts1 ↔ k ∈ alts2) : classifyIn alts1 s = classifyIn alts2 s := by
  unfold classifyIn
  cases h1 : alts1.foldl (fun best k => better best (k.token? s)) none with
  | none =>
    obtain ⟨-, hn⟩ := fold_better_none s alts1 none h1
    cases h2 : alts2.foldl (fun best k => better best (k.token? s)) none with
    | none => rfl
    | some t2 =>
      exfalso
      rcases (fold_better_some s alts2 none t2 h2).1 with e | ⟨k, hk, ht⟩
      · cases e
      · rw [hn k ((h k).2 hk)] at ht
        cases ht
  | some t1 =>
    obtain ⟨hm1, -, hmax1⟩ := fold_better_some s alts1 none t1 h1
    rcases hm1 with e | ⟨k1, hk1, ht1⟩
    · cases e
    · cases h2 : alts2.foldl (fun best k => better best (k.token? s)) none with
      | none =>
        exfalso
        have := (fold_better_none s alts2 none h2).2 k1 ((h k1).1 hk1)
        rw [this] at ht1
        cases ht1
      | some t2 =>
        obtain ⟨hm2, -, hmax2⟩ := fold_better_some s alts2 none t2 h2
        rcases hm2 with e | ⟨k2, hk2, ht2⟩
        · cases e
        · have a := hmax1 k2 ((h k2).2 hk2) t2 ht2
          have b := hmax2 k1 ((h k1).1 hk1) t1 ht1
          rw [token_unique_of_precedence k1 k2 s t1 t2 ht1 ht2 (by omega)]

/-! ## The longest match -/

theorem longest_none (p : Str → Bool) (s : Str) (h : longest p s = none) :
    ∀ m, m ≤ s.length → p (s.take m) = false := by
  induction s generalizing p with
  | nil =>
    intro j hj
    simp only [longest] at h
    split at h
    · cases h
    · rename_i hq'
      simp only [List.length_nil, Nat.le_zero_eq] at hj
      subst hj
      simpa using hq'
  | cons d ds ihd =>
    intro j hj
    simp only [longest] at h
    cases hl' : longest (fun t => p (d :: t)) ds with
    | some k => rw [hl'] at h; cases h
    | none =>
      rw [hl'] at h
      simp only at h
      split at h
      · cases h
      · rename_i hq'
        cases j with
        | zero => simpa using hq'
        | succ j' =>
          simp only [List.take_succ_cons]
          exact ihd _ hl' j' (by simpa using hj)

theorem longest_spec (p : Str → Bool) (s : Str) (n : Nat) (h : longest p s = some n) :
    n ≤ s.length ∧ p (s.take n) = true ∧
      ∀ m, n < m → m ≤ s.length → p (s.take m) = false := by
  induction s generalizing p n with
  | nil =>
    simp only [longest] at h
    split at h
    · rename_i hp
      simp only [Option.some.injEq] at h
      subst h
      refine ⟨le_refl _, by simpa using hp, ?_⟩
      intro m h1 h2
      simp only [List.length_nil] at h2
      omega
    · cases h
  | cons c cs ih =>
    simp only [longest] at h
    cases hl : longest (fun t => p (c :: t)) cs with
    | some k =>
      rw [hl] at h
      simp only [Option.some.injEq] at h
      subst h
      obtain ⟨h1, h2, h3⟩ := ih _ k hl
      refine ⟨by simpa using h1, by simpa using h2, ?_⟩
      intro m hm1 hm2
      cases m with
      | zero => omega
      | succ m' =>
        simp only [List.take_succ_cons]
        exact h3 m' (by omega) (by simpa using hm2)
    | none =>
      rw [hl] at h
      simp only at h
      split at h
      · rename_i hp
        simp only [Option.some.injEq] at h
        subst h
        refine ⟨Nat.zero_le _, by simpa using hp, ?_⟩
        intro m hm1 hm2
        cases m with
        | zero => omega
        | succ m' =>
          simp only [List.take_succ_cons]
          exact longest_none _ cs hl m' (by simpa using hm2)
      · cases h

/-- The longest match is the one match no longer beginning extends. -/
theorem longest_eq_some (p : Str → Bool) (s : Str) (n : Nat) (h1 : n ≤ s.length)
    (h2 : p (s.take n) = true) (h3 : ∀ m, n < m → m ≤ s.length → p (s.take m) = false) :
    longest p s = some n := by
  cases h : longest p s with
  | none =>
    have := longest_none p s h n h1
    rw [h2] at this
    cases this
  | some k =>
    obtain ⟨k1, k2, k3⟩ := longest_spec p s k h
    rcases Nat.lt_trichotomy k n with hlt | heq | hgt
    · have := k3 n hlt h1
      rw [h2] at this
      cases this
    · rw [heq]
    · have := h3 k hgt k1
      rw [k2] at this
      cases this

theorem longest_eq_none (p : Str → Bool) (s : Str)
    (h : ∀ m, m ≤ s.length → p (s.take m) = false) : longest p s = none := by
  cases hl : longest p s with
  | none => rfl
  | some k =>
    obtain ⟨k1, k2, -⟩ := longest_spec p s k hl
    rw [h k k1] at k2
    cases k2
/-! ## The choice among the allowed terminals -/

theorem preferred_iff (a b : Terminal × Nat) :
    preferred a b = true ↔
      a.1.precedence < b.1.precedence ∨
        (a.1.precedence = b.1.precedence ∧
          (a.2 < b.2 ∨ (a.2 = b.2 ∧ a.1.isLiteral = false ∧ b.1.isLiteral = true))) := by
  simp only [preferred, Bool.or_eq_true, Bool.and_eq_true, decide_eq_true_eq, beq_iff_eq,
    Bool.not_eq_true', and_assoc]

theorem preferred_eq_false_iff (a b : Terminal × Nat) :
    preferred a b = false ↔
      b.1.precedence < a.1.precedence ∨
        (a.1.precedence = b.1.precedence ∧
          (b.2 < a.2 ∨ (a.2 = b.2 ∧ (a.1.isLiteral = true ∨ b.1.isLiteral = false)))) := by
  rw [← Bool.not_eq_true, preferred_iff]
  cases a.1.isLiteral <;> cases b.1.isLiteral <;> simp <;> omega

theorem preferred_chain (x a b : Terminal × Nat) (h1 : preferred x b = false)
    (h2 : preferred a b = true) : preferred x a = false := by
  rw [preferred_eq_false_iff] at h1 ⊢
  rw [preferred_iff] at h2
  generalize x.1.isLiteral = lx at *
  generalize a.1.isLiteral = la at *
  generalize b.1.isLiteral = lb at *
  cases lx <;> cases la <;> cases lb <;> simp at h1 h2 ⊢ <;> omega

theorem preferred_keep (x a b : Terminal × Nat) (h1 : preferred a b = false)
    (h2 : preferred x a = false) : preferred x b = false := by
  rw [preferred_eq_false_iff] at h1 h2 ⊢
  generalize x.1.isLiteral = lx at *
  generalize a.1.isLiteral = la at *
  generalize b.1.isLiteral = lb at *
  cases lx <;> cases la <;> cases lb <;> simp at h1 h2 ⊢ <;> omega

theorem pick_fold_mem (s : Str) (valid : List Terminal) (init : Option (Terminal × Nat))
    (x : Terminal × Nat)
    (h : valid.foldl (fun best t => pick best ((t.scan s).map (fun n => (t, n)))) init = some x) :
    init = some x ∨ (x.1 ∈ valid ∧ x.1.scan s = some x.2) := by
  induction valid generalizing init with
  | nil => exact Or.inl h
  | cons t ts ih =>
    simp only [List.foldl_cons] at h
    rcases ih _ h with h1 | ⟨h1, h2⟩
    · cases init with
      | none =>
        simp only [pick] at h1
        obtain ⟨n, hn, rfl⟩ := Option.map_eq_some'.1 h1
        exact Or.inr ⟨List.mem_cons_self _ _, hn⟩
      | some a =>
        cases hc : t.scan s with
        | none =>
          rw [hc] at h1
          exact Or.inl h1
        | some n =>
          rw [hc] at h1
          simp only [pick, Option.map_some'] at h1
          split at h1
          · simp only [Option.some.injEq] at h1
            subst h1
            exact Or.inr ⟨List.mem_cons_self _ _, hc⟩
          · exact Or.inl h1
    · exact Or.inr ⟨List.mem_cons_of_mem _ h1, h2⟩

theorem pick_fold_best (s : Str) (valid : List Terminal) (init : Option (Terminal × Nat))
    (x : Terminal × Nat)
    (h : valid.foldl (fun best t => pick best ((t.scan s).map (fun n => (t, n)))) init = some x) :
    (∀ y, init = some y → preferred x y = false) ∧
      ∀ t ∈ valid, ∀ n, t.scan s = some n → preferred x (t, n) = false := by
  induction valid generalizing init with
  | nil =>
    simp only [List.foldl_nil] at h
    refine ⟨?_, fun t ht => absurd ht (List.not_mem_nil _)⟩
    intro y hy
    rw [h] at hy
    simp only [Option.some.injEq] at hy
    subst hy
    rw [preferred_eq_false_iff]
    cases x.1.isLiteral <;> simp
  | cons t ts ih =>
    simp only [List.foldl_cons] at h
    obtain ⟨h1, h2⟩ := ih _ h
    have key : (∀ y, init = some y → preferred x y = false) ∧
        ∀ n, t.scan s = some n → preferred x (t, n) = false := by
      cases init with
      | none =>
        refine ⟨fun y hy => Option.noConfusion hy, fun n hn => ?_⟩
        apply h1
        simp [pick, hn]
      | some a =>
        cases hc : t.scan s with
        | none =>
          refine ⟨fun y hy => ?_, fun n hn => Option.noConfusion hn⟩
          apply h1
          simp [pick, hc, hy]
        | some n =>
          have h1' := h1
          rw [hc] at h1'
          simp only [pick, Option.map_some'] at h1'
          cases hp : preferred a (t, n) with
          | true =>
            rw [hp] at h1'
            simp only [if_true] at h1'
            have hb := h1' (t, n) rfl
            refine ⟨fun y hy => ?_, fun m hm => ?_⟩
            · simp only [Option.some.injEq] at hy
              subst hy
              exact preferred_chain x _ _ hb hp
            · simp only [Option.some.injEq] at hm
              subst hm
              exact hb
          | false =>
            rw [hp] at h1'
            simp only [Bool.false_eq_true, if_false] at h1'
            have ha := h1' a rfl
            refine ⟨fun y hy => ?_, fun m hm => ?_⟩
            · simp only [Option.some.injEq] at hy
              subst hy
              exact ha
            · simp only [Option.some.injEq] at hm
              subst hm
              exact preferred_keep x _ _ hp ha
    refine ⟨key.1, ?_⟩
    intro u hu n hn
    rcases List.mem_cons.1 hu with rfl | hu
    · exact key.2 n hn
    · exact h2 u hu n hn

theorem pick_fold_none (s : Str) (valid : List Terminal) (init : Option (Terminal × Nat)) :
    valid.foldl (fun best t => pick best ((t.scan s).map (fun n => (t, n)))) init = none ↔
      init = none ∧ ∀ t ∈ valid, t.scan s = none := by
  induction valid generalizing init with
  | nil => simp
  | cons t ts ih =>
    simp only [List.foldl_cons, ih, List.mem_cons, forall_eq_or_imp]
    cases init with
    | none =>
      cases hc : t.scan s <;> simp [pick]
    | some a =>
      cases hc : t.scan s with
      | none => simp [pick]
      | some n =>
        simp only [pick, Option.map_some']
        split <;> simp

/-- The terminal chosen is allowed and the length is that of its longest match. -/
theorem lexAt_sound (valid : List Terminal) (s : Str) (t : Terminal) (n : Nat)
    (h : lexAt valid s = some (t, n)) : t ∈ valid ∧ t.scan s = some n := by
  rcases pick_fold_mem s valid none (t, n) h with h | h
  · cases h
  · exact h

/-- No allowed terminal has a match preferred to the one chosen. -/
theorem lexAt_best (valid : List Terminal) (s : Str) (t : Terminal) (n : Nat)
    (h : lexAt valid s = some (t, n)) :
    ∀ u ∈ valid, ∀ m, u.scan s = some m → preferred (t, n) (u, m) = false :=
  (pick_fold_best s valid none (t, n) h).2

theorem lexAt_eq_none_iff (valid : List Terminal) (s : Str) :
    lexAt valid s = none ↔ ∀ t ∈ valid, t.scan s = none := by
  unfold lexAt
  rw [pick_fold_none]
  simp

/-- A match of a terminal covers a non-empty beginning of the input. -/
theorem matches_ne_nil (t : Terminal) (s : Str) (h : t.matches s = true) : s ≠ [] := by
  rintro rfl
  cases t with
  | word k => cases k <;> exact absurd h (by decide)
  | _ => exact absurd h (by decide)

theorem scan_spec (t : Terminal) (s : Str) (n : Nat) (h : t.scan s = some n) :
    0 < n ∧ n ≤ s.length ∧ t.matches (s.take n) = true ∧
      ∀ m, n < m → m ≤ s.length → t.matches (s.take m) = false := by
  obtain ⟨h1, h2, h3⟩ := longest_spec _ s n h
  refine ⟨?_, h1, h2, h3⟩
  rcases Nat.eq_zero_or_pos n with rfl | hp
  · exact absurd (by simpa using h2) (fun e => matches_ne_nil t [] e rfl)
  · exact hp
/-! ## The lexer: what a token is -/

theorem leadingExtras_cons_cr (s : Str) : leadingExtras ('\r' :: s) = leadingExtras s + 1 := by
  simp [leadingExtras, List.takeWhile]

theorem leadingExtras_cons_ne (c : Char) (s : Str) (h : c ≠ '\r') :
    leadingExtras (c :: s) = 0 := by
  have : (c == '\r') = false := beq_eq_false_iff_ne.2 h
  simp [leadingExtras, List.takeWhile, this]

/-- The input is its leading carriage returns followed by the rest. -/
theorem leadingExtras_split (s : Str) :
    s = extras (leadingExtras s) ++ s.drop (leadingExtras s) := by
  induction s with
  | nil => rfl
  | cons c cs ih =>
    by_cases h : c = '\r'
    · subst h
      rw [leadingExtras_cons_cr, extras_succ, List.drop_succ_cons, List.cons_append, ← ih]
    · rw [leadingExtras_cons_ne c cs h]
      rfl

theorem matches_plain (s : Str) : (Terminal.word .Plain).matches s = REGEX_CHUNK s := by
  simp only [Terminal.matches, Kind.rule, bare, TokenRule.payload?, REGEX_WORD,
    List.isPrefixOf, Bool.true_and, List.length_nil, List.drop_zero]
  cases REGEX_CHUNK s <;> rfl

/-- The terminals whose pattern matches a carriage return. -/
theorem absorbing_cases (a : Terminal) (h : a.matches ['\r'] = true) :
    a = .SPACE ∨ a = .REGEX_LINE ∨ a = .word .Plain := by
  cases a with
  | word k => cases k <;> first | exact absurd h (by decide) | exact Or.inr (Or.inr rfl)
  | SPACE => exact Or.inl rfl
  | REGEX_LINE => exact Or.inr (Or.inl rfl)
  | _ => exact absurd h (by decide)

theorem plus_extras_append (cls : Char → Bool) (hc : cls '\r' = true) (k : Nat) (x : Str)
    (hx : (0 < k ∧ x = []) ∨ plus cls x = true) : plus cls (extras k ++ x) = true := by
  rw [plus_iff]
  constructor
  · rcases hx with ⟨hk, -⟩ | hx
    · cases k with
      | zero => omega
      | succ k => simp [extras_succ]
    · have := ((plus_iff _ _).1 hx).1
      simp [this]
  · intro c hm
    rcases List.mem_append.1 hm with hm | hm
    · rw [List.eq_of_mem_replicate hm]
      exact hc
    · rcases hx with ⟨-, rfl⟩ | hx
      · cases hm
      · exact ((plus_iff _ _).1 hx).2 c hm

/-- A terminal whose pattern matches a carriage return matches its own match with
carriage returns put in front, and a non-empty run of carriage returns. -/
theorem absorbing_matches (a : Terminal) (h : a.matches ['\r'] = true) (k : Nat) (x : Str)
    (hx : (0 < k ∧ x = []) ∨ a.matches x = true) : a.matches (extras k ++ x) = true := by
  rcases absorbing_cases a h with rfl | rfl | rfl
  · exact plus_extras_append isSpace (by decide) k x hx
  · exact plus_extras_append isLineChar (by decide) k x hx
  · rw [matches_plain] at hx ⊢
    exact plus_extras_append isChunkChar (by decide) k x hx

theorem lexAt_take_drop (valid : List Terminal) (s : Str) (t : Terminal) (n : Nat)
    (h : lexAt valid s = some (t, n)) :
    t ∈ valid ∧ t.matches (s.take n) = true ∧ s.take n ++ s.drop n = s ∧ 0 < n := by
  obtain ⟨h1, h2⟩ := lexAt_sound valid s t n h
  obtain ⟨h3, -, h5, -⟩ := scan_spec t s n h2
  exact ⟨h1, h5, List.take_append_drop n s, h3⟩

/-- A token is an occurrence of an allowed terminal at the front of the input. -/
theorem lex_sound (valid : List Terminal) (s : Str) (t : Terminal) (l : Lexeme) (r : Str)
    (h : lex valid s = some (t, l, r)) :
    t ∈ valid ∧ t.matches l.text = true ∧ s = l.src ++ r := by
  unfold lex at h
  simp only at h
  split at h
  · obtain ⟨m, hm, he⟩ := Option.map_eq_some'.1 h
    simp only [Prod.mk.injEq] at he
    obtain ⟨rfl, rfl, rfl⟩ := he
    obtain ⟨h1, h2, h3, -⟩ := lexAt_take_drop valid s m.1 m.2 hm
    exact ⟨h1, h2, by simp [Lexeme.src, extras, h3]⟩
  · rename_i hk
    have hs := leadingExtras_split s
    split at h
    · obtain ⟨m, hm, he⟩ := Option.map_eq_some'.1 h
      simp only [Prod.mk.injEq] at he
      obtain ⟨rfl, rfl, rfl⟩ := he
      obtain ⟨h1, h2, h3, -⟩ := lexAt_take_drop valid _ m.1 m.2 hm
      refine ⟨h1, h2, ?_⟩
      simp only [Lexeme.src, List.append_assoc, h3]
      exact hs
    · rename_i a ha
      have ham : a.matches ['\r'] = true := by
        have := List.find?_some ha
        simpa using this
      have hav : a ∈ valid := List.mem_of_find?_eq_some ha
      split at h
      · obtain ⟨m, hm, he⟩ := Option.map_eq_some'.1 h
        obtain ⟨h1, h2, h3, -⟩ := lexAt_take_drop valid _ m.1 m.2 hm
        split at he
        · simp only [Prod.mk.injEq] at he
          obtain ⟨rfl, rfl, rfl⟩ := he
          refine ⟨hav, absorbing_matches a ham _ _ (Or.inr ?_), ?_⟩
          · rename_i hma
            rw [← hma]
            exact h2
          · simp only [Lexeme.src, extras, List.replicate_zero, List.nil_append,
              List.append_assoc, h3]
            exact hs
        · simp only [Prod.mk.injEq] at he
          obtain ⟨rfl, rfl, rfl⟩ := he
          refine ⟨h1, h2, ?_⟩
          simp only [Lexeme.src, List.append_assoc, h3]
          exact hs
      · simp only [Option.some.injEq, Prod.mk.injEq] at h
        obtain ⟨rfl, rfl, rfl⟩ := h
        refine ⟨hav, ?_, ?_⟩
        · have := absorbing_matches a ham (leadingExtras s) [] (Or.inl ⟨by omega, rfl⟩)
          simpa using this
        · simp only [Lexeme.src, extras, List.replicate_zero, List.nil_append]
          exact hs

/-- A token covers at least one character. -/
theorem lex_shorter (valid : List Terminal) (s : Str) (t : Terminal) (l : Lexeme) (r : Str)
    (h : lex valid s = some (t, l, r)) : r.length < s.length := by
  obtain ⟨-, h2, h3⟩ := lex_sound valid s t l r h
  have := matches_ne_nil t l.text h2
  rw [h3]
  simp only [Lexeme.src, List.length_append]
  have : 0 < l.text.length := List.length_pos.2 this
  omega
/-! ## The longest match of each terminal -/

/-- The beginnings of `s` made of characters of a class are those no longer than the
run of such characters at the front of `s`. -/
theorem all_take_iff (cls : Char → Bool) (s : Str) (m : Nat) (hm : m ≤ s.length) :
    (s.take m).all cls = true ↔ m ≤ (s.takeWhile cls).length := by
  induction s generalizing m with
  | nil =>
    simp only [List.length_nil, Nat.le_zero_eq] at hm
    subst hm
    simp
  | cons c cs ih =>
    cases m with
    | zero => simp
    | succ m =>
      simp only [List.take_succ_cons, List.all_cons, Bool.and_eq_true, List.takeWhile]
      cases hc : cls c with
      | false => simp
      | true =>
        simp only [true_and, List.length_cons, Nat.add_le_add_iff_right]
        exact ih m (by simpa using hm)

theorem takeWhile_length_le (cls : Char → Bool) (s : Str) :
    (s.takeWhile cls).length ≤ s.length :=
  (List.takeWhile_sublist cls).length_le

theorem take_takeWhile_length (cls : Char → Bool) (s : Str) :
    s.take (s.takeWhile cls).length = s.takeWhile cls :=
  (List.prefix_iff_eq_take.1 (List.takeWhile_prefix cls)).symm

theorem drop_takeWhile_length (cls : Char → Bool) (s : Str) :
    s.drop (s.takeWhile cls).length = s.dropWhile cls := by
  have h1 := List.takeWhile_append_dropWhile cls s
  have h2 := List.take_append_drop (s.takeWhile cls).length s
  rw [take_takeWhile_length] at h2
  exact List.append_cancel_left (h2.trans h1.symm)

/-- The longest match of `C+` is the run of characters of `C` at the front. -/
theorem longest_plus (cls : Char → Bool) (s : Str) (n : Nat) :
    longest (plus cls) s = some n ↔ n = (s.takeWhile cls).length ∧ 0 < n := by
  constructor
  · intro h
    obtain ⟨h1, h2, h3⟩ := longest_spec _ s n h
    rw [plus_iff] at h2
    have hpos : 0 < n := by
      rcases Nat.eq_zero_or_pos n with rfl | hp
      · exact absurd (by simp) h2.1
      · exact hp
    have hle : n ≤ (s.takeWhile cls).length :=
      (all_take_iff cls s n h1).1 (List.all_eq_true.2 h2.2)
    refine ⟨?_, hpos⟩
    by_contra hne
    have hlt : n < (s.takeWhile cls).length := by omega
    have := h3 _ hlt (takeWhile_length_le cls s)
    rw [take_takeWhile_length] at this
    have hp : plus cls (s.takeWhile cls) = true := by
      rw [plus_iff]
      refine ⟨?_, fun c hc => List.mem_takeWhile_imp hc⟩
      intro e
      rw [e] at hlt
      simp at hlt
    rw [hp] at this
    cases this
  · rintro ⟨rfl, hpos⟩
    apply longest_eq_some
    · exact takeWhile_length_le cls s
    · rw [take_takeWhile_length, plus_iff]
      refine ⟨?_, fun c hc => List.mem_takeWhile_imp hc⟩
      intro e
      rw [e] at hpos
      simp at hpos
    · intro m h1 h2
      cases hp : plus cls (s.take m) with
      | false => rfl
      | true =>
        exfalso
        rw [plus_iff] at hp
        have := (all_take_iff cls s m h2).1 (List.all_eq_true.2 hp.2)
        omega

/-- The longest match of a string literal is the literal, when the input begins
with it. -/
theorem longest_literal (lit s : Str) (n : Nat) :
    longest (fun t => t == lit) s = some n ↔ n = lit.length ∧ lit <+: s := by
  constructor
  · intro h
    obtain ⟨h1, h2, -⟩ := longest_spec _ s n h
    simp only [beq_iff_eq] at h2
    have hp : lit <+: s := by
      rw [← h2]
      exact List.take_prefix n s
    refine ⟨?_, hp⟩
    rw [← h2, List.length_take]
    omega
  · rintro ⟨rfl, hp⟩
    apply longest_eq_some
    · exact hp.length_le
    · simp only [beq_iff_eq]
      exact (List.prefix_iff_eq_take.1 hp).symm
    · intro m h1 h2
      simp only [beq_eq_false_iff_ne, ne_eq]
      intro e
      have := congrArg List.length e
      rw [List.length_take] at this
      omega

theorem scan_star (s : Str) (n : Nat) :
    Terminal.star.scan s = some n ↔ n = 2 ∧ ∃ r, s = '*' :: ' ' :: r := by
  unfold Terminal.scan
  have : Terminal.star.matches = fun t => t == ['*', ' '] := rfl
  rw [this, longest_literal]
  constructor
  · rintro ⟨h1, r, hr⟩
    exact ⟨h1, r, hr.symm⟩
  · rintro ⟨h1, r, hr⟩
    exact ⟨h1, r, hr.symm⟩

theorem scan_rbrace (s : Str) (n : Nat) :
    Terminal.rbrace.scan s = some n ↔ n = 1 ∧ ∃ r, s = '}' :: r := by
  unfold Terminal.scan
  have : Terminal.rbrace.matches = fun t => t == ['}'] := rfl
  rw [this, longest_literal]
  constructor
  · rintro ⟨h1, r, hr⟩
    exact ⟨h1, r, hr.symm⟩
  · rintro ⟨h1, r, hr⟩
    exact ⟨h1, r, hr.symm⟩

theorem scan_NL (s : Str) (n : Nat) :
    Terminal.NL.scan s = some n ↔ n = 1 ∧ ∃ r, s = '\n' :: r := by
  unfold Terminal.scan
  have : Terminal.NL.matches = fun t => t == ['\n'] := rfl
  rw [this, longest_literal]
  constructor
  · rintro ⟨h1, r, hr⟩
    exact ⟨h1, r, hr.symm⟩
  · rintro ⟨h1, r, hr⟩
    exact ⟨h1, r, hr.symm⟩

theorem scan_SPACE_TAB (s : Str) (n : Nat) :
    Terminal.SPACE_TAB.scan s = some n ↔ n = (s.takeWhile isBlank).length ∧ 0 < n :=
  longest_plus isBlank s n

theorem scan_REGEX_LINE (s : Str) (n : Nat) :
    Terminal.REGEX_LINE.scan s = some n ↔ n = (s.takeWhile isLineChar).length ∧ 0 < n :=
  longest_plus isLineChar s n

theorem scan_plain (s : Str) (n : Nat) :
    (Terminal.word .Plain).scan s = some n ↔ n = (s.takeWhile isChunkChar).length ∧ 0 < n := by
  unfold Terminal.scan
  have : (Terminal.word .Plain).matches = plus isChunkChar := by
    funext t
    rw [matches_plain]
    rfl
  rw [this]
  exact longest_plus isChunkChar s n

theorem scan_punct (s : Str) (n : Nat) :
    Terminal.REGEX_PUNCTUATION.scan s = some n ↔
      n = 1 ∧ ∃ c r, s = c :: r ∧ isPunct c = true := by
  unfold Terminal.scan
  constructor
  · intro h
    obtain ⟨h1, h2, -⟩ := longest_spec _ s n h
    have hm : Terminal.REGEX_PUNCTUATION.matches (s.take n) = REGEX_PUNCTUATION (s.take n) := rfl
    rw [hm] at h2
    cases s with
    | nil => simp [REGEX_PUNCTUATION] at h2
    | cons c r =>
      cases n with
      | zero => simp [REGEX_PUNCTUATION] at h2
      | succ n =>
        cases n with
        | zero =>
          simp only [List.take_succ_cons, List.take_zero, REGEX_PUNCTUATION] at h2
          exact ⟨rfl, c, r, rfl, h2⟩
        | succ n =>
          cases r with
          | nil => simp at h1
          | cons d r' => simp [REGEX_PUNCTUATION] at h2
  · rintro ⟨rfl, c, r, rfl, hc⟩
    apply longest_eq_some
    · simp
    · exact hc
    · intro m h1 h2
      cases m with
      | zero => omega
      | succ m =>
        cases m with
        | zero => omega
        | succ m =>
          cases r with
          | nil => simp at h2
          | cons d r' => rfl

/-- A match of a prefixed token begins with the literal of the token. -/
theorem scan_word_lead (k : Kind) (s : Str) (n : Nat) (h : (Terminal.word k).scan s = some n) :
    k.rule.pfx <+: s := by
  obtain ⟨-, -, h2, -⟩ := scan_spec _ s n h
  simp only [Terminal.matches, Option.isSome_iff_exists] at h2
  obtain ⟨p, hp⟩ := h2
  rw [payload?_eq_some_iff] at hp
  exact (List.prefix_append _ _).trans (hp.1 ▸ List.take_prefix n s)
/-! ## The lexer at the start of a block and inside the braces -/

theorem lex_of_no_extras (valid : List Terminal) (s : Str) (h : leadingExtras s = 0) :
    lex valid s = (lexAt valid s).map (fun m => (m.1, ⟨0, s.take m.2⟩, s.drop m.2)) := by
  unfold lex
  simp [h]

/-- Where a block starts, an input that begins with `* ` gives the literal `'* '`: it
is longer than the word `*`. -/
theorem lex_opener (r0 : Str) (t : Terminal) (l : Lexeme) (r : Str)
    (h : lex blockTerminals ('*' :: ' ' :: r0) = some (t, l, r)) :
    t = .star ∧ l = ⟨0, ['*', ' ']⟩ ∧ r = r0 := by
  rw [lex_of_no_extras _ _ (leadingExtras_cons_ne _ _ (by decide))] at h
  obtain ⟨m, hm, he⟩ := Option.map_eq_some'.1 h
  simp only [Prod.mk.injEq] at he
  obtain ⟨rfl, rfl, rfl⟩ := he
  obtain ⟨hv, hs⟩ := lexAt_sound _ _ m.1 m.2 hm
  have hb := lexAt_best _ _ m.1 m.2 hm .star (by simp [blockTerminals]) 2
    ((scan_star _ _).2 ⟨rfl, r0, rfl⟩)
  have key : m.1 = .star ∧ m.2 = 2 := by
    simp only [blockTerminals, wordTerminals, List.cons_append, List.nil_append, List.mem_cons,
      List.mem_singleton, List.not_mem_nil, or_false] at hv
    rcases hv with e | e | e | e | e | e | e | e
    · rw [e] at hs
      exact ⟨e, ((scan_star _ _).1 hs).1⟩
    · rw [e] at hs
      exact absurd (scan_word_lead _ _ _ hs) (by simp [Kind.rule, uuid, prefix_token])
    · rw [e] at hs
      exact absurd (scan_word_lead _ _ _ hs) (by simp [Kind.rule, «alias», prefix_token])
    · rw [e] at hs
      exact absurd (scan_word_lead _ _ _ hs) (by simp [Kind.rule, ref, prefix_token])
    · rw [e] at hs
      exact absurd (scan_word_lead _ _ _ hs) (by simp [Kind.rule, tag, prefix_token])
    · rw [e] at hs
      exact absurd (scan_word_lead _ _ _ hs) (by simp [Kind.rule, fmt, prefix_token])
    · exfalso
      rw [e] at hs
      have h1 := ((scan_plain _ _).1 hs).1
      have h2 : (('*' :: ' ' :: r0).takeWhile isChunkChar).length = 1 := by
        simp [List.takeWhile, isChunkChar]
      rw [h2] at h1
      have e' : m = (Terminal.word .Plain, 1) := Prod.ext e h1
      rw [e'] at hb
      exact absurd hb (by decide)
    · exfalso
      rw [e] at hs
      obtain ⟨-, x, hx⟩ := (scan_NL _ _).1 hs
      simp at hx
  obtain ⟨k1, k2⟩ := key
  refine ⟨k1, ?_, ?_⟩
  · rw [k2]
    rfl
  · rw [k2]
    rfl

theorem dropWhile_head (cls : Char → Bool) (s : Str) :
    s.dropWhile cls = [] ∨ ∃ c x, s.dropWhile cls = c :: x ∧ cls c = false := by
  induction s with
  | nil => exact Or.inl rfl
  | cons c cs ih =>
    simp only [List.dropWhile]
    cases hc : cls c with
    | true => exact ih
    | false => exact Or.inr ⟨c, cs, rfl, hc⟩

theorem isLineChar_eq_false (c : Char) (h : isLineChar c = false) : c = '\n' := by
  simpa [isLineChar] using h

/-- Inside the braces, whatever terminal is chosen, its match ends at the end of
the input or in front of a newline. -/
theorem lexAt_body (s : Str) (t : Terminal) (n : Nat)
    (h : lexAt [.REGEX_LINE, .rbrace] s = some (t, n)) :
    s.drop n = [] ∨ ∃ x, s.drop n = '\n' :: x := by
  obtain ⟨hv, hs⟩ := lexAt_sound _ _ t n h
  have hline : s.dropWhile isLineChar = [] ∨ ∃ x, s.dropWhile isLineChar = '\n' :: x := by
    rcases dropWhile_head isLineChar s with e | ⟨c, x, e, hc⟩
    · exact Or.inl e
    · exact Or.inr ⟨x, by rw [e, isLineChar_eq_false c hc]⟩
  simp only [List.mem_cons, List.mem_singleton, List.not_mem_nil, or_false] at hv
  rcases hv with rfl | rfl
  · rw [((scan_REGEX_LINE _ _).1 hs).1, drop_takeWhile_length]
    exact hline
  · obtain ⟨rfl, r', rfl⟩ := (scan_rbrace _ _).1 hs
    have h1 : Terminal.REGEX_LINE.scan ('}' :: r') =
        some (('}' :: r').takeWhile isLineChar).length :=
      (scan_REGEX_LINE _ _).2 ⟨rfl, by simp [List.takeWhile, isLineChar]⟩
    have hb := lexAt_best _ _ _ _ h .REGEX_LINE (by simp) _ h1
    rw [preferred_eq_false_iff] at hb
    have h2 : (r'.takeWhile isLineChar).length = 0 := by
      have e : ('}' :: r').takeWhile isLineChar = '}' :: r'.takeWhile isLineChar := by
        simp [List.takeWhile, isLineChar]
      rw [e] at hb
      simp only [Terminal.precedence, Terminal.isLiteral, List.length_cons] at hb
      omega
    have h3 : r'.takeWhile isLineChar = [] := List.length_eq_zero.1 h2
    have h4 := List.takeWhile_append_dropWhile isLineChar r'
    rw [h3, List.nil_append] at h4
    simp only [List.drop_succ_cons, List.drop_zero]
    rcases dropWhile_head isLineChar r' with e | ⟨c, x, e, hc⟩
    · exact Or.inl (by rw [← h4, e])
    · exact Or.inr ⟨x, by rw [← h4, e, isLineChar_eq_false c hc]⟩

theorem lex_body_rest (s : Str) (t : Terminal) (l : Lexeme) (r : Str)
    (h : lex [.REGEX_LINE, .rbrace] s = some (t, l, r)) :
    r = [] ∨ ∃ x, r = '\n' :: x := by
  unfold lex at h
  simp only at h
  split at h
  · obtain ⟨m, hm, he⟩ := Option.map_eq_some'.1 h
    simp only [Prod.mk.injEq] at he
    obtain ⟨-, -, rfl⟩ := he
    exact lexAt_body _ _ _ hm
  · have hf : List.find? (fun t => t.matches ['\r']) [Terminal.REGEX_LINE, Terminal.rbrace] =
        some .REGEX_LINE := by decide
    rw [hf] at h
    simp only at h
    split at h
    · obtain ⟨m, hm, he⟩ := Option.map_eq_some'.1 h
      have hr := lexAt_body _ _ _ hm
      split at he
      · simp only [Prod.mk.injEq] at he
        obtain ⟨-, -, rfl⟩ := he
        exact hr
      · simp only [Prod.mk.injEq] at he
        obtain ⟨-, -, rfl⟩ := he
        exact hr
    · rename_i hc
      simp only [Option.some.injEq, Prod.mk.injEq] at h
      obtain ⟨-, -, rfl⟩ := h
      cases hd : s.drop (leadingExtras s) with
      | nil => exact Or.inl rfl
      | cons c x =>
        right
        rw [hd] at hc
        simp only [List.take_succ_cons, List.take_zero, List.isEmpty_cons, Bool.not_false,
          Bool.and_true, Bool.not_eq_true] at hc
        have : isLineChar c = false := by
          simpa [Terminal.matches, REGEX_LINE, plus, isLineChar] using hc
        exact ⟨x, by rw [isLineChar_eq_false c this]⟩

/-- At the end of the input and in front of a newline, no terminal allowed inside
the braces matches. -/
theorem lex_body_none (r : Str) (h : r = [] ∨ ∃ x, r = '\n' :: x) :
    lex [.REGEX_LINE, .rbrace] r = none := by
  have h0 : leadingExtras r = 0 := by
    rcases h with rfl | ⟨x, rfl⟩
    · rfl
    · exact leadingExtras_cons_ne _ _ (by decide)
  rw [lex_of_no_extras _ _ h0, Option.map_eq_none', lexAt_eq_none_iff]
  intro t ht
  simp only [List.mem_cons, List.mem_singleton, List.not_mem_nil, or_false] at ht
  rcases ht with rfl | rfl
  · cases hs : Terminal.REGEX_LINE.scan r with
    | none => rfl
    | some n =>
      exfalso
      obtain ⟨h1, h2⟩ := (scan_REGEX_LINE _ _).1 hs
      rcases h with rfl | ⟨x, rfl⟩
      · simp at h1
        omega
      · simp [List.takeWhile, isLineChar] at h1
        omega
  · cases hs : Terminal.rbrace.scan r with
    | none => rfl
    | some n =>
      exfalso
      obtain ⟨-, x, hx⟩ := (scan_rbrace _ _).1 hs
      rcases h with rfl | ⟨y, rfl⟩
      · cases hx
      · simp at hx

/-- The parser never reads a content line: after a `REGEX_LINE` match comes the end
of the input or a newline, where neither `REGEX_LINE` nor `'}'` matches. -/
theorem parseContents_inv (fuel : Nat) (s : Str) (ls : List Lexeme) (rb : Lexeme) (r : Str)
    (h : parseContents fuel s = some (ls, rb, r)) :
    ls = [] ∧ lex [.REGEX_LINE, .rbrace] s = some (.rbrace, rb, r) ∧
      (r = [] ∨ ∃ x, r = '\n' :: x) := by
  cases fuel with
  | zero => cases h
  | succ fuel =>
    simp only [parseContents] at h
    split at h
    · rename_i rb' s1 hl
      simp only [Option.some.injEq, Prod.mk.injEq] at h
      obtain ⟨rfl, rfl, rfl⟩ := h
      exact ⟨rfl, hl, lex_body_rest _ _ _ _ hl⟩
    · rename_i l s1 hl
      exfalso
      have hr := lex_body_rest _ _ _ _ hl
      cases fuel with
      | zero => simp [parseContents] at h
      | succ fuel =>
        simp only [parseContents, lex_body_none s1 hr] at h
        cases h
    · cases h
/-! ## The parser yields derivations -/

theorem tokenOf_spec (k : Kind) (text : Str) (h : (Terminal.word k).matches text = true) :
    (tokenOf k text).ok = true ∧ (tokenOf k text).text = text ∧ (tokenOf k text).kind = k := by
  simp only [Terminal.matches, Option.isSome_iff_exists] at h
  obtain ⟨p, hp⟩ := h
  obtain ⟨h1, h2⟩ := (payload?_eq_some_iff _ _ _).1 hp
  have e : tokenOf k text = ⟨k, p⟩ := by
    unfold tokenOf
    rw [h1, List.drop_left]
  rw [e]
  exact ⟨h2, h1.symm, rfl⟩

theorem lexPunct_sound (sep close : Terminal) (s : Str) (p : Option Lexeme) (t : Terminal)
    (l : Lexeme) (r : Str) (h : lexPunct sep close s = some (p, t, l, r)) :
    optional (pat REGEX_PUNCTUATION) p = true ∧ (t = sep ∨ t = close) ∧
      t.matches l.text = true ∧ s = optSrc p ++ l.src ++ r := by
  unfold lexPunct at h
  split at h
  · cases h
  · rename_i q s1 hl
    obtain ⟨x, hx, he⟩ := Option.map_eq_some'.1 h
    simp only [Prod.mk.injEq] at he
    obtain ⟨rfl, rfl⟩ := he
    obtain ⟨-, h2, h3⟩ := lex_sound _ _ _ _ _ hl
    obtain ⟨k1, k2, k3⟩ := lex_sound _ _ _ _ _ hx
    refine ⟨h2, ?_, k2, ?_⟩
    · simpa using k1
    · rw [h3, k3]
      simp [optSrc]
  · rename_i x hne hl
    simp only [Option.some.injEq, Prod.mk.injEq] at h
    obtain ⟨rfl, rfl⟩ := h
    obtain ⟨k1, k2, k3⟩ := lex_sound _ _ _ _ _ hl
    refine ⟨rfl, ?_, k2, by simpa [optSrc] using k3⟩
    simp only [List.mem_cons, List.mem_singleton, List.not_mem_nil, or_false] at k1
    rcases k1 with e | e | e
    · exact absurd (by rw [e]) (hne l r)
    · exact Or.inl e
    · exact Or.inr e

theorem parseWords_sound (sep close : Terminal) (fuel : Nat) (s : Str) (p : Option Lexeme)
    (ws : List (Lexeme × Word)) (c : Lexeme) (r : Str)
    (h : parseWords sep close fuel s = some (p, ws, c, r)) :
    optional (pat REGEX_PUNCTUATION) p = true ∧
      ws.all (fun q => sep.matches q.1.text && word q.2) = true ∧
      close.matches c.text = true ∧
      s = optSrc p ++ (ws.map (fun q => q.1.src ++ q.2.src)).flatten ++ c.src ++ r := by
  induction fuel generalizing s p ws c r with
  | zero => cases h
  | succ fuel ih =>
    simp only [parseWords] at h
    split at h
    · cases h
    · rename_i p' t l s1 hl
      obtain ⟨h1, h2, h3, h4⟩ := lexPunct_sound _ _ _ _ _ _ _ hl
      split at h
      · rename_i htc
        simp only [Option.some.injEq, Prod.mk.injEq] at h
        obtain ⟨rfl, rfl, rfl, rfl⟩ := h
        refine ⟨h1, rfl, ?_, by simpa using h4⟩
        rw [← htc]
        exact h3
      · rename_i htc
        have hts : t = sep := by
          rcases h2 with e | e
          · exact e
          · exact absurd e htc
        split at h
        · rename_i k w s2 hw
          split at h
          · cases h
          · rename_i q ws' c' s3 hr
            simp only [Option.some.injEq, Prod.mk.injEq] at h
            obtain ⟨rfl, rfl, rfl, rfl⟩ := h
            obtain ⟨i1, i2, i3, i4⟩ := ih _ _ _ _ _ hr
            obtain ⟨-, w2, w3⟩ := lex_sound _ _ _ _ _ hw
            obtain ⟨t1, t2, -⟩ := tokenOf_spec k w.text w2
            refine ⟨h1, ?_, i3, ?_⟩
            · simp only [List.all_cons, Bool.and_eq_true]
              refine ⟨⟨?_, ?_⟩, i2⟩
              · rw [← hts]
                exact h3
              · simp only [word, Bool.and_eq_true]
                exact ⟨t1, i1⟩
            · rw [h4, w3, i4]
              simp [Word.src, Lexeme.src, t2]
        · cases h

/-- Where a block starts, a token other than the literal `'* '` is read only when the
input does not begin with `* `. -/
theorem lex_line_start (s : Str) (t : Terminal) (l : Lexeme) (r : Str)
    (h : lex blockTerminals s = some (t, l, r)) (ht : t ≠ .star) :
    startsWithOpener s = false := by
  cases hs : startsWithOpener s with
  | false => rfl
  | true =>
    obtain ⟨r0, rfl⟩ := (startsWithOpener_iff s).1 hs
    exact absurd (lex_opener r0 t l r h).1 ht

theorem parseSubDocument_sound (star : Lexeme) (fuel : Nat) (s : Str) (sd : SubDocument)
    (r : Str) (hst : lit ['*', ' '] star = true)
    (h : parseSubDocument star fuel s = some (sd, r)) :
    sub_document sd = true ∧ sd.star = star ∧ sd.contents = none ∧ sd.nl = none ∧
      star.src ++ s = sd.src ++ r ∧ (r = [] ∨ ∃ x, r = '\n' :: x) := by
  unfold parseSubDocument at h
  split at h
  · rename_i lb s1 hl
    split at h
    · cases h
    · rename_i ls rb s2 hc
      simp only [Option.some.injEq, Prod.mk.injEq] at h
      obtain ⟨rfl, rfl⟩ := h
      obtain ⟨rfl, c2, c3⟩ := parseContents_inv _ _ _ _ _ hc
      obtain ⟨-, l2, l3⟩ := lex_sound _ _ _ _ _ hl
      obtain ⟨-, r2, r3⟩ := lex_sound _ _ _ _ _ c2
      refine ⟨?_, rfl, rfl, rfl, ?_, c3⟩
      · simp only [sub_document, optional, contentsOf, Bool.and_eq_true, and_true]
        exact ⟨⟨hst, l2⟩, r2⟩
      · rw [l3, r3]
        simp [SubDocument.src, wordsSrc, contentsSrc, contentsOf, optSrc]
  · rename_i k w s1 hl
    split at h
    · cases h
    · rename_i p ws lb s2 hw
      split at h
      · cases h
      · rename_i ls rb s3 hc
        simp only [Option.some.injEq, Prod.mk.injEq] at h
        obtain ⟨rfl, rfl⟩ := h
        obtain ⟨rfl, c2, c3⟩ := parseContents_inv _ _ _ _ _ hc
        obtain ⟨-, l2, l3⟩ := lex_sound _ _ _ _ _ hl
        obtain ⟨-, r2, r3⟩ := lex_sound _ _ _ _ _ c2
        obtain ⟨w1, w2, w3, w4⟩ := parseWords_sound .SPACE .lbrace _ _ _ _ _ _ hw
        obtain ⟨t1, t2, -⟩ := tokenOf_spec k w.text l2
        refine ⟨?_, rfl, rfl, rfl, ?_, c3⟩
        · simp only [sub_document, optional, contentsOf, title, many_sep, word,
            Bool.and_eq_true, and_true]
          exact ⟨⟨⟨hst, ⟨t1, w1⟩, w2⟩, w3⟩, r2⟩
        · rw [l3, w4, r3]
          simp [SubDocument.src, wordsSrc, contentsSrc, contentsOf, optSrc, ManySep.src,
            Word.src, Lexeme.src, t2]
  · cases h

/-- The items read by the parser are matches of the rules, cover the input, and
obey the lexer: no line begins with `* `, a sub-document stops at its `}`, which
the end of the input or a newline follows. -/
theorem parseItems_items (fuel : Nat) (s : Str) (items : List Item)
    (h : parseItems fuel s = some items) : ItemsOf s items := by
  induction fuel generalizing s items with
  | zero => cases h
  | succ fuel ih =>
    simp only [parseItems] at h
    split at h
    · rename_i he
      simp only [Option.some.injEq] at h
      subst h
      simpa [ItemsOf] using he
    · split at h
      · rename_i nl s1 hl
        obtain ⟨r, hr, rfl⟩ := Option.map_eq_some'.1 h
        obtain ⟨-, l2, l3⟩ := lex_sound _ _ _ _ _ hl
        refine ⟨?_, lex_line_start _ _ _ _ hl (by decide), s1, ?_, ih _ _ hr⟩
        · simp only [line, optional, Bool.true_and]
          exact l2
        · rw [l3]
          simp [Line.src, wordsSrc]
      · rename_i st s1 hl
        split at h
        · cases h
        · rename_i sd s2 hsd
          obtain ⟨r, hr, rfl⟩ := Option.map_eq_some'.1 h
          obtain ⟨-, l2, l3⟩ := lex_sound _ _ _ _ _ hl
          obtain ⟨d1, -, d3, d4, d5, d6⟩ := parseSubDocument_sound st fuel s1 sd s2 l2 hsd
          refine ⟨d1, d3, d4, s2, ?_, d6, ih _ _ hr⟩
          rw [l3, d5]
      · rename_i k w s1 hl
        split at h
        · cases h
        · rename_i p ws nl s2 hw
          obtain ⟨r, hr, rfl⟩ := Option.map_eq_some'.1 h
          obtain ⟨-, l2, l3⟩ := lex_sound _ _ _ _ _ hl
          obtain ⟨w1, w2, w3, w4⟩ := parseWords_sound .SPACE_TAB .NL _ _ _ _ _ _ hw
          obtain ⟨t1, t2, -⟩ := tokenOf_spec k w.text l2
          refine ⟨?_, lex_line_start _ _ _ _ hl (by simp), s2, ?_, ih _ _ hr⟩
          · simp only [line, optional, many_sep, word, Bool.and_eq_true]
            exact ⟨⟨⟨t1, w1⟩, w2⟩, w3⟩
          · rw [l3, w4]
            simp [Line.src, wordsSrc, ManySep.src, Word.src, Lexeme.src, t2]
      · cases h
/-! ## The document built by the parser -/

theorem blocksOf_line (l : Line) (r : List Item) :
    (∃ ls bs, blocksOf r = .Text ls :: bs ∧ blocksOf (.line l :: r) = .Text (l :: ls) :: bs) ∨
    ((∀ ls bs, blocksOf r ≠ .Text ls :: bs) ∧
      blocksOf (.line l :: r) = .Text [l] :: blocksOf r) := by
  cases h : blocksOf r with
  | nil => exact Or.inr ⟨fun ls bs e => List.noConfusion e, by simp [blocksOf, h]⟩
  | cons b bs =>
    cases b with
    | Text ls => exact Or.inl ⟨ls, bs, rfl, by simp [blocksOf, h]⟩
    | SubDocument s =>
      refine Or.inr ⟨?_, by simp [blocksOf, h]⟩
      intro ls bs e
      cases e

theorem blocksOf_src (items : List Item) :
    ((blocksOf items).map Block.src).flatten = (items.map Item.src).flatten := by
  induction items with
  | nil => rfl
  | cons it r ih =>
    cases it with
    | sub s => simp [blocksOf, Item.src, Block.src, ih]
    | line l =>
      rcases blocksOf_line l r with ⟨ls, bs, h1, h2⟩ | ⟨-, h2⟩
      · rw [h2]
        rw [h1] at ih
        simp only [List.map_cons, List.flatten_cons, Block.src, Item.src] at ih ⊢
        rw [← ih]
        simp
      · rw [h2]
        simp [Item.src, Block.src, ih]

theorem itemsOf_src (s : Str) (items : List Item) (h : ItemsOf s items) :
    s = (items.map Item.src).flatten := by
  induction items generalizing s with
  | nil => simpa [ItemsOf] using h
  | cons it r ih =>
    cases it with
    | line l =>
      obtain ⟨-, -, s', hs, hr⟩ := h
      rw [hs, ih s' hr]
      simp [Item.src]
    | sub d =>
      obtain ⟨-, -, -, s', hs, -, hr⟩ := h
      rw [hs, ih s' hr]
      simp [Item.src]

theorem blocksOf_valid (s : Str) (items : List Item) (h : ItemsOf s items) :
    ∀ b ∈ blocksOf items, block b = true := by
  induction items generalizing s with
  | nil => intro b hb; cases hb
  | cons it r ih =>
    cases it with
    | sub d =>
      obtain ⟨hd, -, -, s', -, -, hr⟩ := h
      intro b hb
      simp only [blocksOf, List.mem_cons] at hb
      rcases hb with rfl | hb
      · exact hd
      · exact ih s' hr b hb
    | line l =>
      obtain ⟨hl, -, s', -, hr⟩ := h
      have ihr := ih s' hr
      intro b hb
      rcases blocksOf_line l r with ⟨ls, bs, h1, h2⟩ | ⟨-, h2⟩
      · rw [h2] at hb
        rw [h1] at ihr
        rcases List.mem_cons.1 hb with rfl | hb
        · have ht : text ls = true := ihr (.Text ls) (List.mem_cons_self _ _)
          obtain ⟨-, hall⟩ := text_inv ls ht
          simp only [block, text, repeat1, List.isEmpty_cons, Bool.not_false, List.all_cons,
            Bool.true_and, Bool.and_eq_true, List.all_eq_true]
          exact ⟨hl, hall⟩
        · exact ihr b (List.mem_cons_of_mem _ hb)
      · rw [h2] at hb
        rcases List.mem_cons.1 hb with rfl | hb
        · simp [block, text, repeat1, hl]
        · exact ihr b hb

/-- The document built by the parser is made of the items it read. -/
theorem parse_items (input : Str) (d : Document) (h : parse input = some d) :
    ∃ items, ItemsOf input items ∧ d = ⟨blocksOf items, 0⟩ := by
  unfold parse at h
  obtain ⟨items, hi, rfl⟩ := Option.map_eq_some'.1 h
  exact ⟨items, parseItems_items _ _ _ hi, rfl⟩

/-- The document built by the parser is a derivation of the input. -/
theorem parse_sound (input : Str) (d : Document) (h : parse input = some d) :
    Parses input d := by
  obtain ⟨items, hi, rfl⟩ := parse_items input d h
  constructor
  · simp only [papier, List.all_eq_true]
    exact blocksOf_valid input items hi
  · simp only [Document.src, blocksOf_src, extras, List.replicate_zero, List.append_nil]
    exact (itemsOf_src input items hi).symm

theorem blocksOf_mem_sub (items : List Item) (s : SubDocument)
    (h : Block.SubDocument s ∈ blocksOf items) : Item.sub s ∈ items := by
  induction items with
  | nil => cases h
  | cons it r ih =>
    cases it with
    | sub d =>
      simp only [blocksOf, List.mem_cons, Block.SubDocument.injEq] at h
      rcases h with rfl | h
      · exact List.mem_cons_self _ _
      · exact List.mem_cons_of_mem _ (ih h)
    | line l =>
      rcases blocksOf_line l r with ⟨ls, bs, h1, h2⟩ | ⟨-, h2⟩
      · rw [h2] at h
        rw [h1] at ih
        rcases List.mem_cons.1 h with e | h
        · cases e
        · exact List.mem_cons_of_mem _ (ih (List.mem_cons_of_mem _ h))
      · rw [h2] at h
        rcases List.mem_cons.1 h with e | h
        · cases e
        · exact List.mem_cons_of_mem _ (ih h)

theorem itemsOf_sub (s : Str) (items : List Item) (h : ItemsOf s items) (d : SubDocument)
    (hd : Item.sub d ∈ items) : sub_document d = true ∧ d.contents = none ∧ d.nl = none := by
  induction items generalizing s with
  | nil => cases hd
  | cons it r ih =>
    cases it with
    | line l =>
      obtain ⟨-, -, s', -, hr⟩ := h
      rcases List.mem_cons.1 hd with e | hd
      · cases e
      · exact ih s' hr hd
    | sub d' =>
      obtain ⟨h1, h2, h3, s', -, -, hr⟩ := h
      rcases List.mem_cons.1 hd with e | hd
      · simp only [Item.sub.injEq] at e
        subst e
        exact ⟨h1, h2, h3⟩
      · exact ih s' hr hd

/-- A sub-document of the document built by the parser has no contents and no final
newline. -/
theorem parse_sub_document (input : Str) (d : Document) (h : parse input = some d)
    (s : SubDocument) (hs : Block.SubDocument s ∈ d.blocks) :
    s.contents = none ∧ s.nl = none := by
  obtain ⟨items, hi, rfl⟩ := parse_items input d h
  exact (itemsOf_sub input items hi s (blocksOf_mem_sub items s hs)).2

theorem sub_src_head (d : SubDocument) (h : sub_document d = true) :
    ∃ c t, d.src = c :: t ∧ c ≠ '\n' := by
  obtain ⟨he, -⟩ := sub_document_src d h
  rw [he]
  cases d.star.pre with
  | zero => exact ⟨'*', _, rfl, by decide⟩
  | succ n => exact ⟨'\r', _, by rw [extras_succ]; rfl, by decide⟩

/-- In the document built by the parser, what stands in front of a sub-document
block is nothing or ends in a text block. -/
theorem blocksOf_before_sub (s : Str) (items : List Item) (h : ItemsOf s items)
    (pre post : List Block) (d : SubDocument)
    (hb : blocksOf items = pre ++ Block.SubDocument d :: post) :
    pre = [] ∨ ∃ pre' ls, pre = pre' ++ [Block.Text ls] := by
  induction items generalizing s pre with
  | nil =>
    simp only [blocksOf] at hb
    exact absurd hb (by simp)
  | cons it r ih =>
    cases it with
    | sub d' =>
      obtain ⟨-, -, -, s', -, hs', hr⟩ := h
      simp only [blocksOf] at hb
      cases pre with
      | nil => exact Or.inl rfl
      | cons b pre1 =>
        right
        simp only [List.cons_append, List.cons.injEq] at hb
        obtain ⟨rfl, hb⟩ := hb
        rcases ih s' hr pre1 hb with rfl | ⟨pre', ls, rfl⟩
        · exfalso
          simp only [List.nil_append] at hb
          cases r with
          | nil => simp [blocksOf] at hb
          | cons it' r' =>
            cases it' with
            | line l =>
              rcases blocksOf_line l r' with ⟨ls, bs, -, h2⟩ | ⟨-, h2⟩
              · rw [h2] at hb
                cases hb
              · rw [h2] at hb
                cases hb
            | sub d'' =>
              obtain ⟨hv, -, -, s'', hs'', -, -⟩ := hr
              obtain ⟨c, t, hc, hne⟩ := sub_src_head d'' hv
              rw [hc] at hs''
              rcases hs' with e | ⟨x, e⟩
              · rw [e] at hs''
                cases hs''
              · rw [e] at hs''
                simp only [List.cons_append, List.cons.injEq] at hs''
                exact hne hs''.1.symm
        · exact ⟨Block.SubDocument d' :: pre', ls, rfl⟩
    | line l =>
      obtain ⟨-, -, s', -, hr⟩ := h
      right
      rcases blocksOf_line l r with ⟨ls, bs, h1, h2⟩ | ⟨-, h2⟩
      · rw [h2] at hb
        cases pre with
        | nil => cases hb
        | cons b pre1 =>
          simp only [List.cons_append, List.cons.injEq] at hb
          obtain ⟨rfl, hb⟩ := hb
          have h1' : blocksOf r = (Block.Text ls :: pre1) ++ Block.SubDocument d :: post := by
            rw [h1, hb]
            rfl
          rcases ih s' hr _ h1' with e | ⟨pre', ls', e⟩
          · cases e
          · cases pre' with
            | nil =>
              simp only [List.nil_append, List.cons.injEq] at e
              obtain ⟨-, rfl⟩ := e
              exact ⟨[], l :: ls, rfl⟩
            | cons b' pre'' =>
              simp only [List.cons_append, List.cons.injEq] at e
              obtain ⟨-, rfl⟩ := e
              exact ⟨Block.Text (l :: ls) :: pre'', ls', rfl⟩
      · rw [h2] at hb
        cases pre with
        | nil => cases hb
        | cons b pre1 =>
          simp only [List.cons_append, List.cons.injEq] at hb
          obtain ⟨rfl, hb⟩ := hb
          rcases ih s' hr pre1 hb with rfl | ⟨pre', ls', rfl⟩
          · exact ⟨[], [l], rfl⟩
          · exact ⟨Block.Text [l] :: pre', ls', rfl⟩

/-! ## An opener that is never closed -/

theorem afterNewlines_append (a b : Str) :
    afterNewlines (a ++ b) = (afterNewlines a).map (· ++ b) ++ afterNewlines b := by
  induction a with
  | nil => rfl
  | cons c a ih =>
    simp only [List.cons_append, afterNewlines]
    split
    · simp [ih]
    · exact ih

theorem afterNewlines_of_no_nl (x : Str) (h : '\n' ∉ x) : afterNewlines x = [] := by
  induction x with
  | nil => rfl
  | cons c x ih =>
    simp only [List.mem_cons, not_or] at h
    have : (c == '\n') = false := beq_eq_false_iff_ne.2 (fun e => h.1 e.symm)
    simp only [afterNewlines, this]
    exact ih h.2

theorem unclosedOn_closed (u s' : Str) (h : s' = [] ∨ ∃ t, s' = '\n' :: t) :
    unclosedOn (u ++ '}' :: s') = false := by
  induction u with
  | nil =>
    rcases h with rfl | ⟨t, rfl⟩
    · decide
    · simp [unclosedOn]
  | cons c u ih =>
    have hc : (u ++ '}' :: s').contains '}' = true := by simp
    simp only [List.cons_append, unclosedOn, List.append_eq, ih, hc, Bool.not_true,
      Bool.and_false, Bool.or_false]

/-- In an input read by the parser, no line that begins with `* ` holds a `{` that
is never closed. -/
theorem itemsOf_no_unclosed (s : Str) (items : List Item) (h : ItemsOf s items) :
    ∀ t ∈ lineStarts s, startsWithOpener t = true → unclosedOn t = false := by
  induction items generalizing s with
  | nil =>
    have : s = [] := by simpa [ItemsOf] using h
    subst this
    intro t ht ho
    simp only [lineStarts, afterNewlines, List.mem_singleton] at ht
    subst ht
    cases ho
  | cons it r ih =>
    cases it with
    | line l =>
      obtain ⟨hl, hno, s', hs, hr⟩ := h
      obtain ⟨body, hb, hnb⟩ := line_src l hl
      intro t ht ho
      simp only [lineStarts, List.mem_cons] at ht
      rcases ht with rfl | ht
      · rw [hno] at ho
        cases ho
      · rw [hs, hb, afterNewlines_append, afterNewlines_append, afterNewlines_of_no_nl body hnb]
          at ht
        apply ih s' hr t _ ho
        simp only [lineStarts, List.mem_cons]
        simp only [afterNewlines, beq_self_eq_true, if_true, List.nil_append, List.map_cons,
          List.map_nil, List.singleton_append, List.mem_cons] at ht
        exact ht
    | sub d =>
      obtain ⟨hd, -, hnl, s', hs, hs', hr⟩ := h
      obtain ⟨he, -⟩ := sub_document_src d hd
      rw [hnl] at he
      have hx : ∃ x, d.src = x ++ ['}'] := by
        refine ⟨extras d.star.pre ++ '*' :: ' ' :: ((wordsSrc d.title ++ extras d.lbrace.pre) ++
          '{' :: (contentsSrc d.contents ++ extras d.rbrace.pre)), ?_⟩
        rw [he]
        simp [optSrc]
      obtain ⟨x, hx⟩ := hx
      intro t ht ho
      simp only [lineStarts, List.mem_cons] at ht
      rcases ht with rfl | ht
      · rw [hs, hx, List.append_assoc]
        exact unclosedOn_closed x s' hs'
      · rw [hs, hx, afterNewlines_append, afterNewlines_append] at ht
        rcases List.mem_append.1 ht with ht | ht
        · obtain ⟨t0, ht0, rfl⟩ := List.mem_map.1 ht
          rcases List.mem_append.1 ht0 with h0 | h0
          · obtain ⟨u, -, rfl⟩ := List.mem_map.1 h0
            rw [List.append_assoc]
            exact unclosedOn_closed u s' hs'
          · simp [afterNewlines] at h0
        · apply ih s' hr t _ ho
          simp only [lineStarts, List.mem_cons]
          exact Or.inr ht

/-- When a line of the input begins with `* ` and holds a `{` that no `}` follows,
the parser reads no list of items from the input, whatever the fuel. -/
theorem parseItems_unclosed (input : Str) (h : hasUnclosedOpener input = true) (fuel : Nat) :
    parseItems fuel input = none := by
  cases hp : parseItems fuel input with
  | none => rfl
  | some items =>
    exfalso
    have hi := itemsOf_no_unclosed input items (parseItems_items fuel input items hp)
    simp only [hasUnclosedOpener, List.any_eq_true, Bool.and_eq_true] at h
    obtain ⟨t, ht, ho, hu⟩ := h
    rw [hi t ht ho] at hu
    cases hu
/-! ## Fuel -/

theorem lexPunct_shorter (sep close : Terminal) (s : Str) (p : Option Lexeme) (t : Terminal)
    (l : Lexeme) (r : Str) (h : lexPunct sep close s = some (p, t, l, r)) :
    r.length < s.length := by
  unfold lexPunct at h
  split at h
  · cases h
  · rename_i q s1 hl
    obtain ⟨x, hx, he⟩ := Option.map_eq_some'.1 h
    simp only [Prod.mk.injEq] at he
    obtain ⟨-, rfl⟩ := he
    have h1 := lex_shorter _ _ _ _ _ hl
    have h2 := lex_shorter _ _ _ _ _ hx
    omega
  · rename_i x hne hl
    simp only [Option.some.injEq, Prod.mk.injEq] at h
    obtain ⟨-, rfl⟩ := h
    exact lex_shorter _ _ _ _ _ hl

theorem parseWords_fuel (sep close : Terminal) (n : Nat) (s : Str) (h : s.length < n) :
    parseWords sep close (n + 1) s = parseWords sep close n s := by
  induction n generalizing s with
  | zero => omega
  | succ n ih =>
    rw [parseWords, parseWords]
    cases hl : lexPunct sep close s with
    | none => rfl
    | some x =>
      obtain ⟨p, t, l, s1⟩ := x
      have h1 := lexPunct_shorter _ _ _ _ _ _ _ hl
      simp only
      split
      · rfl
      · cases hw : lex wordTerminals s1 with
        | none => rfl
        | some y =>
          obtain ⟨u, w, s2⟩ := y
          have h2 := lex_shorter _ _ _ _ _ hw
          cases u with
          | word k =>
            simp only
            rw [ih s2 (by omega)]
          | _ => rfl

theorem parseWords_shorter (sep close : Terminal) (fuel : Nat) (s : Str) (p : Option Lexeme)
    (ws : List (Lexeme × Word)) (c : Lexeme) (r : Str)
    (h : parseWords sep close fuel s = some (p, ws, c, r)) : r.length < s.length := by
  induction fuel generalizing s p ws c r with
  | zero => cases h
  | succ fuel ih =>
    simp only [parseWords] at h
    split at h
    · cases h
    · rename_i p' t l s1 hl
      have h1 := lexPunct_shorter _ _ _ _ _ _ _ hl
      split at h
      · simp only [Option.some.injEq, Prod.mk.injEq] at h
        obtain ⟨-, -, -, rfl⟩ := h
        exact h1
      · split at h
        · rename_i k w s2 hw
          have h2 := lex_shorter _ _ _ _ _ hw
          split at h
          · cases h
          · rename_i q ws' c' s3 hr
            simp only [Option.some.injEq, Prod.mk.injEq] at h
            obtain ⟨-, -, -, rfl⟩ := h
            have := ih _ _ _ _ _ hr
            omega
        · cases h

theorem parseContents_fuel (n : Nat) (s : Str) (h : s.length < n) :
    parseContents (n + 1) s = parseContents n s := by
  induction n generalizing s with
  | zero => omega
  | succ n ih =>
    rw [parseContents, parseContents]
    cases hl : lex [.REGEX_LINE, .rbrace] s with
    | none => rfl
    | some x =>
      obtain ⟨t, l, s1⟩ := x
      have h1 := lex_shorter _ _ _ _ _ hl
      cases t with
      | REGEX_LINE =>
        simp only
        rw [ih s1 (by omega)]
      | _ => rfl

theorem parseSubDocument_fuel (star : Lexeme) (n : Nat) (s : Str) (h : s.length < n + 1) :
    parseSubDocument star (n + 1) s = parseSubDocument star n s := by
  unfold parseSubDocument
  cases hl : lex titleTerminals s with
  | none => rfl
  | some x =>
    obtain ⟨t, l, s1⟩ := x
    have h1 := lex_shorter _ _ _ _ _ hl
    cases t with
    | lbrace =>
      simp only
      rw [parseContents_fuel n s1 (by omega)]
    | word k =>
      simp only
      rw [parseWords_fuel _ _ n s1 (by omega)]
      cases hw : parseWords .SPACE .lbrace n s1 with
      | none => rfl
      | some y =>
        obtain ⟨p, ws, lb, s2⟩ := y
        have h2 := parseWords_shorter _ _ _ _ _ _ _ _ hw
        simp only
        rw [parseContents_fuel n s2 (by omega)]
    | _ => rfl

theorem parseItems_fuel (n : Nat) (s : Str) (h : s.length < n) :
    parseItems (n + 1) s = parseItems n s := by
  induction n generalizing s with
  | zero => omega
  | succ n ih =>
    rw [parseItems, parseItems]
    split
    · rfl
    · cases hl : lex blockTerminals s with
      | none => rfl
      | some x =>
        obtain ⟨t, l, s1⟩ := x
        have h1 := lex_shorter _ _ _ _ _ hl
        cases t with
        | NL =>
          simp only
          rw [ih s1 (by omega)]
        | star =>
          simp only
          rw [parseSubDocument_fuel l n s1 (by omega)]
          cases hsd : parseSubDocument l n s1 with
          | none => rfl
          | some y =>
            obtain ⟨sd, s2⟩ := y
            have h2 : s2.length < s1.length := by
              have hm : Terminal.star.matches l.text = true :=
                (lex_sound _ _ _ _ _ hl).2.1
              obtain ⟨d1, d2, -, -, h5, -⟩ := parseSubDocument_sound l n s1 sd s2 hm hsd
              obtain ⟨-, -, d3, -, -, -⟩ := sub_document_inv sd d1
              have h6 := congrArg List.length h5
              simp only [SubDocument.src, Lexeme.src, d2, d3, List.length_append,
                List.length_singleton] at h6
              omega
            simp only
            rw [ih s2 (by omega)]
        | word k =>
          simp only
          rw [parseWords_fuel _ _ n s1 (by omega)]
          cases hw : parseWords .SPACE_TAB .NL n s1 with
          | none => rfl
          | some y =>
            obtain ⟨p, ws, nl, s2⟩ := y
            have h2 := parseWords_shorter _ _ _ _ _ _ _ _ hw
            simp only
            rw [ih s2 (by omega)]
        | _ => rfl

/-- The parser never runs out of fuel: a fuel above the length of the input gives
the result of `parse`. -/
theorem parse_fuel (input : Str) (n : Nat) (h : input.length < n) :
    (parseItems n input).map (fun r => (⟨blocksOf r, 0⟩ : Document)) = parse input := by
  unfold parse
  obtain ⟨k, rfl⟩ : ∃ k, n = input.length + 1 + k := ⟨n - (input.length + 1), by omega⟩
  clear h
  induction k with
  | zero => rfl
  | succ k ih =>
    rw [← ih, ← Nat.add_assoc, parseItems_fuel _ _ (by omega)]
/-! ## A line of chunks -/

theorem lexWord_inv (s : Str) (w : Word) (h : lexWord s = some w) :
    ∃ k l rc, lex wordTerminals s = some (.word k, l, rc) ∧
      ((rc = [] ∧ w = ⟨l.pre, tokenOf k l.text, none⟩) ∨
        ∃ c, isPunct c = true ∧ rc = [c] ∧ w = ⟨l.pre, tokenOf k l.text, some ⟨0, [c]⟩⟩) := by
  unfold lexWord at h
  split at h
  · rename_i k l hl
    simp only [Option.some.injEq] at h
    exact ⟨k, l, [], hl, Or.inl ⟨rfl, h.symm⟩⟩
  · rename_i k l c hl
    split at h
    · rename_i hc
      simp only [Option.some.injEq] at h
      exact ⟨k, l, [c], hl, Or.inr ⟨c, hc, rfl, h.symm⟩⟩
    · cases h
  · cases h

/-- A match of an alternative of `word` holds no space, tab or newline. -/
theorem word_matches_chars (k : Kind) (x : Str) (h : (Terminal.word k).matches x = true) :
    ∀ c ∈ x, isChunkChar c = true := by
  obtain ⟨h1, h2, -⟩ := tokenOf_spec k x h
  have := (token_text_chars _ h1).2
  rwa [h2] at this

theorem longest_append_stop (p : Str → Bool) (c r : Str)
    (h : ∀ m, c.length < m → m ≤ (c ++ r).length → p ((c ++ r).take m) = false) :
    longest p (c ++ r) = longest p c := by
  cases hl : longest p c with
  | none =>
    apply longest_eq_none
    intro m hm
    by_cases hmc : m ≤ c.length
    · rw [List.take_append_of_le_length hmc]
      exact longest_none p c hl m hmc
    · exact h m (by omega) hm
  | some n =>
    obtain ⟨h1, h2, h3⟩ := longest_spec p c n hl
    apply longest_eq_some
    · simp only [List.length_append]
      omega
    · rw [List.take_append_of_le_length h1]
      exact h2
    · intro m hm1 hm2
      by_cases hmc : m ≤ c.length
      · rw [List.take_append_of_le_length hmc]
        exact h3 m hm1 hmc
      · exact h m (by omega) hm2

theorem mem_take_append_cons (c : Str) (d : Char) (more : Str) (m : Nat) (h : c.length < m) :
    d ∈ (c ++ d :: more).take m := by
  obtain ⟨j, rfl⟩ : ∃ j, m = c.length + (j + 1) := ⟨m - c.length - 1, by omega⟩
  rw [List.take_append]
  simp

/-- A word terminal stops at a space, tab or newline: what comes after does not
change its longest match. -/
theorem scan_word_context (k : Kind) (c : Str) (d : Char) (more : Str)
    (hd : isChunkChar d = false) :
    (Terminal.word k).scan (c ++ d :: more) = (Terminal.word k).scan c := by
  unfold Terminal.scan
  apply longest_append_stop
  intro m h1 _
  cases hm : (Terminal.word k).matches ((c ++ d :: more).take m) with
  | false => rfl
  | true =>
    have := word_matches_chars k _ hm d (mem_take_append_cons c d more m h1)
    rw [hd] at this
    cases this

theorem lexAt_congr (valid : List Terminal) (s s' : Str)
    (h : ∀ t ∈ valid, t.scan s = t.scan s') : lexAt valid s = lexAt valid s' := by
  unfold lexAt
  generalize (none : Option (Terminal × Nat)) = init
  induction valid generalizing init with
  | nil => rfl
  | cons t ts ih =>
    simp only [List.foldl_cons]
    rw [h t (List.mem_cons_self _ _)]
    exact ih (fun u hu => h u (List.mem_cons_of_mem _ hu)) _

theorem lexAt_word_context (c : Str) (d : Char) (more : Str) (hd : isChunkChar d = false) :
    lexAt wordTerminals (c ++ d :: more) = lexAt wordTerminals c := by
  apply lexAt_congr
  intro t ht
  simp only [wordTerminals, List.mem_cons, List.mem_singleton, List.not_mem_nil, or_false] at ht
  rcases ht with rfl | rfl | rfl | rfl | rfl | rfl <;> exact scan_word_context _ c d more hd

theorem leadingExtras_le (s : Str) : leadingExtras s ≤ s.length :=
  takeWhile_length_le _ s

theorem leadingExtras_append (c r : Str) (h : leadingExtras c < c.length) :
    leadingExtras (c ++ r) = leadingExtras c := by
  induction c with
  | nil => simp [leadingExtras] at h
  | cons x xs ih =>
    by_cases hx : x = '\r'
    · subst hx
      rw [List.cons_append, leadingExtras_cons_cr, leadingExtras_cons_cr]
      rw [leadingExtras_cons_cr] at h
      rw [ih (by simpa using h)]
    · rw [List.cons_append, leadingExtras_cons_ne _ _ hx, leadingExtras_cons_ne _ _ hx]

theorem leadingExtras_all (c r : Str) (d : Char) (h : leadingExtras c = c.length)
    (hd : d ≠ '\r') : leadingExtras (c ++ d :: r) = c.length := by
  induction c with
  | nil => exact leadingExtras_cons_ne d r hd
  | cons x xs ih =>
    by_cases hx : x = '\r'
    · subst hx
      rw [leadingExtras_cons_cr] at h
      rw [List.cons_append, leadingExtras_cons_cr, ih (by simpa using h)]
      rfl
    · rw [leadingExtras_cons_ne _ _ hx] at h
      cases h

theorem find_absorbing_word :
    wordTerminals.find? (fun t => t.matches ['\r']) = some (.word .Plain) := by decide

theorem find_absorbing_block :
    blockTerminals.find? (fun t => t.matches ['\r']) = some (.word .Plain) := by decide

theorem isChunkChar_ne_cr (d : Char) (hd : isChunkChar d = false) : d ≠ '\r' := by
  rintro rfl
  exact absurd hd (by decide)

theorem lexAt_le_length (valid : List Terminal) (s : Str) (t : Terminal) (n : Nat)
    (h : lexAt valid s = some (t, n)) : n ≤ s.length :=
  (scan_spec t s n (lexAt_sound valid s t n h).2).2.1

/-- Where a word starts, the token read from a chunk is the same whether the chunk
stands alone or is followed by a space, tab or newline. -/
theorem lex_word_context (c : Str) (d : Char) (more : Str) (hd : isChunkChar d = false) :
    lex wordTerminals (c ++ d :: more) =
      (lex wordTerminals c).map (fun x => (x.1, x.2.1, x.2.2 ++ d :: more)) := by
  have hcr := isChunkChar_ne_cr d hd
  rcases Nat.lt_or_ge (leadingExtras c) c.length with hlt | hge
  · have hk := leadingExtras_append c (d :: more) hlt
    have hdrop : (c ++ d :: more).drop (leadingExtras c) = c.drop (leadingExtras c) ++ d :: more :=
      List.drop_append_of_le_length (Nat.le_of_lt hlt)
    obtain ⟨x, xs, hx⟩ : ∃ x xs, c.drop (leadingExtras c) = x :: xs := by
      cases hc : c.drop (leadingExtras c) with
      | nil =>
        have := congrArg List.length hc
        simp at this
        omega
      | cons x xs => exact ⟨x, xs, rfl⟩
    unfold lex
    simp only [hk, hdrop]
    split
    · rename_i h0
      rw [lexAt_word_context c d more hd]
      cases hl : lexAt wordTerminals c with
      | none => rfl
      | some m =>
        have hm := lexAt_le_length _ _ _ _ hl
        simp only [Option.map_some', Option.some.injEq, Prod.mk.injEq, true_and]
        exact ⟨by rw [List.take_append_of_le_length hm],
          List.drop_append_of_le_length hm⟩
    · rw [find_absorbing_word]
      simp only
      rw [lexAt_word_context _ d more hd]
      have hcond : (c.drop (leadingExtras c) ++ d :: more).take 1 =
          (c.drop (leadingExtras c)).take 1 := by
        rw [hx]
        rfl
      have hemp : (c.drop (leadingExtras c) ++ d :: more).isEmpty =
          (c.drop (leadingExtras c)).isEmpty := by
        rw [hx]
        rfl
      rw [hcond, hemp]
      split
      · cases hl : lexAt wordTerminals (c.drop (leadingExtras c)) with
        | none => rfl
        | some m =>
          have hm := lexAt_le_length _ _ _ _ hl
          simp only [Option.map_some', Option.some.injEq]
          split
          · simp only [Prod.mk.injEq, true_and]
            exact ⟨by rw [List.take_append_of_le_length hm],
              List.drop_append_of_le_length hm⟩
          · simp only [Prod.mk.injEq, true_and]
            exact ⟨by rw [List.take_append_of_le_length hm],
              List.drop_append_of_le_length hm⟩
      · rfl
  · have hall : leadingExtras c = c.length := Nat.le_antisymm (leadingExtras_le c) hge
    have hk := leadingExtras_all c more d hall hcr
    unfold lex
    simp only [hk, hall, List.drop_left, List.drop_length]
    split
    · rename_i h0
      have hc : c = [] := List.length_eq_zero.1 h0
      subst hc
      simp only [List.nil_append]
      have h1 : lexAt wordTerminals (d :: more) = none := by
        rw [lexAt_eq_none_iff]
        intro t ht
        cases hs : t.scan (d :: more) with
        | none => rfl
        | some n =>
          exfalso
          obtain ⟨hp, hn, hm, -⟩ := scan_spec t _ n hs
          simp only [wordTerminals, List.mem_cons, List.mem_singleton, List.not_mem_nil,
            or_false] at ht
          have hmem : d ∈ (d :: more).take n := by
            cases n with
            | zero => omega
            | succ n => simp
          rcases ht with rfl | rfl | rfl | rfl | rfl | rfl <;>
            exact absurd (word_matches_chars _ _ hm d hmem) (by rw [hd]; simp)
      have h2 : lexAt wordTerminals [] = none := by decide
      rw [h1, h2]
      rfl
    · rw [find_absorbing_word]
      simp only
      have h1 : (Terminal.word Kind.Plain).matches ['\r', d] = false := by
        rw [matches_plain]
        simp [REGEX_CHUNK, plus, hd]
      simp [h1]
theorem lexAt_of_only (valid : List Terminal) (s : Str) (t0 : Terminal) (n : Nat)
    (h0 : t0 ∈ valid) (hs : t0.scan s = some n)
    (ho : ∀ t ∈ valid, t ≠ t0 → t.scan s = none) : lexAt valid s = some (t0, n) := by
  cases hl : lexAt valid s with
  | none =>
    rw [(lexAt_eq_none_iff valid s).1 hl t0 h0] at hs
    cases hs
  | some m =>
    obtain ⟨h1, h2⟩ := lexAt_sound valid s m.1 m.2 hl
    by_cases he : m.1 = t0
    · rw [he, hs] at h2
      simp only [Option.some.injEq] at h2
      exact congrArg some (Prod.ext he h2.symm)
    · rw [ho m.1 h1 he] at h2
      cases h2

theorem pick_none (best : Option (Terminal × Nat)) : pick best none = best := by
  cases best <;> rfl

theorem lexAt_cons_none (t : Terminal) (valid : List Terminal) (s : Str)
    (h : t.scan s = none) : lexAt (t :: valid) s = lexAt valid s := by
  simp [lexAt, h, pick]

theorem lexAt_append_none (t : Terminal) (valid : List Terminal) (s : Str)
    (h : t.scan s = none) : lexAt (valid ++ [t]) s = lexAt valid s := by
  simp [lexAt, List.foldl_append, h, pick_none]

theorem scan_star_none (s : Str) (h : startsWithOpener s = false) :
    Terminal.star.scan s = none := by
  cases hs : Terminal.star.scan s with
  | none => rfl
  | some n =>
    obtain ⟨-, r, hr⟩ := (scan_star s n).1 hs
    rw [(startsWithOpener_iff s).2 ⟨r, hr⟩] at h
    cases h

theorem scan_NL_none (s : Str) (h : ∀ t, s ≠ '\n' :: t) : Terminal.NL.scan s = none := by
  cases hs : Terminal.NL.scan s with
  | none => rfl
  | some n =>
    obtain ⟨-, r, hr⟩ := (scan_NL s n).1 hs
    exact absurd hr (h r)

theorem lexAt_block_eq_word (s : Str) (h1 : startsWithOpener s = false)
    (h2 : ∀ t, s ≠ '\n' :: t) : lexAt blockTerminals s = lexAt wordTerminals s := by
  unfold blockTerminals
  rw [lexAt_cons_none _ _ _ (scan_star_none s h1), lexAt_append_none _ _ _ (scan_NL_none s h2)]

theorem dropWhile_eq_drop (s : Str) : s.dropWhile (· == '\r') = s.drop (leadingExtras s) :=
  (drop_takeWhile_length _ s).symm

/-- Where a block starts, an input that neither begins with a newline nor, after its
leading carriage returns, with `* `, is read as where a word starts. -/
theorem lex_block_eq_word (s : Str) (ho : opensAfterExtras s = false)
    (hn : ∀ t, s ≠ '\n' :: t) : lex blockTerminals s = lex wordTerminals s := by
  have hod : startsWithOpener (s.drop (leadingExtras s)) = false := by
    rw [← dropWhile_eq_drop]
    exact ho
  unfold lex
  simp only
  split
  · rename_i h0
    rw [h0, List.drop_zero] at hod
    rw [lexAt_block_eq_word s hod hn]
  · rw [find_absorbing_word, find_absorbing_block]
    simp only
    split
    · rename_i hc
      simp only [Bool.and_eq_true, Bool.not_eq_true', List.isEmpty_eq_false_iff_exists_mem] at hc
      have hnl : ∀ t, s.drop (leadingExtras s) ≠ '\n' :: t := by
        intro t e
        rw [e] at hc
        have hf : (Terminal.word Kind.Plain).matches ['\r', '\n'] = false := by decide
        simp only [List.take_succ_cons, List.take_zero, hf] at hc
        exact absurd hc.1 (by simp)
      rw [lexAt_block_eq_word _ hod hnl]
    · rfl

theorem takeWhile_append_stop (p : Char → Bool) (a : Str) (x : Char) (r : Str)
    (ha : ∀ c ∈ a, p c = true) (hx : p x = false) : (a ++ x :: r).takeWhile p = a := by
  induction a with
  | nil => simp [List.takeWhile, hx]
  | cons c cs ih =>
    have := ih (fun d hd => ha d (List.mem_cons_of_mem _ hd))
    simp only [List.cons_append, List.takeWhile, ha c (List.mem_cons_self _ _), List.append_eq,
      this]

theorem isBlank_ne (c : Char) (h : isBlank c = true) :
    c ≠ '\r' ∧ c ≠ '\n' ∧ isPunct c = false := by
  rcases (isBlank_iff c).1 h with rfl | rfl <;> decide

/-- After a word of a line, a run of spaces and tabs followed by another character
is read as one separator. -/
theorem lexAt_separator (valid : List Terminal) (hv : Terminal.SPACE_TAB ∈ valid)
    (hsub : ∀ t ∈ valid, t = .REGEX_PUNCTUATION ∨ t = .SPACE_TAB ∨ t = .NL)
    (a : Str) (x : Char) (r : Str) (ha : SPACE_TAB a = true) (hx : isBlank x = false) :
    lexAt valid (a ++ x :: r) = some (.SPACE_TAB, a.length) := by
  obtain ⟨hne, hall⟩ := SPACE_TAB_chars a ha
  obtain ⟨c, cs, rfl⟩ := List.exists_cons_of_ne_nil hne
  obtain ⟨c1, c2, c3⟩ := isBlank_ne c (hall c (List.mem_cons_self _ _))
  apply lexAt_of_only _ _ _ _ hv
  · rw [scan_SPACE_TAB, takeWhile_append_stop isBlank _ x r hall hx]
    exact ⟨rfl, by simp⟩
  · intro t ht hne'
    rcases hsub t ht with rfl | rfl | rfl
    · cases hs : Terminal.REGEX_PUNCTUATION.scan ((c :: cs) ++ x :: r) with
      | none => rfl
      | some n =>
        obtain ⟨-, c', r', he, hp⟩ := (scan_punct _ n).1 hs
        simp only [List.cons_append, List.cons.injEq] at he
        rw [← he.1, c3] at hp
        cases hp
    · exact absurd rfl hne'
    · apply scan_NL_none
      intro t e
      simp only [List.cons_append, List.cons.injEq] at e
      exact c2 e.1

theorem lex_separator (valid : List Terminal) (hv : Terminal.SPACE_TAB ∈ valid)
    (hsub : ∀ t ∈ valid, t = .REGEX_PUNCTUATION ∨ t = .SPACE_TAB ∨ t = .NL)
    (a : Str) (x : Char) (r : Str) (ha : SPACE_TAB a = true) (hx : isBlank x = false) :
    lex valid (a ++ x :: r) = some (.SPACE_TAB, ⟨0, a⟩, x :: r) := by
  obtain ⟨hne, hall⟩ := SPACE_TAB_chars a ha
  have h0 : leadingExtras (a ++ x :: r) = 0 := by
    obtain ⟨c, cs, rfl⟩ := List.exists_cons_of_ne_nil hne
    exact leadingExtras_cons_ne _ _ (isBlank_ne c (hall c (List.mem_cons_self _ _))).1
  rw [lex_of_no_extras _ _ h0, lexAt_separator valid hv hsub a x r ha hx]
  simp

theorem lex_newline (valid : List Terminal) (hv : Terminal.NL ∈ valid)
    (hsub : ∀ t ∈ valid, t = .REGEX_PUNCTUATION ∨ t = .SPACE_TAB ∨ t = .NL) (r : Str) :
    lex valid ('\n' :: r) = some (.NL, ⟨0, ['\n']⟩, r) := by
  have h0 : leadingExtras ('\n' :: r) = 0 := leadingExtras_cons_ne _ _ (by decide)
  have hl : lexAt valid ('\n' :: r) = some (.NL, 1) := by
    apply lexAt_of_only _ _ _ _ hv ((scan_NL _ _).2 ⟨rfl, r, rfl⟩)
    intro t ht hne
    rcases hsub t ht with rfl | rfl | rfl
    · cases hs : Terminal.REGEX_PUNCTUATION.scan ('\n' :: r) with
      | none => rfl
      | some n =>
        obtain ⟨-, c', r', he, hp⟩ := (scan_punct _ n).1 hs
        simp only [List.cons.injEq] at he
        rw [← he.1] at hp
        exact absurd hp (by decide)
    · cases hs : Terminal.SPACE_TAB.scan ('\n' :: r) with
      | none => rfl
      | some n =>
        obtain ⟨h1, h2⟩ := (scan_SPACE_TAB _ n).1 hs
        simp [List.takeWhile, isBlank] at h1
        omega
    · exact absurd rfl hne
  rw [lex_of_no_extras _ _ h0, hl]
  rfl

theorem lex_punctuation (c : Char) (r : Str) (hc : isPunct c = true) :
    lex [.REGEX_PUNCTUATION, .SPACE_TAB, .NL] (c :: r) =
      some (.REGEX_PUNCTUATION, ⟨0, [c]⟩, r) := by
  have hcr : c ≠ '\r' := by
    rintro rfl
    exact absurd hc (by decide)
  have h0 : leadingExtras (c :: r) = 0 := leadingExtras_cons_ne _ _ hcr
  have hl : lexAt [.REGEX_PUNCTUATION, .SPACE_TAB, .NL] (c :: r) =
      some (.REGEX_PUNCTUATION, 1) := by
    apply lexAt_of_only _ _ _ _ (by simp) ((scan_punct _ _).2 ⟨rfl, c, r, rfl, hc⟩)
    intro t ht hne
    simp only [List.mem_cons, List.mem_singleton, List.not_mem_nil, or_false] at ht
    rcases ht with rfl | rfl | rfl
    · exact absurd rfl hne
    · cases hs : Terminal.SPACE_TAB.scan (c :: r) with
      | none => rfl
      | some n =>
        obtain ⟨h1, h2⟩ := (scan_SPACE_TAB _ n).1 hs
        have hb : isBlank c = false := by
          cases hb : isBlank c with
          | false => rfl
          | true => exact absurd hc (by rw [(isBlank_ne c hb).2.2]; simp)
        simp [List.takeWhile, hb] at h1
        omega
    · apply scan_NL_none
      intro t e
      simp only [List.cons.injEq] at e
      rw [e.1] at hc
      exact absurd hc (by decide)
  rw [lex_of_no_extras _ _ h0, hl]
  rfl
theorem lexPunct_separator (p : Option Lexeme) (rc : Str)
    (hrc : (rc = [] ∧ p = none) ∨ ∃ c, isPunct c = true ∧ rc = [c] ∧ p = some ⟨0, [c]⟩)
    (a : Str) (x : Char) (r : Str) (ha : SPACE_TAB a = true) (hx : isBlank x = false) :
    lexPunct .SPACE_TAB .NL (rc ++ (a ++ x :: r)) =
      some (p, .SPACE_TAB, ⟨0, a⟩, x :: r) := by
  unfold lexPunct
  rcases hrc with ⟨rfl, rfl⟩ | ⟨c, hc, rfl, rfl⟩
  · rw [List.nil_append, lex_separator _ (by simp) (by simp) a x r ha hx]
  · rw [List.singleton_append, lex_punctuation c _ hc]
    simp only
    rw [lex_separator _ (by simp) (by simp) a x r ha hx]
    rfl

theorem lexPunct_newline (p : Option Lexeme) (rc : Str)
    (hrc : (rc = [] ∧ p = none) ∨ ∃ c, isPunct c = true ∧ rc = [c] ∧ p = some ⟨0, [c]⟩)
    (r : Str) :
    lexPunct .SPACE_TAB .NL (rc ++ '\n' :: r) = some (p, .NL, ⟨0, ['\n']⟩, r) := by
  unfold lexPunct
  rcases hrc with ⟨rfl, rfl⟩ | ⟨c, hc, rfl, rfl⟩
  · rw [List.nil_append, lex_newline _ (by simp) (by simp) r]
  · rw [List.singleton_append, lex_punctuation c _ hc]
    simp only
    rw [lex_newline _ (by simp) (by simp) r]
    rfl

/-- What follows a chunk of a line begins with a space, a tab or the newline. -/
theorem tail_head (rest : List (Str × Str))
    (hr : ∀ q ∈ rest, SPACE_TAB q.1 = true ∧ REGEX_CHUNK q.2 = true) :
    ∃ d more, (rest.map (fun q => q.1 ++ q.2)).flatten ++ ['\n'] = d :: more ∧
      isChunkChar d = false := by
  cases rest with
  | nil => exact ⟨'\n', [], rfl, by decide⟩
  | cons q qs =>
    obtain ⟨hne, hall⟩ := SPACE_TAB_chars q.1 (hr q (List.mem_cons_self _ _)).1
    obtain ⟨c, cs, hc⟩ := List.exists_cons_of_ne_nil hne
    refine ⟨c, cs ++ q.2 ++ ((qs.map (fun q => q.1 ++ q.2)).flatten ++ ['\n']), ?_, ?_⟩
    · simp [hc]
    · have hb := hall c (by rw [hc]; exact List.mem_cons_self _ _)
      rcases (isBlank_iff c).1 hb with rfl | rfl <;> decide

theorem chunk_head (s : Str) (h : REGEX_CHUNK s = true) :
    ∃ x xs, s = x :: xs ∧ isBlank x = false := by
  obtain ⟨hne, hall⟩ := (plus_iff _ _).1 h
  obtain ⟨x, xs, rfl⟩ := List.exists_cons_of_ne_nil hne
  refine ⟨x, xs, rfl, ?_⟩
  have := hall x (List.mem_cons_self _ _)
  cases hb : isBlank x with
  | false => rfl
  | true =>
    rcases (isBlank_iff x).1 hb with rfl | rfl <;> exact absurd this (by decide)

theorem lexTail_cons (q : Str × Str) (qs : List (Str × Str)) (tl : List (Lexeme × Word))
    (h : lexTail (q :: qs) = some tl) :
    ∃ w t, lexWord q.2 = some w ∧ lexTail qs = some t ∧ tl = (⟨0, q.1⟩, w) :: t := by
  simp only [lexTail] at h
  split at h
  · rename_i w t hw ht
    simp only [Option.some.injEq] at h
    exact ⟨w, t, hw, ht, h.symm⟩
  · cases h

/-- After the token of a chunk that the lexer reads whole, the parser reads the rest of
the line: the punctuation of that chunk, then the chunks that follow with
their separators, then the newline. -/
theorem parseWords_chunks (rest : List (Str × Str)) (tl : List (Lexeme × Word))
    (hr : ∀ q ∈ rest, SPACE_TAB q.1 = true ∧ REGEX_CHUNK q.2 = true)
    (ht : lexTail rest = some tl) (fuel : Nat) (hf : rest.length < fuel)
    (p : Option Lexeme) (rc : Str)
    (hrc : (rc = [] ∧ p = none) ∨ ∃ c, isPunct c = true ∧ rc = [c] ∧ p = some ⟨0, [c]⟩) :
    parseWords .SPACE_TAB .NL fuel
        (rc ++ ((rest.map (fun q => q.1 ++ q.2)).flatten ++ ['\n'])) =
      some (p, tl, ⟨0, ['\n']⟩, []) := by
  induction rest generalizing tl fuel p rc with
  | nil =>
    obtain ⟨f, rfl⟩ : ∃ f, fuel = f + 1 := ⟨fuel - 1, by omega⟩
    simp only [lexTail, Option.some.injEq] at ht
    subst ht
    rw [parseWords]
    simp only [List.map_nil, List.flatten_nil, List.nil_append]
    rw [lexPunct_newline p rc hrc []]
    simp
  | cons q qs ih =>
    obtain ⟨f, rfl⟩ : ∃ f, fuel = f + 1 := ⟨fuel - 1, by omega⟩
    obtain ⟨wq, t, hwq, htq, rfl⟩ := lexTail_cons q qs tl ht
    obtain ⟨hq1, hq2⟩ := hr q (List.mem_cons_self _ _)
    have hr' : ∀ q' ∈ qs, SPACE_TAB q'.1 = true ∧ REGEX_CHUNK q'.2 = true :=
      fun q' hq' => hr q' (List.mem_cons_of_mem _ hq')
    obtain ⟨x, xs, hx, hxb⟩ := chunk_head q.2 hq2
    obtain ⟨d, more, hd, hdc⟩ := tail_head qs hr'
    obtain ⟨k, l, rc', hl, hw⟩ := lexWord_inv q.2 wq hwq
    have hin : rc ++ (((q :: qs).map (fun q => q.1 ++ q.2)).flatten ++ ['\n']) =
        rc ++ (q.1 ++ x :: (xs ++ ((qs.map (fun q => q.1 ++ q.2)).flatten ++ ['\n']))) := by
      simp [hx]
    have hnext : x :: (xs ++ ((qs.map (fun q => q.1 ++ q.2)).flatten ++ ['\n'])) =
        q.2 ++ d :: more := by
      rw [hx, ← hd]
      rfl
    rw [hin, parseWords, lexPunct_separator p rc hrc q.1 x _ hq1 hxb]
    simp only [reduceCtorEq, if_false]
    rw [hnext, lex_word_context q.2 d more hdc, hl]
    simp only [Option.map_some']
    have hp' : ∃ p', wq = ⟨l.pre, tokenOf k l.text, p'⟩ ∧
        ((rc' = [] ∧ p' = none) ∨ ∃ c, isPunct c = true ∧ rc' = [c] ∧ p' = some ⟨0, [c]⟩) := by
      rcases hw with ⟨h1, h2⟩ | ⟨c, h1, h2, h3⟩
      · exact ⟨none, h2, Or.inl ⟨h1, rfl⟩⟩
      · exact ⟨some ⟨0, [c]⟩, h3, Or.inr ⟨c, h1, h2, rfl⟩⟩
    obtain ⟨p', hwq', hrc'⟩ := hp'
    rw [← hd, ih t hr' htq f (by simpa using hf) p' rc' hrc']
    simp only [hwq']

theorem lexWord_src (s : Str) (w : Word) (h : lexWord s = some w) : w.src = s := by
  obtain ⟨k, l, rc, hl, hw⟩ := lexWord_inv s w h
  obtain ⟨-, h2, h3⟩ := lex_sound _ _ _ _ _ hl
  obtain ⟨-, t2, -⟩ := tokenOf_spec k l.text h2
  rcases hw with ⟨rfl, rfl⟩ | ⟨c, -, rfl, rfl⟩
  · rw [h3]
    simp [Word.src, Lexeme.src, t2, optSrc]
  · rw [h3]
    simp [Word.src, Lexeme.src, t2, optSrc, extras]

theorem lexTail_spec (rest : List (Str × Str)) (tl : List (Lexeme × Word))
    (h : lexTail rest = some tl) :
    tl.map (fun p => p.2.src) = rest.map Prod.snd ∧
      tl.map Prod.fst = rest.map (fun p => ⟨0, p.1⟩) := by
  induction rest generalizing tl with
  | nil =>
    simp only [lexTail, Option.some.injEq] at h
    subst h
    exact ⟨rfl, rfl⟩
  | cons q qs ih =>
    obtain ⟨w, t, hw, ht, rfl⟩ := lexTail_cons q qs tl h
    obtain ⟨h1, h2⟩ := ih t ht
    simp [h1, h2, lexWord_src _ _ hw]

theorem lexTail_words (rest : List (Str × Str)) (tl : List (Lexeme × Word))
    (h : lexTail rest = some tl) :
    tl.map (some ∘ Prod.snd) = rest.map (lexWord ∘ Prod.snd) := by
  induction rest generalizing tl with
  | nil =>
    simp only [lexTail, Option.some.injEq] at h
    subst h
    rfl
  | cons q qs ih =>
    obtain ⟨w, t, hw, ht, rfl⟩ := lexTail_cons q qs tl h
    simp [ih t ht, hw]

theorem lexChunks_inv (w : Str) (rest : List (Str × Str)) (m : ManySep Word)
    (h : lexChunks w rest = some m) :
    lexWord w = some m.head ∧ lexTail rest = some m.tail := by
  unfold lexChunks at h
  split at h
  · rename_i hd tl h1 h2
    simp only [Option.some.injEq] at h
    subst h
    exact ⟨h1, h2⟩
  · cases h

theorem parseItems_nil (n : Nat) (h : 0 < n) : parseItems n [] = some [] := by
  obtain ⟨f, rfl⟩ : ∃ f, n = f + 1 := ⟨n - 1, by omega⟩
  rfl

theorem tail_length (rest : List (Str × Str))
    (hr : ∀ q ∈ rest, SPACE_TAB q.1 = true ∧ REGEX_CHUNK q.2 = true) :
    rest.length ≤ ((rest.map (fun q => q.1 ++ q.2)).flatten).length := by
  induction rest with
  | nil => simp
  | cons q qs ih =>
    have h1 := (SPACE_TAB_chars q.1 (hr q (List.mem_cons_self _ _)).1).1
    have h2 : 0 < q.1.length := List.length_pos.2 h1
    have := ih (fun q' hq' => hr q' (List.mem_cons_of_mem _ hq'))
    simp only [List.length_cons, List.map_cons, List.flatten_cons, List.length_append]
    omega

/-- A line of chunks that the lexer reads whole, not begun by `* ` (carriage returns
aside), is parsed as one text block of one line holding the words read. -/
theorem parse_chunks (w : Str) (rest : List (Str × Str)) (m : ManySep Word)
    (hw : REGEX_CHUNK w = true)
    (hr : ∀ p ∈ rest, SPACE_TAB p.1 = true ∧ REGEX_CHUNK p.2 = true)
    (hm : lexChunks w rest = some m)
    (ho : opensAfterExtras (joinChunks w rest ++ ['\n']) = false) :
    parse (joinChunks w rest ++ ['\n']) = some (lineDoc (some m)) := by
  obtain ⟨hm1, hm2⟩ := lexChunks_inv w rest m hm
  obtain ⟨k, l, rc, hl, hwd⟩ := lexWord_inv w m.head hm1
  obtain ⟨d, more, hd, hdc⟩ := tail_head rest hr
  obtain ⟨x, xs, hx, -⟩ := chunk_head w hw
  have hxn : x ≠ '\n' := by
    have := ((plus_iff _ _).1 hw).2 x (by rw [hx]; exact List.mem_cons_self _ _)
    rintro rfl
    exact absurd this (by decide)
  have hin : joinChunks w rest ++ ['\n'] =
      w ++ ((rest.map (fun q => q.1 ++ q.2)).flatten ++ ['\n']) := by
    simp [joinChunks]
  have hp' : ∃ p', m.head = ⟨l.pre, tokenOf k l.text, p'⟩ ∧
      ((rc = [] ∧ p' = none) ∨ ∃ c, isPunct c = true ∧ rc = [c] ∧ p' = some ⟨0, [c]⟩) := by
    rcases hwd with ⟨h1, h2⟩ | ⟨c, h1, h2, h3⟩
    · exact ⟨none, h2, Or.inl ⟨h1, rfl⟩⟩
    · exact ⟨some ⟨0, [c]⟩, h3, Or.inr ⟨c, h1, h2, rfl⟩⟩
  obtain ⟨p', hhead, hrc⟩ := hp'
  have hlen : rest.length < (joinChunks w rest ++ ['\n']).length := by
    have := tail_length rest hr
    rw [hin]
    simp only [List.length_append, List.length_singleton]
    omega
  have hlex : lex blockTerminals (joinChunks w rest ++ ['\n']) =
      some (.word k, l, rc ++ ((rest.map (fun q => q.1 ++ q.2)).flatten ++ ['\n'])) := by
    rw [lex_block_eq_word _ ho (by
      intro t e
      rw [hin, hx] at e
      simp only [List.cons_append, List.cons.injEq] at e
      exact hxn e.1)]
    rw [hin, hd, lex_word_context w d more hdc, hl]
    rfl
  have hne : (joinChunks w rest ++ ['\n']).isEmpty = false := by
    rw [hin, hx]
    rfl
  unfold parse
  rw [parseItems, hne]
  simp only [Bool.false_eq_true, if_false]
  rw [hlex]
  simp only
  rw [parseWords_chunks rest m.tail hr hm2 _ hlen p' rc hrc]
  simp only
  rw [parseItems_nil _ (by omega)]
  simp only [Option.map_some', blocksOf, lineDoc, Option.some.injEq, Document.mk.injEq,
    and_true, List.cons.injEq, Block.Text.injEq, Line.mk.injEq]
  cases m with
  | mk hd tl =>
    simp only at hhead
    simp [hhead]
/-! ## Properties -/

/-- C1 (at the failing input): no derivation of `* Intro {\nsome text\n}\n` holds a
sub-document, since no `{` of it is closed on its line, and the parser gives no
document for it. -/
theorem intro_example_not_sub_document :
    (∀ d, Parses "* Intro \x7b\nsome text\n\x7d\n".toList d → d.allText = true) ∧
    parse "* Intro \x7b\nsome text\n\x7d\n".toList = none :=
  ⟨fun d hd => allText_of_no_brace_span _ d hd (by decide), by decide⟩

/-- C2: the `uuid` token matches exactly `!` followed by a 36-character 8-4-4-4-12
group shape of lowercase hex digits; for such a payload the word `!U` is chosen
as a Uuid with payload `U` (precedence 2, above the plain alternative of
precedence 0 that matches too), and a payload holding an uppercase letter, or
without that shape, is never the payload of a uuid token. -/
theorem uuid_token_exact :
    (∀ s u : Str, uuid.payload? s = some u ↔ s = '!' :: u ∧ UuidShape u) ∧
    (∀ u : Str, UuidShape u →
      u.length = 36 ∧
      classify ('!' :: u) = some ⟨.Uuid, u⟩ ∧
      scanWord ('!' :: u) = some ⟨0, ⟨.Uuid, u⟩, none⟩ ∧
      Kind.token? .Plain ('!' :: u) = some ⟨.Plain, '!' :: u⟩ ∧
      (⟨.Uuid, u⟩ : Token).precedence = 2 ∧ (⟨.Plain, '!' :: u⟩ : Token).precedence = 0) ∧
    (∀ s u : Str, (∃ c ∈ u, isUpper c = true) → uuid.payload? s ≠ some u) ∧
    (∀ s u : Str, ¬ UuidShape u → uuid.payload? s ≠ some u) := by
  refine ⟨uuid_payload?_iff, ?_, ?_, ?_⟩
  · intro u hu
    have hc : classify ('!' :: u) = some ⟨.Uuid, u⟩ :=
      classify_uuid _ u ((uuid_payload?_iff _ u).2 ⟨rfl, hu⟩)
    have hp : trailingPunct ('!' :: u) = none := by
      obtain ⟨t, c, rfl, hx⟩ := UuidShape_last u hu
      rw [← List.cons_append, trailingPunct_append_singleton, isHex_not_isPunct c hx]
      rfl
    refine ⟨UuidShape_length u hu, hc, scanWord_of_no_punct _ _ hp hc, ?_, rfl, rfl⟩
    apply plain_token?
    rw [REGEX_CHUNK, plus_iff]
    refine ⟨by simp, ?_⟩
    intro c hc
    rcases List.mem_cons.1 hc with rfl | hc
    · decide
    · rcases UuidShape_chars u hu c hc with h | rfl
      · exact isHex_isChunkChar c h
      · decide
  · rintro s u ⟨c, hc, hup⟩ h
    have hu := ((uuid_payload?_iff s u).1 h).2
    rcases UuidShape_chars u hu c hc with hx | rfl
    · rw [isUpper_not_isHex c hup] at hx
      cases hx
    · exact absurd hup (by decide)
  · intro s u hn h
    exact hn ((uuid_payload?_iff s u).1 h).2

/-- Witness for C2 at the payload `01234567-89ab-cdef-0123-456789abcdef`. -/
theorem uuid_token_exact_witness :
    classify "!01234567-89ab-cdef-0123-456789abcdef".toList =
        some ⟨.Uuid, "01234567-89ab-cdef-0123-456789abcdef".toList⟩ ∧
    scanWord "!01234567-89ab-cdef-0123-456789abcdef".toList =
        some ⟨0, ⟨.Uuid, "01234567-89ab-cdef-0123-456789abcdef".toList⟩, none⟩ ∧
    uuid.payload? "!01234567-89AB-cdef-0123-456789abcdef".toList ≠
        some "01234567-89AB-cdef-0123-456789abcdef".toList :=
  have h := uuid_token_exact.2.1 "01234567-89ab-cdef-0123-456789abcdef".toList
    ((REGEX_UUID_iff _).1 (by decide))
  ⟨h.2.1, h.2.2.1, uuid_token_exact.2.2.1 _ _ ⟨'A', by decide, by decide⟩⟩

/-- C3: for an alias payload `A`, the text `!!A` matches the `alias` token with
payload `A` and matches neither the `uuid` nor the `ref` token; the word chosen
for it is the single Alias, and every match of the `word` rule against `!!A` is
one token covering the whole text (no extras, no punctuation split off), an
Alias or a plain word, never a Ref or a Uuid. -/
theorem alias_token_single (a : Str) (h : REGEX_ALIAS a = true) :
    «alias».payload? ('!' :: '!' :: a) = some a ∧
    uuid.payload? ('!' :: '!' :: a) = none ∧
    ref.payload? ('!' :: '!' :: a) = none ∧
    classify ('!' :: '!' :: a) = some ⟨.Alias, a⟩ ∧
    scanWord ('!' :: '!' :: a) = some ⟨0, ⟨.Alias, a⟩, none⟩ ∧
    (∀ w : Word, word w = true → w.src = '!' :: '!' :: a →
      w = ⟨0, ⟨.Alias, a⟩, none⟩ ∨ w = ⟨0, ⟨.Plain, '!' :: '!' :: a⟩, none⟩) := by
  obtain ⟨h1, h2, h3, -, -, -⟩ := alias_text_tokens a h
  obtain ⟨-, hcr, htp⟩ := alias_text_chars a h
  refine ⟨?_, (token?_eq_none_iff _ _).1 h1, (token?_eq_none_iff _ _).1 h3, classify_alias a h,
    scanWord_of_no_punct _ _ htp (classify_alias a h), ?_⟩
  · rw [payload?_eq_some_iff]
    exact ⟨rfl, h⟩
  · intro w hw hs
    have hok := (word_inv w hw).1
    rcases word_src_inv w _ hw hs hcr with ⟨he, ht⟩ | ⟨c, -, hc, ht⟩
    · rcases token_of_alias_text a h w.tok ht hok with e | e
      · left; rw [he, e]
      · right; rw [he, e]
    · exfalso
      rw [← ht, trailingPunct_append_singleton, hc] at htp
      cases htp

/-- Witness for C3 at the alias `my-alias`. -/
theorem alias_token_single_witness :
    «alias».payload? "!!my-alias".toList = some "my-alias".toList ∧
    ref.payload? "!!my-alias".toList = none ∧
    scanWord "!!my-alias".toList = some ⟨0, ⟨.Alias, "my-alias".toList⟩, none⟩ :=
  have h := alias_token_single "my-alias".toList (by decide)
  ⟨h.1, h.2.2.1, h.2.2.2.2.1⟩

/-- C4 (counterexample): the chunks `*` and `x` separated by one space give the
input `* x` followed by a newline; it begins with `* `, so the lexer takes the
literal `'* '`, longer than the word `*`, a sub-document is opened, and the
parser gives no document: the input is not parsed as a line of two words. -/
theorem opener_chunk_not_a_line :
    REGEX_CHUNK ['*'] = true ∧ SPACE_TAB [' '] = true ∧ REGEX_CHUNK ['x'] = true ∧
    joinChunks ['*'] [([' '], ['x'])] ++ ['\n'] = "* x\n".toList ∧
    lex blockTerminals "* x\n".toList = some (.star, ⟨0, ['*', ' ']⟩, "x\n".toList) ∧
    parse "* x\n".toList = none :=
  ⟨by decide, by decide, by decide, by decide, by decide, by decide⟩

/-- C4 (amended): for a first chunk and any list of (separator, chunk) pairs, with
chunks non-empty and free of space, tab and newline and separators non-empty
runs of spaces and tabs, when the lexer reads every chunk as one word covering
the whole chunk and the input does not begin with `* ` (carriage returns
aside), the input made of them followed by one newline is parsed as one text
block holding one line whose words are the words read from the chunks, in
order, each covering its chunk; the separators of the line are the given runs,
and they are not among the words. -/
theorem line_of_chunks (w : Str) (rest : List (Str × Str)) (m : ManySep Word)
    (hw : REGEX_CHUNK w = true)
    (hr : ∀ p ∈ rest, SPACE_TAB p.1 = true ∧ REGEX_CHUNK p.2 = true)
    (hm : lexChunks w rest = some m)
    (ho : opensAfterExtras (joinChunks w rest ++ ['\n']) = false) :
    parse (joinChunks w rest ++ ['\n']) = some ⟨[.Text [⟨some m, ⟨0, ['\n']⟩⟩]], 0⟩ ∧
    (Line.wordList ⟨some m, ⟨0, ['\n']⟩⟩).map Word.src = w :: rest.map Prod.snd ∧
    (Line.wordList ⟨some m, ⟨0, ['\n']⟩⟩).map some = (w :: rest.map Prod.snd).map lexWord ∧
    Line.seps ⟨some m, ⟨0, ['\n']⟩⟩ = rest.map (fun p => ⟨0, p.1⟩) := by
  obtain ⟨h1, h2⟩ := lexChunks_inv w rest m hm
  obtain ⟨h3, h4⟩ := lexTail_spec rest m.tail h2
  refine ⟨parse_chunks w rest m hw hr hm ho, ?_, ?_, ?_⟩
  · simp only [Line.wordList, ManySep.elems, List.map_cons, List.map_map, List.cons.injEq]
    exact ⟨lexWord_src w m.head h1, h3⟩
  · simp only [Line.wordList, ManySep.elems, List.map_cons, List.map_map, List.cons.injEq]
    exact ⟨h1.symm, lexTail_words rest m.tail h2⟩
  · simp only [Line.seps, ManySep.seps]
    exact h4

/-- Witness for C4 (amended): `hello #world` followed by a newline gives the two
words Plain `hello` and Tag `world`. -/
theorem line_of_chunks_witness :
    parse "hello #world\n".toList =
      some ⟨[.Text [⟨some ⟨⟨0, ⟨.Plain, "hello".toList⟩, none⟩,
        [(⟨0, [' ']⟩, ⟨0, ⟨.Tag, "world".toList⟩, none⟩)]⟩, ⟨0, ['\n']⟩⟩]], 0⟩ ∧
    [lexWord "hello".toList, lexWord "#world".toList] =
      [some ⟨0, ⟨.Plain, "hello".toList⟩, none⟩, some ⟨0, ⟨.Tag, "world".toList⟩, none⟩] :=
  have h := line_of_chunks "hello".toList [([' '], "#world".toList)]
    ⟨⟨0, ⟨.Plain, "hello".toList⟩, none⟩, [(⟨0, [' ']⟩, ⟨0, ⟨.Tag, "world".toList⟩, none⟩)]⟩
    (by decide) (by decide) (by decide) (by decide)
  ⟨h.1, by decide⟩

/-- C5 (at the failing input): the chunk `#foo.bar` matches no prefixed token, and
has no trailing punctuation character to set apart, so the `word` rule accepts
the whole of it as a plain word only; but where a word starts the lexer takes
the tag `#foo`, whose precedence 1 is above that of the longer plain word, and
then the punctuation `.`; `bar` is left over, and the parser gives no document
for `#foo.bar` followed by a newline. -/
theorem malformed_tag_fails :
    REGEX_CHUNK "#foo.bar".toList = true ∧
    prefixedKinds.all (fun k => (k.token? "#foo.bar".toList).isNone) = true ∧
    trailingPunct "#foo.bar".toList = none ∧
    word ⟨0, ⟨.Plain, "#foo.bar".toList⟩, none⟩ = true ∧
    lex wordTerminals "#foo.bar\n".toList =
      some (.word .Tag, ⟨0, "#foo".toList⟩, ".bar\n".toList) ∧
    lex [.REGEX_PUNCTUATION, .SPACE_TAB, .NL] ".bar\n".toList =
      some (.REGEX_PUNCTUATION, ⟨0, ['.']⟩, "bar\n".toList) ∧
    lex [.SPACE_TAB, .NL] "bar\n".toList = none ∧
    parse "#foo.bar\n".toList = none :=
  ⟨by decide, by decide, by decide, by decide, by decide, by decide, by decide, by decide⟩

/-- C6: when a line of the input begins with `* ` and holds a later `{` after which
no `}` occurs in the input, the parser gives no document, whatever the fuel. -/
theorem unclosed_opener_fails (input : Str) (h : hasUnclosedOpener input = true) :
    parse input = none ∧ ∀ fuel, parseItems fuel input = none := by
  have hf := parseItems_unclosed input h
  refine ⟨?_, hf⟩
  unfold parse
  rw [hf]
  rfl

/-- Witness for C6 at `* Open {\nunterminated\n`. -/
theorem unclosed_opener_fails_witness :
    hasUnclosedOpener "* Open \x7b\nunterminated\n".toList = true ∧
    parse "* Open \x7b\nunterminated\n".toList = none :=
  ⟨by decide, (unclosed_opener_fails "* Open \x7b\nunterminated\n".toList (by decide)).1⟩

/-- C7 (counterexample): no line of the input `\r* !!a{}` begins with `* `, and yet
the parser reads it as a sub-document, the carriage return being skipped in
front of the opener. -/
theorem cr_before_opener :
    (lineStarts "\r* !!a\x7b\x7d".toList).all (fun t => !startsWithOpener t) = true ∧
    parse "\r* !!a\x7b\x7d".toList = some crOpener ∧
    Parses "\r* !!a\x7b\x7d".toList crOpener ∧ crOpener.allText = false :=
  ⟨by decide, by decide, by decide, by decide⟩

/-- C7 (amended): when no line of the input begins with `* ` once its leading
carriage returns are dropped, no derivation of the input holds a sub-document:
all its blocks are text. -/
theorem no_opener_all_text (input : Str) (d : Document)
    (h : (lineStarts input).all (fun t => !opensAfterExtras t) = true)
    (hd : Parses input d) : d.allText = true :=
  allText_of_no_opener input d hd h

/-- Witness for C7 (amended) at `*x {}\nhello #world\n`, which the parser reads as
two lines of text. -/
theorem no_opener_all_text_witness :
    (lineStarts "*x \x7b\x7d\nhello #world\n".toList).all (fun t => !opensAfterExtras t) = true ∧
    parse "*x \x7b\x7d\nhello #world\n".toList =
      some ⟨[.Text [chunkLine "*x".toList [([' '], "\x7b\x7d".toList)],
        chunkLine "hello".toList [([' '], "#world".toList)]]], 0⟩ ∧
    (⟨[.Text [chunkLine "*x".toList [([' '], "\x7b\x7d".toList)],
        chunkLine "hello".toList [([' '], "#world".toList)]]], 0⟩ : Document).allText = true :=
  ⟨by decide, by decide,
    no_opener_all_text "*x \x7b\x7d\nhello #world\n".toList _ (by decide) (by decide)⟩

/-- C8: for an alias payload `A` and a punctuation character `p`, the input `!!A`
followed by `p` and a newline is derived as one line of exactly one word, the
Alias with payload `A` carrying the punctuation `p`; that word is the one chosen
by lexical precedence, and every derivation of the input is one text block of
one line of one word covering `!!Ap`, which is that Alias word or a plain
word: `p` is never a word of its own and never part of an Alias payload. -/
theorem alias_with_punctuation (a : Str) (p : Char) (ha : REGEX_ALIAS a = true)
    (hp : isPunct p = true) :
    Parses ('!' :: '!' :: (a ++ [p]) ++ ['\n'])
      (oneWordDoc ⟨0, ⟨.Alias, a⟩, some ⟨0, [p]⟩⟩) ∧
    scanWord ('!' :: '!' :: (a ++ [p])) = some ⟨0, ⟨.Alias, a⟩, some ⟨0, [p]⟩⟩ ∧
    (∀ d, Parses ('!' :: '!' :: (a ++ [p]) ++ ['\n']) d →
      ∃ w, d = oneWordDoc w ∧ w.src = '!' :: '!' :: (a ++ [p]) ∧
        (w = ⟨0, ⟨.Alias, a⟩, some ⟨0, [p]⟩⟩ ∨ w.tok.kind = .Plain)) := by
  obtain ⟨hchunk, hcr, hnone⟩ := alias_punct_text a p ha hp
  have hword : word ⟨0, ⟨.Alias, a⟩, some ⟨0, [p]⟩⟩ = true := by
    simp only [word, optional, pat, REGEX_PUNCTUATION, Bool.and_eq_true]
    exact ⟨ha, hp⟩
  have hsrc : (⟨0, ⟨.Alias, a⟩, some ⟨0, [p]⟩⟩ : Word).src = '!' :: '!' :: (a ++ [p]) := by
    simp [Word.src, extras, optSrc, Lexeme.src, Token.text, Kind.rule, «alias», prefix_token]
  refine ⟨?_, ?_, ?_⟩
  · have := oneWordDoc_parses _ hword
    rwa [hsrc] at this
  · have h1 : trailingPunct ('!' :: '!' :: (a ++ [p])) = some p := by
      rw [← List.cons_append, ← List.cons_append, trailingPunct_append_singleton, hp]
      rfl
    have h2 : classify ('!' :: '!' :: (a ++ [p])) = some ⟨.Plain, '!' :: '!' :: (a ++ [p])⟩ :=
      classify_only_plain _ hchunk hnone
    have h3 : classify ('!' :: '!' :: (a ++ [p])).dropLast = some ⟨.Alias, a⟩ := by
      rw [← List.cons_append, ← List.cons_append, dropLast_append_singleton]
      exact classify_alias a ha
    have e1 : (⟨.Plain, '!' :: '!' :: (a ++ [p])⟩ : Token).precedence = 0 := rfl
    have e2 : (⟨.Alias, a⟩ : Token).precedence = 1 := rfl
    unfold scanWord
    simp only [h1, h2, h3, Option.map_some', e1, e2]
    rfl
  · intro d hd
    obtain ⟨w, rfl, hww, hws⟩ := single_chunk_parse _ hchunk hcr d hd
    refine ⟨w, rfl, hws, ?_⟩
    have hok := (word_inv w hww).1
    rcases word_src_inv w _ hww hws hcr with ⟨-, ht⟩ | ⟨c, he, -, ht⟩
    · right
      by_contra hk
      have h1 := hnone w.tok.kind hk
      rw [(token?_eq_some_iff _ _ _).2 ⟨rfl, ht, hok⟩] at h1
      cases h1
    · rw [← List.cons_append, ← List.cons_append] at ht
      obtain ⟨ht1, ht2⟩ := List.append_inj' ht rfl
      simp only [List.cons.injEq, and_true] at ht2
      subst ht2
      rcases token_of_alias_text a ha w.tok ht1 hok with e | e
      · left
        rw [he, e]
      · right
        rw [e]

/-- Witness for C8: `!!my-alias.` followed by a newline. -/
theorem alias_with_punctuation_witness :
    Parses "!!my-alias.\n".toList
      (oneWordDoc ⟨0, ⟨.Alias, "my-alias".toList⟩, some ⟨0, ['.']⟩⟩) ∧
    scanWord "!!my-alias.".toList = some ⟨0, ⟨.Alias, "my-alias".toList⟩, some ⟨0, ['.']⟩⟩ :=
  have h := alias_with_punctuation "my-alias".toList '.' (by decide) (by decide)
  ⟨h.1, h.2.1⟩

/-- C9 (counterexample): `* !!a\n!!b{}` is derived as a sub-document whose title
is the two aliases `a` and `b` separated by a newline. -/
theorem title_spans_two_lines :
    Parses "* !!a\n!!b\x7b\x7d".toList ⟨[.SubDocument twoLineTitle], 0⟩ ∧
    twoLineTitle.titleSeps.map Lexeme.text = [['\n']] ∧
    '\n' ∈ wordsSrc twoLineTitle.title ∧
    twoLineTitle.titleWords.map some = [scanWord "!!a".toList, scanWord "!!b".toList] :=
  ⟨by decide, by decide, by decide, by decide⟩

/-- C9 (amended): in every parsed sub-document, the words of the title cover no
line break (nor space or tab), and the separators between them are non-empty
runs of the whitespace characters tab, newline, vertical tab, form feed,
carriage return and space, so that only a separator can hold a line break. -/
theorem title_words_and_separators (input : Str) (d : Document) (hd : Parses input d)
    (s : SubDocument) (hs : Block.SubDocument s ∈ d.blocks) :
    (∀ w ∈ s.titleWords, '\n' ∉ w.src ∧ ' ' ∉ w.src ∧ '\t' ∉ w.src) ∧
    (∀ l ∈ s.titleSeps, l.text ≠ [] ∧ ∀ c ∈ l.text, isSpace c = true) := by
  have hsd : sub_document s = true := papier_inv d hd.1 _ hs
  constructor
  · intro w hw
    have hc := (word_src_chars w (title_words_valid s hsd w hw)).2
    exact ⟨fun hm => ((isChunkChar_iff _).1 (hc _ hm)).2.2 rfl,
      fun hm => ((isChunkChar_iff _).1 (hc _ hm)).1 rfl,
      fun hm => ((isChunkChar_iff _).1 (hc _ hm)).2.1 rfl⟩
  · intro l hl
    exact (plus_iff _ _).1 (title_seps_valid s hsd l hl)

/-- Witness for C9 (amended) at `* !!a\n!!b{}`. -/
theorem title_words_and_separators_witness :
    (∀ w ∈ twoLineTitle.titleWords, '\n' ∉ w.src ∧ ' ' ∉ w.src ∧ '\t' ∉ w.src) ∧
    (∀ l ∈ twoLineTitle.titleSeps, l.text ≠ [] ∧ ∀ c ∈ l.text, isSpace c = true) :=
  title_words_and_separators "* !!a\n!!b\x7b\x7d".toList ⟨[.SubDocument twoLineTitle], 0⟩
    (by decide) twoLineTitle (by decide)

/-- C10 (counterexample): `a\rb` followed by a newline is derived as one plain
word whose payload holds the carriage return (it is also the word chosen for
that chunk), and `* !!a\r!!b{}` is derived as a sub-document whose two title
words are separated by one carriage return alone. -/
theorem cr_in_payload_and_separator :
    Parses "a\rb\n".toList (oneWordDoc ⟨0, ⟨.Plain, "a\rb".toList⟩, none⟩) ∧
    scanWord "a\rb".toList = some ⟨0, ⟨.Plain, "a\rb".toList⟩, none⟩ ∧
    '\r' ∈ "a\rb".toList ∧
    Parses "* !!a\r!!b\x7b\x7d".toList ⟨[.SubDocument crTitle], 0⟩ ∧
    crTitle.titleSeps = [⟨0, ['\r']⟩] ∧
    crTitle.titleWords = [⟨0, ⟨.Alias, ['a']⟩, none⟩, ⟨0, ⟨.Alias, ['b']⟩, none⟩] :=
  ⟨by decide, by decide, by decide, by decide, by decide, by decide⟩

/-- C10 (amended): in every parsed input, no Uuid, Alias, Tag or Fmt payload holds
a carriage return, and no separator between two words of a line holds one. -/
theorem cr_outside_restricted_tokens (input : Str) (d : Document) (hd : Parses input d) :
    (∀ w ∈ d.words, w.tok.kind.restricted = true → '\r' ∉ w.tok.payload) ∧
    (∀ l ∈ d.lineSeps, '\r' ∉ l.text) := by
  constructor
  · intro w hw hk
    exact restricted_payload_no_cr w.tok (word_inv w (document_words_valid d hd.1 w hw)).1 hk
  · intro l hl hm
    have := (SPACE_TAB_chars _ (document_lineSeps_valid d hd.1 l hl)).2 _ hm
    exact absurd this (by decide)

/-- Witness for C10 (amended) at `!!my-alias #tag\n`. -/
theorem cr_outside_restricted_tokens_witness :
    (∀ w ∈ (lineDoc (some (chosenWords "!!my-alias".toList [([' '], "#tag".toList)]))).words,
      w.tok.kind.restricted = true → '\r' ∉ w.tok.payload) ∧
    (∀ l ∈ (lineDoc (some (chosenWords "!!my-alias".toList [([' '], "#tag".toList)]))).lineSeps,
      '\r' ∉ l.text) :=
  cr_outside_restricted_tokens "!!my-alias #tag\n".toList
    (lineDoc (some (chosenWords "!!my-alias".toList [([' '], "#tag".toList)]))) (by decide)

/-- C11 (counterexample): the parser reads `\r* !!a{}` as one sub-document block
whose opener stands at offset 1, after a skipped carriage return: the text in
front of the opener is neither empty nor ended by a newline. -/
theorem opener_after_carriage_return :
    parse "\r* !!a\x7b\x7d".toList = some crOpener ∧
    crOpener.blocks = [] ++ Block.SubDocument (aliasSub 1) :: [] ∧
    "\r* !!a\x7b\x7d".toList =
      ((([] : List Block).map Block.src).flatten ++ extras (aliasSub 1).star.pre) ++
        '*' :: ' ' :: "!!a\x7b\x7d".toList ∧
    (([] : List Block).map Block.src).flatten ++ extras (aliasSub 1).star.pre = ['\r'] ∧
    atLineStart ((([] : List Block).map Block.src).flatten ++ extras (aliasSub 1).star.pre) =
      false :=
  ⟨by decide, by decide, by decide, by decide, by decide⟩

/-- C11 (amended): in every document built by the parser, the `* ` opener of a
sub-document block comes after the blocks in front of it and the carriage
returns skipped in front of the opener, and the text of the blocks in front is
empty or ends in a newline: but for skipped carriage returns, a sub-document
begins at the start of a line. -/
theorem sub_document_start (input : Str) (d : Document) (hd : parse input = some d)
    (pre post : List Block) (s : SubDocument)
    (hb : d.blocks = pre ++ Block.SubDocument s :: post) :
    (∃ r, input = ((pre.map Block.src).flatten ++ extras s.star.pre) ++ '*' :: ' ' :: r) ∧
    atLineStart (pre.map Block.src).flatten = true := by
  obtain ⟨hp, hsrc⟩ := parse_sound input d hd
  have hv := papier_inv d hp
  rw [hb] at hv
  constructor
  · obtain ⟨he, -⟩ := sub_document_src s (hv (Block.SubDocument s) (by simp))
    refine ⟨((wordsSrc s.title ++ extras s.lbrace.pre) ++
      '{' :: ((contentsSrc s.contents ++ extras s.rbrace.pre) ++ '}' :: optSrc s.nl)) ++
      ((post.map Block.src).flatten ++ extras d.trail), ?_⟩
    rw [← hsrc, Document.src, hb]
    simp [Block.src, he]
  · obtain ⟨items, hi, rfl⟩ := parse_items input d hd
    rcases blocksOf_before_sub input items hi pre post s hb with rfl | ⟨pre', ls, rfl⟩
    · rfl
    · have ht : block (Block.Text ls) = true := hv _ (by simp)
      rcases block_src_last _ ht with ⟨x, hx⟩ | ⟨x, s', hs', -, -⟩
      · rw [atLineStart_iff]
        right
        refine ⟨(pre'.map Block.src).flatten ++ x, ?_⟩
        simp [hx]
      · cases hs'

/-- Witness for C11 (amended) at `hello\n* !!a{}`: the sub-document follows a text
block and starts a line. -/
theorem sub_document_start_witness :
    parse "hello\n* !!a\x7b\x7d".toList = some textThenSub ∧
    (∃ r, "hello\n* !!a\x7b\x7d".toList =
      (([Block.Text [chunkLine "hello".toList []]].map Block.src).flatten ++
        extras (aliasSub 0).star.pre) ++ '*' :: ' ' :: r) ∧
    atLineStart ([Block.Text [chunkLine "hello".toList []]].map Block.src).flatten = true :=
  ⟨by decide,
    sub_document_start "hello\n* !!a\x7b\x7d".toList textThenSub (by decide)
      [Block.Text [chunkLine "hello".toList []]] [] (aliasSub 0) (by decide)⟩

/-- C12 (at the failing input): after `* ` the lexer reads `{*` as a word of the
title (longer than the literal `'{'`), and the parser gives no document for
`* {* {}}\n`; in every document the parser builds, a sub-document is a block
of the document and has no contents at all, since inside the braces a
`REGEX_LINE` match takes the closing `}` with it. -/
theorem nested_example_fails :
    lex titleTerminals "\x7b* \x7b\x7d\x7d\n".toList =
      some (.word .Plain, ⟨0, "\x7b*".toList⟩, " \x7b\x7d\x7d\n".toList) ∧
    parse "* \x7b* \x7b\x7d\x7d\n".toList = none ∧
    lex [.REGEX_LINE, .rbrace] "x\x7d\n".toList =
      some (.REGEX_LINE, ⟨0, "x\x7d".toList⟩, ['\n']) ∧
    parse "* !!a\x7bx\x7d\n".toList = none ∧
    (∀ (input : Str) (d : Document), parse input = some d →
      ∀ s ∈ d.subDocuments, Block.SubDocument s ∈ d.blocks ∧ s.contents = none ∧
        s.contentLines = []) := by
  refine ⟨by decide, by decide, by decide, by decide, ?_⟩
  intro input d hd s hs
  have hm := mem_subDocuments d s hs
  have hc := (parse_sub_document input d hd s hm).1
  exact ⟨hm, hc, by simp [SubDocument.contentLines, hc]⟩

/-- C13: every match of the `line` rule is its words (with their separators and
skipped carriage returns) followed by one newline, which is its last character
and its only newline; the single newline is a line of zero words; a text that
does not end in a newline, such as `hello`, is not a line, is not a text block,
and is not derived at all. -/
theorem line_ends_with_one_newline :
    (∀ l : Line, line l = true →
      l.src = (wordsSrc l.words ++ extras l.nl.pre) ++ ['\n'] ∧
      '\n' ∉ wordsSrc l.words ++ extras l.nl.pre ∧
      l.src.count '\n' = 1 ∧ l.src.getLast? = some '\n' ∧
      (∀ w ∈ l.wordList, word w = true)) ∧
    (line blankLine = true ∧ blankLine.src = ['\n'] ∧ blankLine.wordList = []) ∧
    (∀ l : Line, line l = true → l.src ≠ "hello".toList) ∧
    (∀ ls : List Line, text ls = true → (Block.Text ls).src ≠ "hello".toList) ∧
    (∀ d : Document, ¬ Parses "hello".toList d) := by
  have hline : ∀ l : Line, line l = true →
      l.src = (wordsSrc l.words ++ extras l.nl.pre) ++ ['\n'] ∧
      '\n' ∉ wordsSrc l.words ++ extras l.nl.pre := by
    intro l hl
    obtain ⟨hw, hn⟩ := line_inv l hl
    refine ⟨by simp [Line.src, Lexeme.src, hn], ?_⟩
    intro hm
    rcases List.mem_append.1 hm with hm | hm
    · exact line_words_no_nl _ hw hm
    · exact absurd (mem_extras _ _ hm) (by decide)
  refine ⟨?_, ⟨by decide, by decide, by decide⟩, ?_, ?_, ?_⟩
  · intro l hl
    obtain ⟨h1, h2⟩ := hline l hl
    refine ⟨h1, h2, ?_, ?_, line_words_valid l hl⟩
    · rw [h1, List.count_append, List.count_eq_zero_of_not_mem h2]
      rfl
    · rw [h1]
      simp
  · intro l hl he
    have h1 := (hline l hl).1
    rw [he] at h1
    have := congrArg List.getLast? h1
    simp at this
  · intro ls hls he
    rcases block_src_last (Block.Text ls) hls with ⟨x, hx⟩ | ⟨x, s, hs, -, -⟩
    · rw [he] at hx
      have := congrArg List.getLast? hx
      simp at this
    · cases hs
  · intro d hd
    rcases parsed_input_last _ d hd with e | ⟨x, c, e, hc⟩
    · exact absurd e (by decide)
    · have h2 : "hello".toList = "hell".toList ++ ['o'] := by decide
      rw [h2] at e
      have := (List.append_inj' e rfl).2
      simp only [List.cons.injEq, and_true] at this
      subst this
      rcases hc with h | h | h <;> exact absurd h (by decide)

/-- Witness for C13 at the line `hello #world` with its newline. -/
theorem line_ends_with_one_newline_witness :
    (chunkLine "hello".toList [([' '], "#world".toList)]).src = "hello #world\n".toList ∧
    (chunkLine "hello".toList [([' '], "#world".toList)]).src.count '\n' = 1 ∧
    (chunkLine "hello".toList [([' '], "#world".toList)]).src.getLast? = some '\n' :=
  have h := line_ends_with_one_newline.1 (chunkLine "hello".toList [([' '], "#world".toList)])
    (by decide)
  ⟨by decide, h.2.2.1, h.2.2.2.1⟩

/-- C14 (counterexample): `#` followed by the Kelvin sign U+212A, or by the long s
U+017F, is a tag, although these characters are outside `[a-zA-Z0-9]`: under
the flag `(?i)` they match `k` and `s`. -/
theorem tag_accepts_folded_letters :
    isAlnum '\u212a' = false ∧ isAlnum '\u017f' = false ∧
    tag.payload? ['#', '\u212a'] = some ['\u212a'] ∧
    tag.payload? ['#', '\u017f'] = some ['\u017f'] ∧
    tagPatternExact (['\u212a'].map Char.toLower) = false ∧
    foldCase '\u212a' = 'k' ∧ foldCase '\u017f' = 's' :=
  ⟨by decide, by decide, by decide, by decide, by decide, by decide, by decide⟩

/-- C14 (amended): the `tag` token matches `#` followed by a payload exactly when the
case-folded payload matches `[a-z0-9][-_a-z0-9]*` as written, that is exactly
when the payload is in `[a-zA-Z0-9][-_a-zA-Z0-9]*` with U+017F and U+212A added
to both classes; a payload that differs from an accepted one only by the case
of its letters is accepted too (`#world`, `#World`, `#WORLD`), and `#` followed
by a first character outside `[a-zA-Z0-9]` other than those two, or by
nothing, is not a tag. -/
theorem tag_token_case_insensitive :
    (∀ s p : Str, tag.payload? s = some p ↔
      s = '#' :: p ∧ tagPatternExact (p.map foldCase) = true) ∧
    (∀ s p : Str, tag.payload? s = some p ↔ s = '#' :: p ∧ FoldedTagShape p) ∧
    (∀ p q : Str, tag.payload? ('#' :: p) = some p →
      q.map Char.toLower = p.map Char.toLower → tag.payload? ('#' :: q) = some q) ∧
    (tag.payload? "#world".toList = some "world".toList ∧
      tag.payload? "#World".toList = some "World".toList ∧
      tag.payload? "#WORLD".toList = some "WORLD".toList) ∧
    (∀ (c : Char) (cs p : Str), isAlnum c = false → c ≠ '\u017f' → c ≠ '\u212a' →
      tag.payload? ('#' :: c :: cs) ≠ some p) ∧
    tag.payload? ['#'] = none := by
  refine ⟨?_, ?_, ?_, ⟨by decide, by decide, by decide⟩, ?_, by decide⟩
  · intro s p
    rw [tag_payload?_iff, REGEX_TAG_iff_fold]
  · intro s p
    rw [tag_payload?_iff, REGEX_TAG_iff_shape]
  · intro p q hp hq
    have h1 := ((tag_payload?_iff _ p).1 hp).2
    rw [REGEX_TAG_iff_fold, ← foldCase_of_toLower p q hq, ← REGEX_TAG_iff_fold] at h1
    exact (tag_payload?_iff _ q).2 ⟨rfl, h1⟩
  · intro c cs p hc h1 h2 h
    obtain ⟨he, hr⟩ := (tag_payload?_iff _ p).1 h
    simp only [List.cons.injEq, true_and] at he
    subst he
    obtain ⟨c', cs', he, h3, -⟩ := (REGEX_TAG_iff_shape _).1 hr
    simp only [List.cons.injEq] at he
    rw [← he.1] at h3
    rcases h3 with h3 | h3 | h3
    · rw [hc] at h3
      cases h3
    · exact h1 h3
    · exact h2 h3

/-- Witness for C14 (amended): `#My-Tag_2` is a tag because `#my-tag_2` is one. -/
theorem tag_token_case_insensitive_witness :
    tag.payload? "#My-Tag_2".toList = some "My-Tag_2".toList ∧
    (∀ p : Str, tag.payload? "#-tag".toList ≠ some p) :=
  ⟨tag_token_case_insensitive.2.2.1 "my-tag_2".toList "My-Tag_2".toList (by decide) (by decide),
    fun p => tag_token_case_insensitive.2.2.2.2.1 '-' "tag".toList p (by decide) (by decide)
      (by decide)⟩

/-- C15 (counterexample): the parser reads `#a\r\n` as one line holding the tag `a`,
a document without plain word; the carriage return is skipped in front of the
newline and belongs to no leaf, so the spans of the leaves give `#a\n`, not the
input. -/
theorem skipped_carriage_return_lost :
    parse "#a\r\n".toList = some crLine ∧ crLine.noFallback = true ∧
    crLine.spans = [['#', 'a'], ['\n']] ∧
    crLine.spans.flatten ≠ "#a\r\n".toList :=
  ⟨by decide, by decide, by decide, by decide⟩

/-- C15 (amended): for every input and the document the parser builds for it, with
or without plain fallback words, the spans of the leaves of the tree (tokens,
punctuation, separators, braces, newlines), concatenated in source order, are
the input with the skipped carriage returns left out: they form a subsequence
of the input that has the same characters other than carriage returns; for an
input without carriage return they are the input, character for character. -/
theorem round_trip (input : Str) (d : Document) (hd : parse input = some d) :
    List.Sublist d.spans.flatten input ∧
    d.spans.flatten.filter (· != '\r') = input.filter (· != '\r') ∧
    ('\r' ∉ input → d.spans.flatten = input) := by
  have h := document_spans d
  rw [(parse_sound input d hd).2] at h
  exact ⟨h.1, h.2, fun hn => h.eq hn⟩

/-- Witness for C15 (amended) at `* !!a\n!!b{}`, a document without plain word. -/
theorem round_trip_witness :
    parse "* !!a\n!!b\x7b\x7d".toList = some ⟨[.SubDocument twoLineTitle], 0⟩ ∧
    (⟨[.SubDocument twoLineTitle], 0⟩ : Document).noFallback = true ∧
    (⟨[.SubDocument twoLineTitle], 0⟩ : Document).spans =
      [['*', ' '], ['!', '!', 'a'], ['\n'], ['!', '!', 'b'], ['{'], ['}']] ∧
    (⟨[.SubDocument twoLineTitle], 0⟩ : Document).spans.flatten =
      "* !!a\n!!b\x7b\x7d".toList :=
  ⟨by decide, by decide, by decide,
    (round_trip "* !!a\n!!b\x7b\x7d".toList ⟨[.SubDocument twoLineTitle], 0⟩ (by decide)).2.2
      (by decide)⟩

/-- C16 (counterexample): `* !!a.{}` is derived as a sub-document whose title word
is the alias `a` with the trailing punctuation `.`, the word chosen for `!!a.`;
the punctuation is followed at once by `{`, which is neither whitespace nor a
line end. -/
theorem punctuation_before_brace :
    Parses "* !!a.\x7b\x7d".toList ⟨[.SubDocument punctTitle], 0⟩ ∧
    punctTitle.titleWithRest = [(⟨0, ⟨.Alias, ['a']⟩, some ⟨0, ['.']⟩⟩, ['{', '}'])] ∧
    scanWord "!!a.".toList = some ⟨0, ⟨.Alias, ['a']⟩, some ⟨0, ['.']⟩⟩ ∧
    isSpace '{' = false :=
  ⟨by decide, by decide, by decide, by decide⟩

/-- C16 (amended): in every parse, every word of a line, with or without trailing
punctuation, is immediately followed in the line by a space, a tab, a carriage
return or the newline, and every word of a sub-document title is immediately
followed by a whitespace character or by the `{` that ends the title. -/
theorem word_followed_by (input : Str) (d : Document) (hd : Parses input d) :
    (∀ ls, Block.Text ls ∈ d.blocks → ∀ l ∈ ls, ∀ q ∈ l.wordsWithRest,
      (∃ a, l.src = a ++ q.1.src ++ q.2) ∧
      ∃ c t, q.2 = c :: t ∧ (c = ' ' ∨ c = '\t' ∨ c = '\r' ∨ c = '\n')) ∧
    (∀ s, Block.SubDocument s ∈ d.blocks → ∀ q ∈ s.titleWithRest,
      (∃ a, s.src = extras s.star.pre ++ '*' :: ' ' :: (a ++ q.1.src ++ q.2)) ∧
      ∃ c t, q.2 = c :: t ∧ (isSpace c = true ∨ c = '{')) := by
  have hv := papier_inv d hd.1
  constructor
  · intro ls hls l hl q hq
    have hline := (text_inv ls (hv _ hls)).2 l hl
    obtain ⟨hw, hn⟩ := line_inv l hline
    refine ⟨followedWords_split l.words l.nl.src q hq, ?_⟩
    refine followedWords_head SPACE_TAB (fun c => c = ' ' ∨ c = '\t' ∨ c = '\r' ∨ c = '\n')
      (Or.inr (Or.inr (Or.inl rfl))) ?_ l.nl.src ?_ l.words hw q hq
    · intro s hs
      obtain ⟨hne, hb⟩ := SPACE_TAB_chars s hs
      refine ⟨hne, fun c hc => ?_⟩
      rcases (isBlank_iff c).1 (hb c hc) with e | e
      · exact Or.inr (Or.inl e)
      · exact Or.inl e
    · obtain ⟨c, t, he, hp⟩ := lexeme_src_head
        (fun c => c = ' ' ∨ c = '\t' ∨ c = '\r' ∨ c = '\n') (Or.inr (Or.inr (Or.inl rfl)))
        l.nl [] (by rw [hn]; simp) (by
          intro c hc
          rw [hn] at hc
          exact Or.inr (Or.inr (Or.inr (List.mem_singleton.1 hc))))
      exact ⟨c, t, by simpa using he, hp⟩
  · intro s hs q hq
    have hsd : sub_document s = true := hv _ hs
    obtain ⟨h1, ht, h3, -, h5, -⟩ := sub_document_inv s hsd
    constructor
    · obtain ⟨a, ha⟩ := followedWords_split s.title _ q hq
      refine ⟨a, ?_⟩
      rw [← ha]
      simp [SubDocument.src, Lexeme.src, h1]
    · refine followedWords_head SPACE (fun c => isSpace c = true ∨ c = '{')
        (Or.inl (by decide)) ?_ _ ?_ s.title ht q hq
      · intro x hx
        obtain ⟨hne, hb⟩ := (plus_iff _ _).1 hx
        exact ⟨hne, fun c hc => Or.inl (hb c hc)⟩
      · exact lexeme_src_head (fun c => isSpace c = true ∨ c = '{') (Or.inl (by decide))
          s.lbrace _ (by rw [h3]; simp) (by
            intro c hc
            rw [h3] at hc
            exact Or.inr (List.mem_singleton.1 hc))

/-- Witness for C16 (amended) at the line `hello, #world.` with its newline. -/
theorem word_followed_by_witness :
    (chunkLine "hello,".toList [([' '], "#world.".toList)]).wordsWithRest =
      [(⟨0, ⟨.Plain, "hello,".toList⟩, none⟩, " #world.\n".toList),
       (⟨0, ⟨.Tag, "world".toList⟩, some ⟨0, ['.']⟩⟩, ['\n'])] ∧
    (∀ q ∈ (chunkLine "hello,".toList [([' '], "#world.".toList)]).wordsWithRest,
      (∃ a, (chunkLine "hello,".toList [([' '], "#world.".toList)]).src = a ++ q.1.src ++ q.2) ∧
      ∃ c t, q.2 = c :: t ∧ (c = ' ' ∨ c = '\t' ∨ c = '\r' ∨ c = '\n')) :=
  ⟨by decide,
    (word_followed_by "hello, #world.\n".toList
      ⟨[.Text [chunkLine "hello,".toList [([' '], "#world.".toList)]]], 0⟩ (by decide)).1
      [chunkLine "hello,".toList [([' '], "#world.".toList)]] (by decide)
      (chunkLine "hello,".toList [([' '], "#world.".toList)]) (by decide)⟩

/-- C17: the five prefixed tokens are pairwise disjoint, and no text of one is a
beginning of a text of another (after `!` a uuid continues with a hex digit, an
alias with `!`, a ref with `?`; a tag begins with `#`, a fmt with `@`); hence at
most one prefixed token matches a given text, and the token chosen is the same
whatever the order in which the alternatives are tried. -/
theorem prefixed_tokens_disjoint :
    (∀ (k1 k2 : Kind) (s : Str), k1 ≠ .Plain → k2 ≠ .Plain →
      k1.accepts s = true → k2.accepts s = true → k1 = k2) ∧
    (∀ (k1 k2 : Kind) (s1 s2 : Str), k1 ≠ .Plain → k2 ≠ .Plain → k1 ≠ k2 →
      k1.accepts s1 = true → k2.accepts s2 = true → s1.isPrefixOf s2 = false) ∧
    (∀ s : Str, Kind.accepts .Uuid s = true → ∃ h r, s = '!' :: h :: r ∧ isHex h = true) ∧
    (∀ s : Str, Kind.accepts .Alias s = true → ∃ r, s = '!' :: '!' :: r) ∧
    (∀ s : Str, Kind.accepts .Ref s = true → ∃ r, s = '!' :: '?' :: r) ∧
    (∀ (alts1 alts2 : List Kind) (s : Str), (∀ k, k ∈ alts1 ↔ k ∈ alts2) →
      classifyIn alts1 s = classifyIn alts2 s) ∧
    (∀ (alts : List Kind) (s : Str), List.Perm alts wordAlternatives →
      classifyIn alts s = classify s) := by
  refine ⟨?_, ?_, ?_, ?_, ?_, classifyIn_order, ?_⟩
  · intro k1 k2 s h1 h2 a1 a2
    obtain ⟨t1, ht1⟩ := (accepts_iff k1 s).1 a1
    obtain ⟨t2, ht2⟩ := (accepts_iff k2 s).1 a2
    by_contra hne
    exact lead_disjoint k1 k2 s h1 h2 hne (lead_of_token k1 s t1 ht1) (lead_of_token k2 s t2 ht2)
  · intro k1 k2 s1 s2 h1 h2 hne a1 a2
    obtain ⟨t1, ht1⟩ := (accepts_iff k1 s1).1 a1
    obtain ⟨t2, ht2⟩ := (accepts_iff k2 s2).1 a2
    cases hp : s1.isPrefixOf s2 with
    | false => rfl
    | true =>
      exfalso
      exact lead_disjoint k1 k2 s2 h1 h2 hne
        (lead_of_extension k1 s1 s2 h1 (lead_of_token k1 s1 t1 ht1) hp)
        (lead_of_token k2 s2 t2 ht2)
  · intro s a
    obtain ⟨t, ht⟩ := (accepts_iff _ s).1 a
    have hl := lead_of_token _ s t ht
    cases s with
    | nil => simp [lead] at hl
    | cons c r =>
      cases r with
      | nil => simp [lead] at hl
      | cons d u =>
        simp only [lead, Bool.and_eq_true, beq_iff_eq] at hl
        exact ⟨d, u, by rw [hl.1], hl.2⟩
  · intro s a
    obtain ⟨t, ht⟩ := (accepts_iff _ s).1 a
    have hl := lead_of_token _ s t ht
    cases s with
    | nil => simp [lead] at hl
    | cons c r =>
      cases r with
      | nil => simp [lead] at hl
      | cons d u =>
        simp only [lead, Bool.and_eq_true, beq_iff_eq] at hl
        exact ⟨u, by rw [hl.1, hl.2]⟩
  · intro s a
    obtain ⟨t, ht⟩ := (accepts_iff _ s).1 a
    have hl := lead_of_token _ s t ht
    cases s with
    | nil => simp [lead] at hl
    | cons c r =>
      cases r with
      | nil => simp [lead] at hl
      | cons d u =>
        simp only [lead, Bool.and_eq_true, beq_iff_eq] at hl
        exact ⟨u, by rw [hl.1, hl.2]⟩
  · intro alts s hp
    exact classifyIn_order alts wordAlternatives s (fun k => hp.mem_iff)

/-- Witness for C17: `!?x` is matched by the ref token only, it does not begin the
alias `!!x`, and trying the alternatives in the reverse order chooses the same
token. -/
theorem prefixed_tokens_disjoint_witness :
    Kind.accepts .Ref "!?x".toList = true ∧ Kind.accepts .Alias "!?x".toList = false ∧
    "!?x".toList.isPrefixOf "!!x".toList = false ∧
    classifyIn [.Plain, .Fmt, .Tag, .Ref, .Alias, .Uuid] "!?x".toList =
      some ⟨.Ref, ['x']⟩ :=
  ⟨by decide, by decide,
    prefixed_tokens_disjoint.2.1 .Ref .Alias "!?x".toList "!!x".toList (by decide) (by decide)
      (by decide) (by decide) (by decide),
    (prefixed_tokens_disjoint.2.2.2.2.2.2 [.Plain, .Fmt, .Tag, .Ref, .Alias, .Uuid]
      "!?x".toList (by decide)).trans (by decide)⟩

/-- C18: a match of the `line` rule does not begin with a space or tab, and the
character in front of its newline is not a space or tab; so a line with a
leading blank, a line with a trailing blank and a line of blanks only are not
matched by the rule. -/
theorem line_no_outer_blanks :
    (∀ l : Line, line l = true →
      (∀ c t, l.src = c :: t → isBlank c = false) ∧
      (∀ b c, l.src = b ++ [c, '\n'] → isBlank c = false)) ∧
    (∀ l : Line, line l = true →
      l.src ≠ " hello\n".toList ∧ l.src ≠ "\thello\n".toList ∧ l.src ≠ "hello \n".toList ∧
      l.src ≠ "hello\t\n".toList ∧ l.src ≠ " \t \n".toList ∧ l.src ≠ " \n".toList) := by
  refine ⟨fun l hl => ⟨line_first_char l hl, line_char_before_nl l hl⟩, ?_⟩
  intro l hl
  refine ⟨?_, ?_, ?_, ?_, ?_, ?_⟩
  · intro he
    exact absurd (line_first_char l hl ' ' _ he) (by decide)
  · intro he
    exact absurd (line_first_char l hl '\t' _ he) (by decide)
  · intro he
    exact absurd (line_char_before_nl l hl "hello".toList ' ' he) (by decide)
  · intro he
    exact absurd (line_char_before_nl l hl "hello".toList '\t' he) (by decide)
  · intro he
    exact absurd (line_first_char l hl ' ' _ he) (by decide)
  · intro he
    exact absurd (line_first_char l hl ' ' _ he) (by decide)

/-- Witness for C18 at the line `hello #world` with its newline. -/
theorem line_no_outer_blanks_witness :
    isBlank 'h' = false ∧ isBlank 'd' = false :=
  have h := line_no_outer_blanks.1 (chunkLine "hello".toList [([' '], "#world".toList)])
    (by decide)
  ⟨h.1 'h' "ello #world\n".toList (by decide), h.2 "hello #worl".toList 'd' (by decide)⟩

/-- C19: in every match of the `sub_document` rule, the text between the `{` and
the `}` terminals (the contents and the carriage returns skipped before `}`)
holds no newline, and neither does any content line; the newlines of the match
are exactly those of the separators of its title, plus one when the optional
newline after `}` is present. -/
theorem sub_document_body_one_line (s : SubDocument) (h : sub_document s = true) :
    s.src = extras s.star.pre ++ '*' :: ' ' :: ((wordsSrc s.title ++ extras s.lbrace.pre) ++
      '{' :: ((contentsSrc s.contents ++ extras s.rbrace.pre) ++ '}' :: optSrc s.nl)) ∧
    '\n' ∉ contentsSrc s.contents ++ extras s.rbrace.pre ∧
    (∀ t ∈ s.contentLines, '\n' ∉ t) ∧
    s.src.count '\n' =
      (s.titleSeps.map (fun l => l.text.count '\n')).sum + (if s.nl.isSome then 1 else 0) := by
  obtain ⟨he, hn⟩ := sub_document_src s h
  obtain ⟨-, ht, -, hc, -, hnl⟩ := sub_document_inv s h
  refine ⟨he, hn, ?_, ?_⟩
  · intro t htm hm
    unfold SubDocument.contentLines at htm
    cases hcs : s.contents with
    | none => rw [hcs] at htm; cases htm
    | some ls =>
      rw [hcs] at htm hc
      obtain ⟨l, hl, rfl⟩ := List.mem_map.1 htm
      simp only [optional, contents, repeat1, Bool.and_eq_true, List.all_eq_true] at hc
      exact absurd (((plus_iff _ _).1 (hc.2 l hl)).2 _ hm) (by decide)
  · have htitle : (wordsSrc s.title).count '\n' =
        (s.titleSeps.map (fun l => l.text.count '\n')).sum := by
      unfold SubDocument.titleSeps
      cases hti : s.title with
      | none => simp [wordsSrc]
      | some m =>
        rw [hti] at ht
        cases m with
        | mk hd tl => exact many_sep_count_nl SPACE tl hd ht
    have hopt : (optSrc s.nl).count '\n' = if s.nl.isSome then 1 else 0 := by
      cases hs : s.nl with
      | none => simp [optSrc]
      | some l =>
        rw [hs] at hnl
        simp [optSrc, Lexeme.src, nl_inv l hnl, List.count_append, count_nl_extras]
    have hbody : (contentsSrc s.contents ++ extras s.rbrace.pre).count '\n' = 0 :=
      List.count_eq_zero_of_not_mem hn
    rw [he]
    simp only [List.count_append, List.count_cons, count_nl_extras, htitle, hopt, hbody]
    simp

/-- Witness for C19 at `* !!a\n!!b{x y}\n`: two newlines, one in the title and the
final one. -/
theorem sub_document_body_one_line_witness :
    bodyExample.src = "* !!a\n!!b\x7bx y\x7d\n".toList ∧
    bodyExample.contentLines = [['x', ' ', 'y']] ∧
    bodyExample.src.count '\n' = 1 + 1 :=
  have h := sub_document_body_one_line bodyExample (by decide)
  ⟨by decide, by decide, h.2.2.2⟩

end Papier
